import Mathlib

/-!
Verification development for the rpkg-rs resource-archive library.

The Rust sources are shallowly embedded: strings become `List Char`,
byte buffers become `List Nat` (each element kept below 256 by
construction or hypothesis), machine integers become `Nat` with explicit
`% 2 ^ w` where overflow matters, and fallible operations return
`Option` (`none` models both `Err(..)` returns and panics; the
distinction is noted at each definition).

Sections:
1. `ResourceID` (src/misc/resource_id.rs)
2. Reference flags (src/resource/resource_package.rs)
3. Archive codec: parser and `read_resource` (src/resource/resource_package.rs)
4. Partition layering (src/resource/resource_partition.rs)
5. XTEA text files (src/encryption/xtea.rs)
6. Package builder (src/resource/package_builder.rs)
-/

/-! ## Section 1: ResourceID (src/misc/resource_id.rs)

The Rust code stores the identifier as a `String`; we use `List Char`.
All identifiers in the claims are ASCII, for which Rust's byte-indexed
string operations agree with the character-indexed list operations used
here. -/

/-- The platform token `pc_`, i.e. `format!("{}_", CONSOLE_TAG)` with
`CONSOLE_TAG = "pc"`. -/
def pcTok : List Char := ['p', 'c', '_']

/-- `char::to_ascii_lowercase`: maps `A`..`Z` to `a`..`z`, fixes every
other character. -/
def asciiLower (c : Char) : Char :=
  if 65 ≤ c.toNat ∧ c.toNat ≤ 90 then Char.ofNat (c.toNat + 32) else c

/-- The predicate of `uri.retain(|c| c as u8 > 0x1F)`; Rust's `c as u8`
truncates the code point to its low byte. -/
def keepChar (c : Char) : Bool := decide (0x1F < c.toNat % 256)

/-- `str::replace("pc_", "")`: removes the non-overlapping left-to-right
matches of `pc_`, scanning the original string once (removed spans are
not re-scanned). -/
def removePc : List Char → List Char
  | 'p' :: 'c' :: '_' :: rest => removePc rest
  | c :: rest => c :: removePc rest
  | [] => []

/-- Does `pc_` occur as a contiguous substring? -/
def hasPc : List Char → Bool
  | 'p' :: 'c' :: '_' :: _ => true
  | _ :: rest => hasPc rest
  | [] => false

/-- Is the first list a prefix of the second (character equality)? -/
def leadsWith : List Char → List Char → Bool
  | [], _ => true
  | _ :: _, [] => false
  | p :: ps, c :: cs => p == c && leadsWith ps cs

/-- Does `pat` occur as a contiguous substring of the list?  Models
`str::contains` for a non-empty literal pattern. -/
def hasSub (pat : List Char) : List Char → Bool
  | [] => pat.isEmpty
  | c :: rest => leadsWith pat (c :: rest) || hasSub pat rest

/-- The forbidden substring of `ResourceID::is_valid`. -/
def unknownTok : List Char := ['u', 'n', 'k', 'n', 'o', 'w', 'n']

/-- `str::starts_with(char)`. -/
def startsWithChar (u : List Char) (c : Char) : Bool :=
  match u with
  | x :: _ => x == c
  | [] => false

/-- `ResourceID { uri: String }`. -/
structure ResourceID where
  uri : List Char
deriving DecidableEq, Repr

/-- `ResourceID::is_valid`: starts with `[`, contains no `unknown`
substring, no `*`, and contains `]`. -/
def rid_is_valid (u : List Char) : Bool :=
  startsWithChar u '['
    && !(hasSub unknownTok u)
    && !(decide ('*' ∈ u))
    && decide (']' ∈ u)

/-- `ResourceID::from_str`: lowercase, strip control characters, check
the shape of the intermediate string, then strip every `pc_` occurrence.
`none` models `Err(ResourceIDError::InvalidFormat)`. -/
def from_str (source : List Char) : Option ResourceID :=
  let uri := (source.map asciiLower).filter keepChar
  if rid_is_valid uri then some ⟨removePc uri⟩ else none

/-- Index of the last occurrence of `c`, as in `str::rfind`. -/
def rfindIdx : List Char → Char → Option Nat
  | [], _ => none
  | x :: xs, c =>
    match rfindIdx xs c with
    | some i => some (i + 1)
    | none => if x == c then some 0 else none

/-- `ResourceID::resource_path`: re-insert `pc_` after the last `.`.
The Rust code calls `self.uri.rfind('.').unwrap()`; `none` models the
panic when the uri holds no `.`. -/
def resource_path (r : ResourceID) : Option (List Char) :=
  match rfindIdx r.uri '.' with
  | none => none
  | some d => some (r.uri.take (d + 1) ++ pcTok ++ r.uri.drop (d + 1))

/-! ### Lemmas about the string helpers -/

theorem removePc_cons_ne (c : Char) (rest : List Char)
    (h : ∀ (rest' : List Char), c = 'p' → rest = 'c' :: '_' :: rest' → False) :
    removePc (c :: rest) = c :: removePc rest := by
  rw [removePc.eq_def]
  split
  · rename_i heq
    exfalso
    injection heq with h1 h2
    exact h _ h1 h2
  · rename_i heq
    injection heq with h1 h2
    subst h1
    subst h2
    rfl
  · rename_i heq
    exact absurd heq (by simp)

theorem hasPc_cons_ne (c : Char) (rest : List Char)
    (h : ∀ (rest' : List Char), c = 'p' → rest = 'c' :: '_' :: rest' → False) :
    hasPc (c :: rest) = hasPc rest := by
  rw [hasPc.eq_def]
  split
  · rename_i heq
    exfalso
    injection heq with h1 h2
    exact h _ h1 h2
  · rename_i heq
    injection heq with h1 h2
    subst h2
    rfl
  · rename_i heq
    exact absurd heq (by simp)

theorem sub_cons3 (a b c : Char) (rest : List Char) :
    List.Sublist rest (a :: b :: c :: rest) :=
  (List.sublist_cons_self c rest).trans
    ((List.sublist_cons_self b _).trans (List.sublist_cons_self a _))

theorem removePc_sublist : ∀ l : List Char, List.Sublist (removePc l) l := by
  intro l
  induction l using removePc.induct with
  | case1 rest ih =>
    show List.Sublist (removePc rest) _
    exact ih.trans (sub_cons3 _ _ _ _)
  | case2 c rest h ih =>
    rw [removePc_cons_ne c rest h]
    exact ih.cons₂ c
  | case3 => simp [removePc]

theorem mem_of_mem_removePc {c : Char} {l : List Char}
    (h : c ∈ removePc l) : c ∈ l :=
  (removePc_sublist l).subset h

theorem removePc_eq_self : ∀ l : List Char, hasPc l = false → removePc l = l := by
  intro l
  induction l using removePc.induct with
  | case1 rest _ => intro h; simp [hasPc] at h
  | case2 c rest h ih =>
    intro hp
    rw [hasPc_cons_ne c rest h] at hp
    rw [removePc_cons_ne c rest h, ih hp]
  | case3 => intro _; rfl

theorem hasPc_append_left (a b : List Char)
    (h : hasPc a = true) : hasPc (a ++ b) = true := by
  induction a using hasPc.induct with
  | case1 rest => simp [hasPc]
  | case2 c rest hne ih =>
    rw [hasPc_cons_ne c rest hne] at h
    rw [List.cons_append]
    by_cases hm : ∀ (rest' : List Char), c = 'p' → rest ++ b = 'c' :: '_' :: rest' → False
    · rw [hasPc_cons_ne c (rest ++ b) hm]
      exact ih h
    · push_neg at hm
      obtain ⟨r', h1, h2, -⟩ := hm
      subst h1
      rw [h2]
      rfl
  | case3 => simp [hasPc] at h

theorem hasPc_append_right (a b : List Char)
    (h : hasPc b = true) : hasPc (a ++ b) = true := by
  induction a using hasPc.induct with
  | case1 rest => simp [hasPc]
  | case2 c rest hne ih =>
    rw [List.cons_append]
    by_cases hm : ∀ (rest' : List Char), c = 'p' → rest ++ b = 'c' :: '_' :: rest' → False
    · rw [hasPc_cons_ne c (rest ++ b) hm]
      exact ih
    · push_neg at hm
      obtain ⟨r', h1, h2, -⟩ := hm
      subst h1
      rw [h2]
      rfl
  | case3 => simpa using h

theorem hasPc_append_false_left {a b : List Char}
    (h : hasPc (a ++ b) = false) : hasPc a = false := by
  by_contra hc
  rw [hasPc_append_left a b (by revert hc; cases hasPc a <;> simp)] at h
  exact absurd h (by simp)

theorem hasPc_append_false_right {a b : List Char}
    (h : hasPc (a ++ b) = false) : hasPc b = false := by
  by_contra hc
  rw [hasPc_append_right a b (by revert hc; cases hasPc b <;> simp)] at h
  exact absurd h (by simp)

/-- Removal across an inserted `pc_` block: when `a` contains no `pc_`,
the single left-to-right pass of `replace` removes the block and then
continues in `b` alone. -/
theorem removePc_append_block (a b : List Char) (ha : hasPc a = false) :
    removePc (a ++ 'p' :: 'c' :: '_' :: b) = a ++ removePc b := by
  induction a using removePc.induct with
  | case1 rest ih => simp [hasPc] at ha
  | case2 c rest h ih =>
    rw [hasPc_cons_ne c rest h] at ha
    rw [List.cons_append]
    have hm : ∀ (rest' : List Char), c = 'p' →
        rest ++ 'p' :: 'c' :: '_' :: b = 'c' :: '_' :: rest' → False := by
      intro r' h1 h2
      subst h1
      cases rest with
      | nil => simp at h2
      | cons x xs =>
        simp only [List.cons_append, List.cons.injEq] at h2
        obtain ⟨hx, h3⟩ := h2
        subst hx
        cases xs with
        | nil => simp at h3
        | cons y ys =>
          simp only [List.cons_append, List.cons.injEq] at h3
          obtain ⟨hy, _⟩ := h3
          subst hy
          exact h ys rfl rfl
    rw [removePc_cons_ne c _ hm, ih ha]
    rfl
  | case3 =>
    show removePc ('p' :: 'c' :: '_' :: b) = removePc b
    rfl

theorem hasSub_nil_pat (l : List Char) : hasSub [] l = true := by
  cases l <;> simp [hasSub, leadsWith, List.isEmpty]

theorem leadsWith_head_eq {q m : Char} {qs l : List Char}
    (h : leadsWith (q :: qs) (m :: l) = true) : q = m := by
  simp only [leadsWith, Bool.and_eq_true, beq_iff_eq] at h
  exact h.1

/-- A prefix match that would have to cross an inserted block whose
characters do not occur in the pattern can ignore the block. -/
theorem leadsWith_strip_mid (pat : List Char) (mid : List Char)
    (hmid : ∀ x ∈ mid, x ∉ pat) :
    ∀ t d : List Char, leadsWith pat (t ++ mid ++ d) = true →
      leadsWith pat (t ++ d) = true := by
  induction pat with
  | nil => intro t d _; rfl
  | cons q qs ih =>
    intro t d h
    cases t with
    | nil =>
      cases mid with
      | nil => exact h
      | cons m mid' =>
        exfalso
        have hq := @leadsWith_head_eq q m qs (mid' ++ d)
          (by simpa using h)
        exact hmid m (by simp) (hq ▸ List.mem_cons_self q qs)
    | cons y t' =>
      simp only [List.cons_append, leadsWith, Bool.and_eq_true] at h ⊢
      refine ⟨h.1, ?_⟩
      exact ih (fun x hx hxp => hmid x hx (List.mem_cons_of_mem q hxp)) t' d h.2

/-- A substring occurrence survives the removal of an inserted block
whose characters do not occur in the pattern. -/
theorem hasSub_strip_mid (pat : List Char) (mid : List Char)
    (hmid : ∀ x ∈ mid, x ∉ pat) :
    ∀ t d : List Char, hasSub pat (t ++ mid ++ d) = true →
      hasSub pat (t ++ d) = true := by
  intro t
  induction t with
  | nil =>
    intro d h
    induction mid with
    | nil => exact h
    | cons m mid' ihm =>
      cases pat with
      | nil => exact hasSub_nil_pat _
      | cons q qs =>
        simp only [List.nil_append, List.cons_append, hasSub,
          Bool.or_eq_true] at h
        rcases h with h | h
        · exact absurd ((leadsWith_head_eq h) ▸ List.mem_cons_self q qs)
            (hmid m (by simp))
        · exact ihm (fun x hx => hmid x (List.mem_cons_of_mem m hx)) h
  | cons y t' iht =>
    intro d h
    simp only [List.cons_append, hasSub, Bool.or_eq_true] at h ⊢
    rcases h with h | h
    · exact Or.inl (leadsWith_strip_mid pat mid hmid (y :: t') d h)
    · exact Or.inr (iht d h)

theorem map_fix_eq_self {f : Char → Char} :
    ∀ l : List Char, (∀ c ∈ l, f c = c) → l.map f = l := by
  intro l
  induction l with
  | nil => intro _; rfl
  | cons x xs ih =>
    intro h
    simp only [List.map_cons, h x (by simp), List.cons.injEq, true_and]
    exact ih fun c hc => h c (List.mem_cons_of_mem x hc)

theorem asciiLower_idem (c : Char) : asciiLower (asciiLower c) = asciiLower c := by
  by_cases h : 65 ≤ c.toNat ∧ c.toNat ≤ 90
  · have h1 : asciiLower c = Char.ofNat (c.toNat + 32) := by
      rw [asciiLower, if_pos h]
    have ht : (Char.ofNat (c.toNat + 32)).toNat = c.toNat + 32 := by
      unfold Char.ofNat
      rw [dif_pos]
      · rfl
      · exact Or.inl (by omega)
    rw [h1, asciiLower, if_neg]
    rw [ht]
    omega
  · have h1 : asciiLower c = c := by
      rw [asciiLower, if_neg h]
    rw [h1, asciiLower, if_neg h]

theorem from_str_some {s : List Char} {r : ResourceID} (h : from_str s = some r) :
    rid_is_valid ((s.map asciiLower).filter keepChar) = true ∧
      r = ⟨removePc ((s.map asciiLower).filter keepChar)⟩ := by
  rw [from_str] at h
  by_cases hv : rid_is_valid ((s.map asciiLower).filter keepChar) = true
  · rw [if_pos hv] at h
    exact ⟨hv, (Option.some.injEq _ _ ▸ h).symm⟩
  · rw [if_neg hv] at h
    exact absurd h (by simp)

theorem uri_chars_lower_fixed {s : List Char} {r : ResourceID}
    (h : from_str s = some r) : ∀ c ∈ r.uri, asciiLower c = c := by
  intro c hc
  obtain ⟨-, hr⟩ := from_str_some h
  rw [hr] at hc
  have h1 : c ∈ (s.map asciiLower).filter keepChar := mem_of_mem_removePc hc
  have h2 : c ∈ s.map asciiLower := List.mem_of_mem_filter h1
  obtain ⟨d, -, hd⟩ := List.mem_map.mp h2
  rw [← hd]
  exact asciiLower_idem d

theorem uri_chars_kept {s : List Char} {r : ResourceID}
    (h : from_str s = some r) : ∀ c ∈ r.uri, keepChar c = true := by
  intro c hc
  obtain ⟨-, hr⟩ := from_str_some h
  rw [hr] at hc
  exact List.of_mem_filter (mem_of_mem_removePc hc)

theorem rid_is_valid_parts {u : List Char} (h : rid_is_valid u = true) :
    startsWithChar u '[' = true ∧ hasSub unknownTok u = false ∧
      '*' ∉ u ∧ ']' ∈ u := by
  simp only [rid_is_valid, Bool.and_eq_true, Bool.not_eq_true',
    decide_eq_true_eq, decide_eq_false_iff_not] at h
  exact ⟨h.1.1.1, h.1.1.2, h.1.2, h.2⟩

/-- The inserted platform tag: all chars fixed by lowering, all kept by
the control filter, none occurring in `unknown`. -/
theorem pcTok_facts :
    (∀ c ∈ pcTok, asciiLower c = c) ∧ (∀ c ∈ pcTok, keepChar c = true) ∧
      (∀ c ∈ pcTok, c ∉ unknownTok) ∧ '*' ∉ pcTok := by
  decide

/-- The key validity-transport fact: inserting `pc_` into a valid uri
after a dot keeps it valid. -/
theorem rid_is_valid_insert {u : List Char} {d : Nat}
    (hv : rid_is_valid u = true) :
    rid_is_valid (u.take (d + 1) ++ pcTok ++ u.drop (d + 1)) = true := by
  obtain ⟨h1, h2, h3, h4⟩ := rid_is_valid_parts hv
  have htd : u.take (d + 1) ++ u.drop (d + 1) = u := List.take_append_drop _ u
  simp only [rid_is_valid, Bool.and_eq_true, Bool.not_eq_true',
    decide_eq_true_eq, decide_eq_false_iff_not]
  refine ⟨⟨⟨?_, ?_⟩, ?_⟩, ?_⟩
  · cases u with
    | nil => simp [startsWithChar] at h1
    | cons x u' =>
      simp only [List.take_succ_cons, List.cons_append]
      simpa [startsWithChar] using h1
  · by_contra hc
    rw [Bool.not_eq_false] at hc
    have := hasSub_strip_mid unknownTok pcTok
      (fun x hx => pcTok_facts.2.2.1 x hx) (u.take (d + 1)) (u.drop (d + 1)) hc
    rw [htd] at this
    rw [this] at h2
    exact absurd h2 (by simp)
  · intro hc
    rcases List.mem_append.mp hc with hc | hc
    · rcases List.mem_append.mp hc with hc | hc
      · exact h3 (List.take_subset _ _ hc)
      · exact pcTok_facts.2.2.2 hc
    · exact h3 (List.drop_subset _ _ hc)
  · rw [← htd] at h4
    rcases List.mem_append.mp h4 with hc | hc
    · exact List.mem_append.mpr (Or.inl (List.mem_append.mpr (Or.inl hc)))
    · exact List.mem_append.mpr (Or.inr hc)

/-- Claim C6 (amended): `from_str` strips `pc_` occurrences in a single
left-to-right pass regardless of the preceding character — a preceding
`.` is not required.  For any decomposition `a ++ pc_ ++ b` of the
input where `a` holds no earlier occurrence (and the input is already
lowercase, control-free and shape-valid), the parsed uri is
`a ++ removePc b`: the exhibited occurrence is removed even when `a`
does not end with a dot. -/
theorem c6_strip_everywhere (a b : List Char)
    (hnopc : hasPc a = false)
    (hfix : ∀ c ∈ a ++ pcTok ++ b, asciiLower c = c)
    (hkeep : ∀ c ∈ a ++ pcTok ++ b, keepChar c = true)
    (hvalid : rid_is_valid (a ++ pcTok ++ b) = true) :
    from_str (a ++ pcTok ++ b) = some ⟨a ++ removePc b⟩ := by
  rw [from_str]
  have hmap : (a ++ pcTok ++ b).map asciiLower = a ++ pcTok ++ b :=
    map_fix_eq_self _ hfix
  have hfil : (a ++ pcTok ++ b).filter keepChar = a ++ pcTok ++ b :=
    List.filter_eq_self.mpr hkeep
  rw [hmap, hfil, if_pos hvalid]
  have : a ++ pcTok ++ b = a ++ 'p' :: 'c' :: '_' :: b := by
    simp [pcTok]
  rw [this, removePc_append_block a b hnopc]

/-- Witness for C6 (amended) at a concrete input: the `pc_` in
`[q:/xpc_y.t]` follows `x`, not `.`, and is stripped all the same. -/
theorem c6_strip_everywhere_witness :
    hasPc (("[q:/x").toList) = false ∧
    rid_is_valid ((("[q:/x").toList) ++ pcTok ++ (("y.t]").toList)) = true ∧
    from_str ((("[q:/x").toList) ++ pcTok ++ (("y.t]").toList)) =
      some ⟨(("[q:/x").toList) ++ removePc (("y.t]").toList)⟩ :=
  ⟨by decide, by decide,
    c6_strip_everywhere _ _ (by decide) (by decide) (by decide) (by decide)⟩

/-- Counterexample to Claim C6 as stated: in `[a:/xpc_y.t]` the single
`pc_` occurrence is immediately preceded by `x`, not by `.`, yet
`from_str` strips it: the parsed uri is `[a:/xy.t]`, not the unchanged
`[a:/xpc_y.t]` the claim predicts. -/
theorem c6_counterexample :
    ("[a:/xpc_y.t]").toList =
      (("[a:/x").toList) ++ pcTok ++ (("y.t]").toList) ∧
    (("[a:/x").toList).getLast? = some 'x' ∧
    from_str (("[a:/xpc_y.t]").toList) = some ⟨("[a:/xy.t]").toList⟩ ∧
    (ResourceID.mk (("[a:/xy.t]").toList)) ≠ ⟨("[a:/xpc_y.t]").toList⟩ := by
  refine ⟨by decide, by decide, by decide, by decide⟩

/-- Claim C7 (amended): re-parsing the canonical `resource_path`
rendering returns the same `ResourceID`, provided the stored uri
contains a dot (otherwise `resource_path` panics), contains no `pc_`
occurrence left over from the single-pass strip, and is itself still
shape-valid (the strip can manufacture `unknown`, which the re-parse
rejects). -/
theorem c7_reparse_roundtrip (s : List Char) (rid : ResourceID) (p : List Char)
    (hparse : from_str s = some rid)
    (hpath : resource_path rid = some p)
    (hnopc : hasPc rid.uri = false)
    (hvalid : rid_is_valid rid.uri = true) :
    from_str p = some rid := by
  obtain ⟨d, hd, hp⟩ : ∃ d, rfindIdx rid.uri '.' = some d ∧
      p = rid.uri.take (d + 1) ++ pcTok ++ rid.uri.drop (d + 1) := by
    rw [resource_path] at hpath
    rcases hrf : rfindIdx rid.uri '.' with - | d
    · rw [hrf] at hpath; exact absurd hpath (by simp)
    · rw [hrf] at hpath
      exact ⟨d, rfl, by simpa using hpath.symm⟩
  have hfixu := uri_chars_lower_fixed hparse
  have hkeepu := uri_chars_kept hparse
  have htd : rid.uri.take (d + 1) ++ rid.uri.drop (d + 1) = rid.uri :=
    List.take_append_drop _ _
  have hmemfix : ∀ c ∈ p, asciiLower c = c := by
    intro c hc
    rw [hp] at hc
    rcases List.mem_append.mp hc with hc | hc
    · rcases List.mem_append.mp hc with hc | hc
      · exact hfixu c (List.take_subset _ _ hc)
      · exact pcTok_facts.1 c hc
    · exact hfixu c (List.drop_subset _ _ hc)
  have hmemkeep : ∀ c ∈ p, keepChar c = true := by
    intro c hc
    rw [hp] at hc
    rcases List.mem_append.mp hc with hc | hc
    · rcases List.mem_append.mp hc with hc | hc
      · exact hkeepu c (List.take_subset _ _ hc)
      · exact pcTok_facts.2.1 c hc
    · exact hkeepu c (List.drop_subset _ _ hc)
  rw [from_str, map_fix_eq_self _ hmemfix, List.filter_eq_self.mpr hmemkeep]
  rw [hp, if_pos (rid_is_valid_insert hvalid)]
  have hnopc_take : hasPc (rid.uri.take (d + 1)) = false :=
    hasPc_append_false_left (htd ▸ hnopc)
  have hnopc_drop : hasPc (rid.uri.drop (d + 1)) = false :=
    hasPc_append_false_right (htd ▸ hnopc)
  have : rid.uri.take (d + 1) ++ pcTok ++ rid.uri.drop (d + 1) =
      rid.uri.take (d + 1) ++ 'p' :: 'c' :: '_' :: rid.uri.drop (d + 1) := by
    simp [pcTok]
  rw [this, removePc_append_block _ _ hnopc_take,
    removePc_eq_self _ hnopc_drop, htd]

/-- Witness for C7 (amended) at a concrete input. -/
theorem c7_reparse_roundtrip_witness :
    from_str (("[z:/f.t]").toList) = some ⟨("[z:/f.t]").toList⟩ ∧
    resource_path ⟨("[z:/f.t]").toList⟩ = some (("[z:/f.pc_t]").toList) ∧
    hasPc (("[z:/f.t]").toList) = false ∧
    rid_is_valid (("[z:/f.t]").toList) = true ∧
    from_str (("[z:/f.pc_t]").toList) = some ⟨("[z:/f.t]").toList⟩ :=
  ⟨by decide, by decide, by decide, by decide,
    c7_reparse_roundtrip (("[z:/f.t]").toList) ⟨("[z:/f.t]").toList⟩
      (("[z:/f.pc_t]").toList) (by decide) (by decide) (by decide) (by decide)⟩

/-- Counterexample to Claim C7 as stated: `from_str` accepts
`[a:ppc_c_x.t]` and the single-pass `pc_` strip leaves the uri
`[a:pc_x.t]` (removing one occurrence manufactures another).  Its
canonical rendering is `[a:pc_x.pc_t]`, which re-parses to `[a:x.t]` —
a different `ResourceID`, so `parse (format rid) ≠ some rid`. -/
theorem c7_counterexample :
    from_str (("[a:ppc_c_x.t]").toList) = some ⟨("[a:pc_x.t]").toList⟩ ∧
    resource_path ⟨("[a:pc_x.t]").toList⟩ = some (("[a:pc_x.pc_t]").toList) ∧
    from_str (("[a:pc_x.pc_t]").toList) = some ⟨("[a:x.t]").toList⟩ ∧
    (ResourceID.mk (("[a:x.t]").toList)) ≠ ⟨("[a:pc_x.t]").toList⟩ := by
  refine ⟨by decide, by decide, by decide, by decide⟩

/-- Claim C10: `ResourceID::from_str` accepts `[assembly:/test]`, which
contains no `.`, and `resource_path` on the result hits
`rfind('.').unwrap()` on `None` — the modelled `none` is a panic in the
Rust code, which `RuntimeResourceID::from_resource_id` reaches through
its direct call `Md5::digest(rid.resource_path())`. -/
theorem c10_resource_path_panics :
    from_str (("[assembly:/test]").toList) =
      some ⟨("[assembly:/test]").toList⟩ ∧
    resource_path ⟨("[assembly:/test]").toList⟩ = none := by
  refine ⟨by decide, by decide⟩

/-! ## Section 2: reference flags (src/resource/resource_package.rs)

The two one-byte bitfields are modelled as `Nat` values below 256 with
explicit shift/mask accessors, exactly as `bitfield_struct` packs them:
LSB-first within the byte.

`ResourceReferenceFlagsV1`: bit 0 pad, bit 1 `runtime_acquired`, bit 2
`weak_reference`, bit 3 pad, bit 4 `type_of_streaming_entity`, bit 5
`state_streamed`, bit 6 `media_streamed`, bit 7 `install_dependency`.

`ResourceReferenceFlagsV2`: bits 0-4 `language_code` (default `0x1F`),
bit 5 `runtime_acquired`, bits 6-7 `reference_type`. -/

/-- Write a single bit of a packed word. -/
def setBitN (b i : Nat) (v : Bool) : Nat :=
  b % 2 ^ i + (if v then 2 ^ i else 0) + b / 2 ^ (i + 1) * 2 ^ (i + 1)

/-- Write a bit-range `[lo, lo+width)` of a packed word. -/
def setFieldN (b lo width v : Nat) : Nat :=
  b % 2 ^ lo + v % 2 ^ width * 2 ^ lo + b / 2 ^ (lo + width) * 2 ^ (lo + width)

/-- `ReferenceType { INSTALL = 0, NORMAL = 1, WEAK = 2 }`. -/
inductive ReferenceType where
  | INSTALL
  | NORMAL
  | WEAK
deriving DecidableEq, Repr

/-- `ReferenceType::from_bits` (the `_` arm returns `NORMAL`). -/
def referenceType_from_bits (v : Nat) : ReferenceType :=
  match v with
  | 0 => ReferenceType.INSTALL
  | 1 => ReferenceType.NORMAL
  | 2 => ReferenceType.WEAK
  | _ => ReferenceType.NORMAL

/-- `ReferenceType::into_bits` (`self as _`). -/
def referenceType_into_bits : ReferenceType → Nat
  | ReferenceType.INSTALL => 0
  | ReferenceType.NORMAL => 1
  | ReferenceType.WEAK => 2

def v1_runtime_acquired (b : Nat) : Bool := Nat.testBit b 1

def v1_weak_reference (b : Nat) : Bool := Nat.testBit b 2

def v1_type_of_streaming_entity (b : Nat) : Bool := Nat.testBit b 4

def v1_state_streamed (b : Nat) : Bool := Nat.testBit b 5

def v1_media_streamed (b : Nat) : Bool := Nat.testBit b 6

def v1_install_dependency (b : Nat) : Bool := Nat.testBit b 7

def v1_with_runtime_acquired (b : Nat) (v : Bool) : Nat := setBitN b 1 v

def v1_with_weak_reference (b : Nat) (v : Bool) : Nat := setBitN b 2 v

def v1_with_install_dependency (b : Nat) (v : Bool) : Nat := setBitN b 7 v

/-- `ResourceReferenceFlagsV1::new()`: all bits clear. -/
def v1_new : Nat := 0

def v2_language_code (b : Nat) : Nat := b % 32

def v2_runtime_acquired (b : Nat) : Bool := Nat.testBit b 5

def v2_reference_type (b : Nat) : ReferenceType :=
  referenceType_from_bits (b / 64 % 4)

def v2_with_language_code (b v : Nat) : Nat := setFieldN b 0 5 v

def v2_with_runtime_acquired (b : Nat) (v : Bool) : Nat := setBitN b 5 v

def v2_with_reference_type (b : Nat) (t : ReferenceType) : Nat :=
  setFieldN b 6 2 (referenceType_into_bits t)

/-- `ResourceReferenceFlagsV2::new()`: `language_code` defaults to
`0x1F`, the other fields to zero. -/
def v2_new : Nat := 0x1F

/-- `ResourceReferenceFlags { V1(..), V2(..) }`, payloads as raw bytes. -/
inductive RRFlags where
  | V1 (b : Nat)
  | V2 (b : Nat)
deriving DecidableEq, Repr

/-- `ResourceReferenceFlags::reference_type`. -/
def flags_reference_type : RRFlags → ReferenceType
  | RRFlags.V1 b =>
    if v1_install_dependency b then ReferenceType.INSTALL
    else if v1_weak_reference b then ReferenceType.WEAK
    else ReferenceType.NORMAL
  | RRFlags.V2 b => v2_reference_type b

/-- `ResourceReferenceFlags::is_acquired`. -/
def flags_is_acquired : RRFlags → Bool
  | RRFlags.V1 b => v1_runtime_acquired b
  | RRFlags.V2 b => v2_runtime_acquired b

/-- `From<ResourceReferenceFlags> for ResourceReferenceFlagsV1`
(`to_v1`): the `V2` arm builds
`new().with_runtime_acquired(..).with_weak_reference(type == WEAK)
.with_install_dependency(type == INSTALL)`. -/
def flags_to_v1 : RRFlags → Nat
  | RRFlags.V1 b => b
  | RRFlags.V2 b =>
    v1_with_install_dependency
      (v1_with_weak_reference
        (v1_with_runtime_acquired v1_new (v2_runtime_acquired b))
        (decide (v2_reference_type b = ReferenceType.WEAK)))
      (decide (v2_reference_type b = ReferenceType.INSTALL))

/-- `From<ResourceReferenceFlags> for ResourceReferenceFlagsV2`
(`to_v2`): the `V1` arm builds
`new().with_language_code(0x1F).with_runtime_acquired(..)
.with_reference_type(value.reference_type())`. -/
def flags_to_v2 : RRFlags → Nat
  | RRFlags.V2 b => b
  | RRFlags.V1 b =>
    v2_with_reference_type
      (v2_with_runtime_acquired
        (v2_with_language_code v2_new 0x1F)
        (v1_runtime_acquired b))
      (flags_reference_type (RRFlags.V1 b))

/-- Claim C5: for every representable flag byte, the new-to-legacy
conversion sets `install_dependency = (type == INSTALL)`,
`weak_reference = (type == WEAK)`, preserves `runtime_acquired` and
leaves every other bit zero; the legacy-to-new conversion sets
`language_code = 0x1F`, preserves `runtime_acquired` and maps the
legacy bits to `INSTALL` / `WEAK` / `NORMAL` in that priority order. -/
theorem c5_flag_conversions :
    ∀ b : Nat, b < 256 →
      (v1_install_dependency (flags_to_v1 (RRFlags.V2 b)) =
          decide (v2_reference_type b = ReferenceType.INSTALL) ∧
        v1_weak_reference (flags_to_v1 (RRFlags.V2 b)) =
          decide (v2_reference_type b = ReferenceType.WEAK) ∧
        v1_runtime_acquired (flags_to_v1 (RRFlags.V2 b)) =
          v2_runtime_acquired b ∧
        Nat.testBit (flags_to_v1 (RRFlags.V2 b)) 0 = false ∧
        Nat.testBit (flags_to_v1 (RRFlags.V2 b)) 3 = false ∧
        v1_type_of_streaming_entity (flags_to_v1 (RRFlags.V2 b)) = false ∧
        v1_state_streamed (flags_to_v1 (RRFlags.V2 b)) = false ∧
        v1_media_streamed (flags_to_v1 (RRFlags.V2 b)) = false ∧
        flags_to_v1 (RRFlags.V2 b) < 256) ∧
      (v2_language_code (flags_to_v2 (RRFlags.V1 b)) = 0x1F ∧
        v2_runtime_acquired (flags_to_v2 (RRFlags.V1 b)) =
          v1_runtime_acquired b ∧
        v2_reference_type (flags_to_v2 (RRFlags.V1 b)) =
          (if v1_install_dependency b then ReferenceType.INSTALL
            else if v1_weak_reference b then ReferenceType.WEAK
            else ReferenceType.NORMAL)) := by
  set_option maxRecDepth 4000 in decide

/-- Witness for C5 at the byte `0x5F` (language `0x1F`, acquired,
type `NORMAL`), cf. the repository test `test_flag_conversion_005f`. -/
theorem c5_flag_conversions_witness :
    (95 : Nat) < 256 ∧
      v1_runtime_acquired (flags_to_v1 (RRFlags.V2 95)) =
        v2_runtime_acquired 95 :=
  ⟨by decide, (((c5_flag_conversions 95 (by decide)).1).2.2).1⟩

/-! ## Section 3: archive codec (src/resource/resource_package.rs)

Byte buffers are `List Nat`; every multi-byte integer on disk is
little-endian.  A parser step maps the remaining bytes to
`Option (value × remaining bytes)`; `none` models
`Err(ParsingError(..))` (any field failing to decode, including
truncation). -/

/-- Read exactly `n` bytes. -/
def readN (n : Nat) (bs : List Nat) : Option (List Nat × List Nat) :=
  if n ≤ bs.length then some (bs.take n, bs.drop n) else none

/-- Little-endian value of a byte list. -/
def leVal : List Nat → Nat
  | [] => 0
  | b :: rest => b % 256 + 256 * leVal rest

/-- Read an `n`-byte little-endian unsigned integer. -/
def readLE (n : Nat) (bs : List Nat) : Option (Nat × List Nat) :=
  (readN n bs).map fun p => (leVal p.1, p.2)

/-- `n`-byte little-endian encoding of `v % 2 ^ (8 * n)`. -/
def leBytes : Nat → Nat → List Nat
  | 0, _ => []
  | k + 1, v => v % 256 :: leBytes k (v / 256)

/-- `RuntimeResourceID::from(u64)`: out-of-range values collapse to the
sentinel `0x00FFFFFFFFFFFFFF` (`invalid()`). -/
def rrid_from (v : Nat) : Nat :=
  if v < 0x00FFFFFFFFFFFFFF then v else 0x00FFFFFFFFFFFFFF

/-- `RuntimeResourceID::is_valid`. -/
def rrid_is_valid (v : Nat) : Bool := decide (v < 0x00FFFFFFFFFFFFFF)

/-- The insertion-ordered map (`indexmap::IndexMap`): association list
where `insert` of an existing key replaces the value in place and of a
fresh key appends at the back. -/
def imInsert {α : Type} : List (Nat × α) → Nat → α → List (Nat × α)
  | [], k, v => [(k, v)]
  | (k', v') :: rest, k, v =>
    if k' = k then (k, v) :: rest else (k', v') :: imInsert rest k v

/-- `IndexMap::get`. -/
def imLookup {α : Type} : List (Nat × α) → Nat → Option α
  | [], _ => none
  | (k', v') :: rest, k => if k' = k then some v' else imLookup rest k

/-- `PackageVersion`. -/
inductive PackageVersion where
  | RPKGv1
  | RPKGv2
deriving DecidableEq, Repr

/-- `ChunkType` (`repr(u8)`: `Standard = 0`, `Addon = 1`). -/
inductive ChunkTypeE where
  | Standard
  | Addon
deriving DecidableEq, Repr

/-- On-disk magic of v1, the bytes `GKPR`. -/
def magicV1 : List Nat := [0x47, 0x4B, 0x50, 0x52]

/-- On-disk magic of v2, the bytes `2KPR`. -/
def magicV2 : List Nat := [0x32, 0x4B, 0x50, 0x52]

/-- `PackageMetadata` (v2 only). -/
structure PackageMetadata where
  unknown : Nat
  chunk_id : Nat
  chunk_type : ChunkTypeE
  patch_id : Nat
  language_tag : List Nat
deriving DecidableEq, Repr

/-- `PackageHeader`. -/
structure PackageHeader where
  file_count : Nat
  offset_table_size : Nat
  metadata_table_size : Nat
deriving DecidableEq, Repr

/-- `PackageOffsetInfo`; `flags` is the packed 32-bit word
`compressed_size : u31 | is_scrambled : u1`. -/
structure PackageOffsetInfo where
  runtime_resource_id : Nat
  data_offset : Nat
  flags : Nat
deriving DecidableEq, Repr

/-- `PackageOffsetFlags::compressed_size` (bits 0-30). -/
def offset_compressed_size (flags : Nat) : Nat := flags % 2 ^ 31

/-- `PackageOffsetFlags::is_scrambled` (bit 31). -/
def offset_is_scrambled (flags : Nat) : Bool := Nat.testBit flags 31

/-- `PackageOffsetInfo::compressed_size`: `None` when the packed field
is zero (resource stored uncompressed). -/
def poi_compressed_size (e : PackageOffsetInfo) : Option Nat :=
  match offset_compressed_size e.flags with
  | 0 => none
  | n => some n

/-- `ResourceHeader` with its optional inline reference chunk. -/
structure ResourceHeader where
  resource_type : List Nat
  references_chunk_size : Nat
  states_chunk_size : Nat
  data_size : Nat
  system_memory_requirement : Nat
  video_memory_requirement : Nat
  references : List (Nat × RRFlags)
deriving DecidableEq, Repr

/-- `ResourceInfo { entry, header }`. -/
structure ResourceInfo where
  entry : PackageOffsetInfo
  header : ResourceHeader
deriving DecidableEq, Repr

/-- `ResourcePackageSource`. -/
inductive RPSource where
  | file (path : List Char)
  | memory (data : List Nat)
deriving DecidableEq

/-- `ResourcePackage`. The `resources` field is the insertion-ordered
`rrid → ResourceInfo` map in offset-table order. -/
structure ResourcePackage where
  source : Option RPSource
  magic : List Nat
  metadata : Option PackageMetadata
  header : PackageHeader
  unneeded_resource_count : Nat
  unneeded_resources : Option (List Nat)
  resources : List (Nat × ResourceInfo)
deriving DecidableEq

/-- `ResourceReferenceCountAndFlags`: `reference_count : u30 |
is_new_format : u1 | always_true : u1`. -/
def rcaf_reference_count (w : Nat) : Nat := w % 2 ^ 30

def rcaf_is_new_format (w : Nat) : Bool := Nat.testBit w 30

def rcaf_always_true (w : Nat) : Bool := Nat.testBit w 31

/-- Read `n` 64-bit rrids, each mapped through
`RuntimeResourceID::from`. -/
def readRrids : Nat → List Nat → Option (List Nat × List Nat)
  | 0, bs => some ([], bs)
  | n + 1, bs =>
    match readLE 8 bs with
    | none => none
    | some (v, bs1) =>
      match readRrids n bs1 with
      | none => none
      | some (vs, bs2) => some (rrid_from v :: vs, bs2)

/-- `read_references`: the leading count-and-flags word, then flags
before rrids in the new layout and rrids before flags in the legacy
layout; pairs are zipped rrid-first. -/
def read_references (bs : List Nat) : Option (List (Nat × RRFlags) × List Nat) :=
  match readLE 4 bs with
  | none => none
  | some (w, bs1) =>
    let cnt := rcaf_reference_count w
    if rcaf_is_new_format w then
      match readN cnt bs1 with
      | none => none
      | some (flagBytes, bs2) =>
        match readRrids cnt bs2 with
        | none => none
        | some (rrids, bs3) =>
          some (rrids.zip (flagBytes.map RRFlags.V2), bs3)
    else
      match readRrids cnt bs1 with
      | none => none
      | some (rrids, bs2) =>
        match readN cnt bs2 with
        | none => none
        | some (flagBytes, bs3) =>
          some (rrids.zip (flagBytes.map RRFlags.V1), bs3)

/-- Parse one `PackageOffsetInfo` (the rrid is read directly into the
binrw struct, without the `From<u64>` clamp). -/
def parseOffsetInfo (bs : List Nat) : Option (PackageOffsetInfo × List Nat) :=
  match readLE 8 bs with
  | none => none
  | some (rrid, bs1) =>
    match readLE 8 bs1 with
    | none => none
    | some (off, bs2) =>
      match readLE 4 bs2 with
      | none => none
      | some (flags, bs3) => some (⟨rrid, off, flags⟩, bs3)

/-- Parse one `ResourceHeader`, consuming its reference chunk iff
`references_chunk_size > 0`. -/
def parseResourceHeader (bs : List Nat) : Option (ResourceHeader × List Nat) :=
  match readN 4 bs with
  | none => none
  | some (rtype, bs1) =>
    match readLE 4 bs1 with
    | none => none
    | some (refSize, bs2) =>
      match readLE 4 bs2 with
      | none => none
      | some (statesSize, bs3) =>
        match readLE 4 bs3 with
        | none => none
        | some (dataSize, bs4) =>
          match readLE 4 bs4 with
          | none => none
          | some (sysMem, bs5) =>
            match readLE 4 bs5 with
            | none => none
            | some (vidMem, bs6) =>
              if refSize > 0 then
                match read_references bs6 with
                | none => none
                | some (refs, bs7) =>
                  some (⟨rtype, refSize, statesSize, dataSize, sysMem,
                    vidMem, refs⟩, bs7)
              else
                some (⟨rtype, refSize, statesSize, dataSize, sysMem,
                  vidMem, []⟩, bs6)

/-- Parse `n` values with a step parser. -/
def parseList {α : Type} (step : List Nat → Option (α × List Nat)) :
    Nat → List Nat → Option (List α × List Nat)
  | 0, bs => some ([], bs)
  | n + 1, bs =>
    match step bs with
    | none => none
    | some (x, bs1) =>
      match parseList step n bs1 with
      | none => none
      | some (xs, bs2) => some (x :: xs, bs2)

/-- `resource_parse`: `file_count` offset entries, then `file_count`
metadata entries, zipped and inserted in offset-table order. -/
def resource_parse (file_count : Nat) (bs : List Nat) :
    Option (List (Nat × ResourceInfo) × List Nat) :=
  match parseList parseOffsetInfo file_count bs with
  | none => none
  | some (entries, bs1) =>
    match parseList parseResourceHeader file_count bs1 with
    | none => none
    | some (headers, bs2) =>
      let resources := (entries.zip headers).map fun p => ResourceInfo.mk p.1 p.2
      some (resources.foldl
        (fun m r => imInsert m r.entry.runtime_resource_id r) [], bs2)

/-- Parse the v2 `PackageMetadata` block; the `ChunkType` byte only
admits `0` and `1` (binrw `repr(u8)` enum). -/
def parseMetadata (bs : List Nat) : Option (PackageMetadata × List Nat) :=
  match readLE 4 bs with
  | none => none
  | some (unknown, bs1) =>
    match readLE 1 bs1 with
    | none => none
    | some (chunkId, bs2) =>
      match readLE 1 bs2 with
      | none => none
      | some (chunkTypeByte, bs3) =>
        match (match chunkTypeByte with
          | 0 => some ChunkTypeE.Standard
          | 1 => some ChunkTypeE.Addon
          | _ => none) with
        | none => none
        | some chunkType =>
          match readLE 1 bs3 with
          | none => none
          | some (patchId, bs4) =>
            match readN 2 bs4 with
            | none => none
            | some (langTag, bs5) =>
              some (⟨unknown, chunkId, chunkType, patchId, langTag⟩, bs5)

/-- Parse a `PackageHeader`. -/
def parseHeader (bs : List Nat) : Option (PackageHeader × List Nat) :=
  match readLE 4 bs with
  | none => none
  | some (fileCount, bs1) =>
    match readLE 4 bs1 with
    | none => none
    | some (offSize, bs2) =>
      match readLE 4 bs2 with
      | none => none
      | some (metaSize, bs3) => some (⟨fileCount, offSize, metaSize⟩, bs3)

/-- The part of the binrw read of `ResourcePackage` after the magic and
the optional metadata block: header, the unneeded-resources block iff
`is_patch`, then the offset and metadata tables.  Trailing bytes are
ignored, as a `Cursor` read is. -/
def parseRPRest (magic : List Nat) (metadata : Option PackageMetadata)
    (r2 : List Nat) (is_patch : Bool) : Option ResourcePackage :=
  match parseHeader r2 with
  | none => none
  | some (header, r3) =>
    match (if is_patch then readLE 4 r3 else some (0, r3)) with
    | none => none
    | some (unneededCount, r4) =>
      match (if is_patch then
          (match readRrids unneededCount r4 with
            | none => none
            | some (ids, r5) =>
              some ((match unneededCount with
                | 0 => none
                | _ + 1 => some ids), r5))
        else some (none, r4)) with
      | none => none
      | some (unneeded, r5) =>
        match resource_parse header.file_count r5 with
        | none => none
        | some (resources, _) =>
          some ⟨none, magic, metadata, header, unneededCount,
            unneeded, resources⟩

/-- The binrw read of `ResourcePackage`: magic, then the metadata block
iff the magic is `2KPR` (no other magic validation happens here), then
the rest. -/
def parseResourcePackage (bs : List Nat) (is_patch : Bool) :
    Option ResourcePackage :=
  match readN 4 bs with
  | none => none
  | some (magic, r1) =>
    match (if magic = magicV2 then
        (match parseMetadata r1 with
          | none => none
          | some (m, r2) => some (some m, r2))
      else some (none, r1)) with
    | none => none
    | some (metadata, r2) => parseRPRest magic metadata r2 is_patch

/-- `ResourcePackage::from_memory`: parse and retain the buffer as the
source. -/
def from_memory (data : List Nat) (is_patch : Bool) : Option ResourcePackage :=
  match parseResourcePackage data is_patch with
  | none => none
  | some p => some { p with source := some (RPSource.memory data) }

/-- `ResourcePackage::version`: `none` models the
`panic!("Unknown package version")` arm. -/
def rpkg_version (p : ResourcePackage) : Option PackageVersion :=
  if p.magic = magicV1 then some PackageVersion.RPKGv1
  else if p.magic = magicV2 then some PackageVersion.RPKGv2
  else none

/-- `ResourcePackage::unneeded_resource_ids` (as values, not refs). -/
def unneeded_resource_ids (p : ResourcePackage) : List Nat :=
  match p.unneeded_resources with
  | none => []
  | some val => val

/-- `ResourcePackage::has_unneeded_resource`. -/
def has_unneeded_resource (p : ResourcePackage) (rrid : Nat) : Bool :=
  match p.unneeded_resources with
  | some l => decide (rrid ∈ l)
  | none => false

/-- The fixed 8-byte scramble key `DC 45 A6 9C D3 72 4C AB`. -/
def scrambleKey : List Nat := [0xdc, 0x45, 0xa6, 0x9c, 0xd3, 0x72, 0x4c, 0xab]

/-- The rolling XOR de/scramble:
`buffer[i] ^= str_xor[i % str_xor.len()]`. -/
def xorScramble (buf : List Nat) : List Nat :=
  buf.enum.map fun p => Nat.xor p.2 (scrambleKey.getD (p.1 % 8) 0)

/-- LZ4 linear small-integer code: when a length nibble is 15, extra
bytes follow, each added, until a byte below 255. -/
def lz4ReadLsic (acc : Nat) : List Nat → Option (Nat × List Nat)
  | [] => none
  | b :: rest =>
    if b % 256 = 255 then lz4ReadLsic (acc + 255) rest else some (acc + b % 256, rest)

/-- Copy `len` match bytes from distance `dist` back in the produced
output (overlapping copies re-read freshly written bytes). -/
def lz4CopyMatch : List Nat → Nat → Nat → Option (List Nat)
  | out, _, 0 => some out
  | out, dist, len + 1 =>
    if dist = 0 ∨ out.length < dist then none
    else lz4CopyMatch (out ++ [out.getD (out.length - dist) 0]) dist len

/-- One LZ4 block-format sequence per iteration: token, literal run,
then (unless the input ends after the literals) a 2-byte little-endian
match offset and a match run of length nibble + 4.  `cap` is the
capacity of the destination buffer; exceeding it fails, as
`LZ4_decompress_safe` does.  `fuel` only bounds the recursion; each
iteration consumes at least one input byte, so `src.length + 1` fuel
never runs out. -/
def lz4Loop : Nat → List Nat → List Nat → Nat → Option (List Nat)
  | 0, _, _, _ => none
  | fuel + 1, src, out, cap =>
    match src with
    | [] => none
    | token :: src1 =>
      match (if token / 16 % 16 = 15 then lz4ReadLsic 15 src1
        else some (token / 16 % 16, src1)) with
      | none => none
      | some (litLen, src2) =>
        match readN litLen src2 with
        | none => none
        | some (lits, src3) =>
          if cap < out.length + litLen then none
          else
            match src3 with
            | [] => some (out ++ lits)
            | [_] => none
            | o1 :: o2 :: src4 =>
              let dist := o1 % 256 + 256 * (o2 % 256)
              match (if token % 16 = 15 then lz4ReadLsic 15 src4
                else some (token % 16, src4)) with
              | none => none
              | some (mlen0, src5) =>
                match lz4CopyMatch (out ++ lits) dist (mlen0 + 4) with
                | none => none
                | some out2 =>
                  if cap < out2.length then none
                  else lz4Loop fuel src5 out2 cap

/-- `lzzzz::lz4::decompress` into a buffer of capacity `cap`. -/
def lz4_decompress (src : List Nat) (cap : Nat) : Option (List Nat) :=
  lz4Loop (src.length + 1) src [] cap

/-- Fetch `final_size` stored bytes at `data_offset` from the package
source.  For a file source the bytes come from the file system map
`fs`; a short read models the `read_exact` error, an out-of-range
memory slice models the Rust slicing panic, and a missing source is
`Err(NoSource)`. -/
def extract_stored (fs : List Char → Option (List Nat))
    (source : Option RPSource) (off len : Nat) : Option (List Nat) :=
  match source with
  | some (RPSource.file path) =>
    match fs path with
    | none => none
    | some data =>
      if off + len ≤ data.length then some ((data.drop off).take len) else none
  | some (RPSource.memory data) =>
    if off + len ≤ data.length then some ((data.drop off).take len) else none
  | none => none

/-- `ResourcePackage::read_resource`: look up the entry, read
`compressed_size` bytes (or `data_size` when stored uncompressed),
descramble, then LZ4-decompress into a `data_size`-byte zeroed buffer
that is returned whole. -/
def read_resource (fs : List Char → Option (List Nat))
    (p : ResourcePackage) (rrid : Nat) : Option (List Nat) :=
  match imLookup p.resources rrid with
  | none => none
  | some resource =>
    match extract_stored fs p.source resource.entry.data_offset
        (match poi_compressed_size resource.entry with
          | some n => n
          | none => resource.header.data_size) with
    | none => none
    | some buffer0 =>
      match poi_compressed_size resource.entry with
      | some _ =>
        match lz4_decompress
            (if offset_is_scrambled resource.entry.flags then
              xorScramble buffer0 else buffer0)
            resource.header.data_size with
        | none => none
        | some dec =>
          some (dec ++ List.replicate (resource.header.data_size - dec.length) 0)
      | none =>
        some (if offset_is_scrambled resource.entry.flags then
          xorScramble buffer0 else buffer0)

/-! ### Byte-level lemmas -/

theorem readN_some {n : Nat} {bs a r : List Nat}
    (h : readN n bs = some (a, r)) :
    a = bs.take n ∧ r = bs.drop n ∧ a.length = n := by
  rw [readN] at h
  by_cases hle : n ≤ bs.length
  · rw [if_pos hle] at h
    injection h with h
    injection h with h1 h2
    exact ⟨h1.symm, h2.symm, by rw [← h1]; simp [hle]⟩
  · rw [if_neg hle] at h
    exact absurd h (by simp)

theorem readN_exact (a rest : List Nat) :
    readN a.length (a ++ rest) = some (a, rest) := by
  rw [readN, if_pos (by simp)]
  rw [List.take_left, List.drop_left]

theorem length_leBytes (n v : Nat) : (leBytes n v).length = n := by
  induction n generalizing v with
  | zero => rfl
  | succ k ih => simp [leBytes, ih]

theorem leVal_leBytes (n v : Nat) : leVal (leBytes n v) = v % 2 ^ (8 * n) := by
  induction n generalizing v with
  | zero => simp [leBytes, leVal, Nat.mod_one]
  | succ k ih =>
    show leVal (v % 256 :: leBytes k (v / 256)) = _
    rw [leVal, ih]
    have h256 : v % 256 % 256 = v % 256 := by omega
    rw [h256]
    have h1 : 2 ^ (8 * (k + 1)) = 256 * 2 ^ (8 * k) := by
      rw [show 8 * (k + 1) = 8 + 8 * k by ring, pow_add]
      norm_num
    rw [h1, Nat.mod_mul]

theorem readLE_some {n : Nat} {bs : List Nat} {v : Nat} {r : List Nat}
    (h : readLE n bs = some (v, r)) :
    v = leVal (bs.take n) ∧ r = bs.drop n := by
  rw [readLE] at h
  rcases hn : readN n bs with - | ⟨a, r'⟩
  · rw [hn] at h; exact absurd h (by simp)
  · rw [hn] at h
    obtain ⟨h1, h2, -⟩ := readN_some hn
    simp only [Option.map_some'] at h
    injection h with h
    injection h with h3 h4
    exact ⟨by rw [← h3, h1], by rw [← h4, h2]⟩

theorem xorScramble_length (l : List Nat) : (xorScramble l).length = l.length := by
  simp [xorScramble]

theorem extract_stored_length {fs : List Char → Option (List Nat)}
    {source : Option RPSource} {off len : Nat} {b : List Nat}
    (h : extract_stored fs source off len = some b) : b.length = len := by
  rcases source with - | (path | data)
  · simp [extract_stored] at h
  · rcases hf : fs path with - | data
    · simp [extract_stored, hf] at h
    · by_cases hb : off + len ≤ data.length
      · simp only [extract_stored, hf, if_pos hb, Option.some.injEq] at h
        rw [← h]
        simp only [List.length_take, List.length_drop]
        omega
      · simp [extract_stored, hf, if_neg hb] at h
  · by_cases hb : off + len ≤ data.length
    · simp only [extract_stored, if_pos hb, Option.some.injEq] at h
      rw [← h]
      simp only [List.length_take, List.length_drop]
      omega
    · simp [extract_stored, if_neg hb] at h

theorem lz4Loop_length_le :
    ∀ (fuel : Nat) (src out : List Nat) (cap : Nat) (res : List Nat),
      lz4Loop fuel src out cap = some res → res.length ≤ cap := by
  intro fuel
  induction fuel with
  | zero => intro src out cap res h; simp [lz4Loop] at h
  | succ f ih =>
    intro src out cap res h
    rcases src with - | ⟨token, src1⟩
    · simp [lz4Loop] at h
    · simp only [lz4Loop] at h
      rcases h1 : (if token / 16 % 16 = 15 then lz4ReadLsic 15 src1
        else some (token / 16 % 16, src1)) with - | ⟨litLen, src2⟩
      · simp [h1] at h
      · simp only [h1] at h
        rcases h2 : readN litLen src2 with - | ⟨lits, src3⟩
        · simp [h2] at h
        · simp only [h2] at h
          by_cases hcap : cap < out.length + litLen
          · simp [if_pos hcap] at h
          · simp only [if_neg hcap] at h
            push_neg at hcap
            rcases src3 with - | ⟨o1, src3t⟩
            · injection h with h
              subst h
              obtain ⟨-, -, hl⟩ := readN_some h2
              simp only [List.length_append, hl]
              omega
            · rcases src3t with - | ⟨o2, src4⟩
              · simp at h
              · rcases h3 : (if token % 16 = 15 then lz4ReadLsic 15 src4
                  else some (token % 16, src4)) with - | ⟨mlen0, src5⟩
                · simp [h3] at h
                · simp only [h3] at h
                  rcases h4 : lz4CopyMatch (out ++ lits)
                      (o1 % 256 + 256 * (o2 % 256)) (mlen0 + 4) with - | out2
                  · simp [h4] at h
                  · simp only [h4] at h
                    by_cases hcap2 : cap < out2.length
                    · simp [if_pos hcap2] at h
                    · simp only [if_neg hcap2] at h
                      exact ih src5 out2 cap res h

theorem lz4_decompress_length_le {src : List Nat} {cap : Nat} {res : List Nat}
    (h : lz4_decompress src cap = some res) : res.length ≤ cap :=
  lz4Loop_length_le _ _ _ _ _ h

/-- Claim C3: whenever `read_resource` succeeds for an `rrid` whose
entry is `info`, the returned byte vector has length exactly
`info.header.data_size` — compressed resources are decompressed into a
`data_size`-byte buffer that is returned whole, uncompressed resources
are read as `data_size` stored bytes. -/
theorem c3_read_resource_length (fs : List Char → Option (List Nat))
    (p : ResourcePackage) (rrid : Nat) (info : ResourceInfo) (out : List Nat)
    (hinfo : imLookup p.resources rrid = some info)
    (hout : read_resource fs p rrid = some out) :
    out.length = info.header.data_size := by
  simp only [read_resource, hinfo] at hout
  rcases hcs : poi_compressed_size info.entry with - | n
  · simp only [hcs] at hout
    rcases hx : extract_stored fs p.source info.entry.data_offset
        info.header.data_size with - | buffer0
    · simp [hx] at hout
    · simp only [hx, Option.some.injEq] at hout
      have hlen0 := extract_stored_length hx
      rw [← hout]
      by_cases hscr : offset_is_scrambled info.entry.flags
      · rw [if_pos hscr, xorScramble_length]; exact hlen0
      · rw [if_neg hscr]; exact hlen0
  · simp only [hcs] at hout
    rcases hx : extract_stored fs p.source info.entry.data_offset n
        with - | buffer0
    · simp [hx] at hout
    · simp only [hx] at hout
      rcases hdec : lz4_decompress
          (if offset_is_scrambled info.entry.flags = true then
            xorScramble buffer0 else buffer0)
          info.header.data_size with - | dec
      · simp [hdec] at hout
      · simp only [hdec, Option.some.injEq] at hout
        have hle := lz4_decompress_length_le hdec
        rw [← hout]
        simp only [List.length_append, List.length_replicate]
        omega

/-- Witness for C3: a one-resource memory-backed package holding four
uncompressed bytes with `data_size = 4`. -/
theorem c3_read_resource_length_witness :
    imLookup [(5, ResourceInfo.mk ⟨5, 0, 0⟩
        ⟨[84, 88, 69, 84], 0, 0, 4, 4, 0, []⟩)] 5 =
      some (ResourceInfo.mk ⟨5, 0, 0⟩ ⟨[84, 88, 69, 84], 0, 0, 4, 4, 0, []⟩) ∧
    read_resource (fun _ => none)
      ⟨some (RPSource.memory [1, 2, 3, 4]), magicV1, none, ⟨1, 20, 24⟩, 0, none,
        [(5, ResourceInfo.mk ⟨5, 0, 0⟩ ⟨[84, 88, 69, 84], 0, 0, 4, 4, 0, []⟩)]⟩
      5 = some [1, 2, 3, 4] ∧
    ([1, 2, 3, 4] : List Nat).length =
      (ResourceInfo.mk ⟨5, 0, 0⟩
        ⟨[84, 88, 69, 84], 0, 0, 4, 4, 0, []⟩).header.data_size :=
  ⟨by decide, by decide,
    c3_read_resource_length (fun _ => none)
      ⟨some (RPSource.memory [1, 2, 3, 4]), magicV1, none, ⟨1, 20, 24⟩, 0, none,
        [(5, ResourceInfo.mk ⟨5, 0, 0⟩ ⟨[84, 88, 69, 84], 0, 0, 4, 4, 0, []⟩)]⟩
      5 (ResourceInfo.mk ⟨5, 0, 0⟩ ⟨[84, 88, 69, 84], 0, 0, 4, 4, 0, []⟩)
      [1, 2, 3, 4] (by decide) (by decide)⟩

theorem parseRPRest_fields {magic : List Nat} {md : Option PackageMetadata}
    {r2 : List Nat} {ip : Bool} {q : ResourcePackage}
    (h : parseRPRest magic md r2 ip = some q) :
    q.magic = magic ∧ q.metadata = md ∧ q.source = none := by
  rcases h1 : parseHeader r2 with - | ⟨header, r3⟩
  · simp [parseRPRest, h1] at h
  · simp only [parseRPRest, h1] at h
    rcases h2 : (if ip then readLE 4 r3 else some (0, r3)) with - | ⟨uc, r4⟩
    · simp [h2] at h
    · simp only [h2] at h
      rcases h3 : (if ip then
          (match readRrids uc r4 with
            | none => none
            | some (ids, r5) =>
              some ((match uc with
                | 0 => none
                | _ + 1 => some ids), r5))
        else some (none, r4)) with - | ⟨unn, r5⟩
      · simp [h3] at h
      · simp only [h3] at h
        rcases h4 : resource_parse header.file_count r5 with - | ⟨res, rest⟩
        · simp [h4] at h
        · simp only [h4, Option.some.injEq] at h
          rw [← h]
          exact ⟨rfl, rfl, rfl⟩

theorem from_memory_fields {data : List Nat} {ip : Bool} {p : ResourcePackage}
    (h : from_memory data ip = some p) :
    ∃ q, parseResourcePackage data ip = some q ∧
      p = { q with source := some (RPSource.memory data) } := by
  rw [from_memory] at h
  rcases hq : parseResourcePackage data ip with - | q
  · rw [hq] at h; simp at h
  · rw [hq] at h
    injection h with h
    exact ⟨q, rfl, h.symm⟩

/-- Claim C4 (amended): the binrw reader does not validate the magic
at all — a buffer whose first four bytes are neither `GKPR` nor `2KPR`
can still parse successfully (the v2 metadata block is simply skipped),
and on such a package `version()` panics (modelled `none`) instead of
reporting a version. -/
theorem c4_unknown_magic_accepted (data : List Nat) (ip : Bool)
    (p : ResourcePackage)
    (h : from_memory data ip = some p)
    (h1 : p.magic ≠ magicV1) (h2 : p.magic ≠ magicV2) :
    rpkg_version p = none ∧ p.metadata = none := by
  constructor
  · rw [rpkg_version, if_neg h1, if_neg h2]
  · obtain ⟨q, hq, hp⟩ := from_memory_fields h
    have hmag : p.magic = q.magic := by rw [hp]
    have hmet : p.metadata = q.metadata := by rw [hp]
    rw [hmet]
    rw [hmag] at h2
    rcases h0 : readN 4 data with - | ⟨magic, r1⟩
    · simp [parseResourcePackage, h0] at hq
    · simp only [parseResourcePackage, h0] at hq
      by_cases hmv : magic = magicV2
      · simp only [if_pos hmv] at hq
        rcases hm1 : parseMetadata r1 with - | ⟨m, r2⟩
        · simp [hm1] at hq
        · simp only [hm1] at hq
          obtain ⟨hqm, -, -⟩ := parseRPRest_fields hq
          exact absurd (hqm.trans hmv) h2
      · simp only [if_neg hmv] at hq
        exact (parseRPRest_fields hq).2.1

/-- Witness for C4 (amended): sixteen bytes with magic `YYYY` parse
into a package with zero resources. -/
theorem c4_unknown_magic_accepted_witness :
    from_memory ([89, 89, 89, 89] ++ List.replicate 12 0) false =
      some ⟨some (RPSource.memory ([89, 89, 89, 89] ++ List.replicate 12 0)),
        [89, 89, 89, 89], none, ⟨0, 0, 0⟩, 0, none, []⟩ ∧
    ([89, 89, 89, 89] : List Nat) ≠ magicV1 ∧
    ([89, 89, 89, 89] : List Nat) ≠ magicV2 ∧
    rpkg_version ⟨some (RPSource.memory ([89, 89, 89, 89] ++
        List.replicate 12 0)),
      [89, 89, 89, 89], none, ⟨0, 0, 0⟩, 0, none, []⟩ = none ∧
    (⟨some (RPSource.memory ([89, 89, 89, 89] ++ List.replicate 12 0)),
      [89, 89, 89, 89], none, ⟨0, 0, 0⟩, 0, none, []⟩ :
        ResourcePackage).metadata = none :=
  ⟨by decide, by decide, by decide,
    (c4_unknown_magic_accepted ([89, 89, 89, 89] ++ List.replicate 12 0) false
      ⟨some (RPSource.memory ([89, 89, 89, 89] ++ List.replicate 12 0)),
        [89, 89, 89, 89], none, ⟨0, 0, 0⟩, 0, none, []⟩
      (by decide) (by decide) (by decide)).1,
    (c4_unknown_magic_accepted ([89, 89, 89, 89] ++ List.replicate 12 0) false
      ⟨some (RPSource.memory ([89, 89, 89, 89] ++ List.replicate 12 0)),
        [89, 89, 89, 89], none, ⟨0, 0, 0⟩, 0, none, []⟩
      (by decide) (by decide) (by decide)).2⟩

/-- Counterexample to Claim C4 as stated: a sixteen-byte buffer whose
magic `XXXX` is neither `GKPR` nor `2KPR` is parsed successfully by
`from_memory` — no `ParsingError` is returned for the unrecognized
magic. -/
theorem c4_counterexample :
    (from_memory ([88, 88, 88, 88] ++ List.replicate 12 0) false).isSome =
      true ∧
    ([88, 88, 88, 88] ++ List.replicate 12 0).take 4 ≠ magicV1 ∧
    ([88, 88, 88, 88] ++ List.replicate 12 0).take 4 ≠ magicV2 := by
  refine ⟨by decide, by decide, by decide⟩

/-! ## Section 4: partition layering (src/resource/resource_partition.rs)

The in-memory `rrid → PatchId` index (`resources: HashMap<..>`) is a
function `Nat → Option PatchId`; the `packages` map only matters
through its key set, a `List PatchId`.  A parsed archive contributes
its patch id, its `unneeded_resources` list and its offset-table key
list. -/

/-- `PatchId { Base, Patch(usize) }`. -/
inductive PatchId where
  | Base
  | Patch (n : Nat)
deriving DecidableEq, Repr

/-- `Ord for PatchId`: `Base` sorts before every patch, patches by
index. -/
def patchCmp : PatchId → PatchId → Ordering
  | PatchId.Base, PatchId.Base => Ordering.eq
  | PatchId.Base, PatchId.Patch _ => Ordering.lt
  | PatchId.Patch _, PatchId.Base => Ordering.gt
  | PatchId.Patch a, PatchId.Patch b => compare a b

/-- Modelled from the spec: `PatchId::is_base` is not in the provided
sources (only its caller `build_internal` is); §4.G's
`UnneededResourcesNotSupported` check fires exactly "if any unneeded
ids are present and the patch id is `Base`". -/
def patch_is_base : PatchId → Bool
  | PatchId.Base => true
  | PatchId.Patch _ => false

/-- Modelled from the spec: `PatchId::is_patch` is not in the provided
sources (only its caller `build_internal` is); §3.2 writes the
unneeded-resources block exactly "if the archive is a patch", so it is
the negation of `patch_is_base`. -/
def patch_is_patch (p : PatchId) : Bool := !(patch_is_base p)

/-- One mounted archive as the layering engine sees it: its patch id,
its `unneeded_resources` rrids and its offset-table rrids in order. -/
structure ArchiveData where
  patchId : PatchId
  unneeded : List Nat
  present : List Nat
deriving DecidableEq, Repr

/-- The removal loop of `mount_package`:
`for deletion in rpkg.unneeded_resource_ids() { resources.remove_entry(deletion) }`. -/
def removeAll (m : Nat → Option PatchId) (dels : List Nat) :
    Nat → Option PatchId :=
  dels.foldl (fun acc d => fun r => if r = d then none else acc r) m

/-- The insertion loop of `mount_package`:
`for rrid in rpkg.resources.keys() { resources.insert(rrid, patch_index) }`. -/
def insertAll (m : Nat → Option PatchId) (pid : PatchId) (keys : List Nat) :
    Nat → Option PatchId :=
  keys.foldl (fun acc k => fun r => if r = k then some pid else acc r) m

/-- `mount_package`'s effect on the index: first remove the deletions,
then insert every present rrid, overwriting prior mappings. -/
def mount_package_index (m : Nat → Option PatchId) (a : ArchiveData) :
    Nat → Option PatchId :=
  insertAll (removeAll m a.unneeded) a.patchId a.present

/-- `mount_resource_packages_in_partition_with_callback`'s index after
mounting the whole ordered sequence `[Base, Patch p1, ...]`. -/
def mountSequence (archives : List ArchiveData) : Nat → Option PatchId :=
  archives.foldl mount_package_index (fun _ => none)

/-- The claim's characterization: the last archive that mentions the
rrid decides — present wins within one archive (removal happens before
insertion), an unneeded-only mention clears the entry. -/
def lastListingOwner (archives : List ArchiveData) (r : Nat) : Option PatchId :=
  archives.foldl
    (fun acc a =>
      if r ∈ a.present then some a.patchId
      else if r ∈ a.unneeded then none
      else acc)
    none

theorem insertAll_apply (pid : PatchId) :
    ∀ (keys : List Nat) (m : Nat → Option PatchId) (r : Nat),
      insertAll m pid keys r = if r ∈ keys then some pid else m r := by
  intro keys
  induction keys with
  | nil => intro m r; simp [insertAll]
  | cons k ks ih =>
    intro m r
    show insertAll (fun r' => if r' = k then some pid else m r') pid ks r = _
    rw [ih]
    by_cases hks : r ∈ ks
    · rw [if_pos hks, if_pos (List.mem_cons_of_mem k hks)]
    · rw [if_neg hks]
      by_cases hk : r = k
      · rw [if_pos hk, if_pos (hk ▸ List.mem_cons_self k ks)]
      · rw [if_neg hk, if_neg (by simp [hk, hks])]

theorem removeAll_apply :
    ∀ (dels : List Nat) (m : Nat → Option PatchId) (r : Nat),
      removeAll m dels r = if r ∈ dels then none else m r := by
  intro dels
  induction dels with
  | nil => intro m r; simp [removeAll]
  | cons d ds ih =>
    intro m r
    show removeAll (fun r' => if r' = d then none else m r') ds r = _
    rw [ih]
    by_cases hds : r ∈ ds
    · rw [if_pos hds, if_pos (List.mem_cons_of_mem d hds)]
    · rw [if_neg hds]
      by_cases hd : r = d
      · rw [if_pos hd, if_pos (hd ▸ List.mem_cons_self d ds)]
      · rw [if_neg hd, if_neg (by simp [hd, hds])]

theorem mount_package_index_apply (m : Nat → Option PatchId)
    (a : ArchiveData) (r : Nat) :
    mount_package_index m a r =
      (if r ∈ a.present then some a.patchId
        else if r ∈ a.unneeded then none
        else m r) := by
  rw [mount_package_index, insertAll_apply, removeAll_apply]

theorem mountSequence_char :
    ∀ (archives : List ArchiveData) (m : Nat → Option PatchId) (r : Nat),
      archives.foldl mount_package_index m r =
        archives.foldl
          (fun acc a =>
            if r ∈ a.present then some a.patchId
            else if r ∈ a.unneeded then none
            else acc)
          (m r) := by
  intro archives
  induction archives with
  | nil => intro m r; rfl
  | cons a as ih =>
    intro m r
    show (as.foldl mount_package_index (mount_package_index m a)) r = _
    rw [ih, mount_package_index_apply, List.foldl_cons]

/-- Is the archive sequence strictly ordered by patch id
(`Base < Patch 1 < Patch 2 < ...`), as `read_patch_indices` produces
it? -/
def archivesOrdered : List ArchiveData → Bool
  | a :: b :: rest =>
    (patchCmp a.patchId b.patchId == Ordering.lt) && archivesOrdered (b :: rest)
  | _ => true

/-- Claim C2: processing each archive in order (removals before
insertions) yields an index in which a rrid is owned by the last
archive that lists it as present — an archive mentioning it only as
unneeded clears it, and one that both deletes and re-adds it (when it
is the final archive mentioning it) owns it. -/
theorem c2_layering (archives : List ArchiveData)
    (hsorted : archivesOrdered archives = true)
    (r : Nat) :
    mountSequence archives r = lastListingOwner archives r ∧
      (∀ (pre : List ArchiveData) (a : ArchiveData),
        archives = pre ++ [a] → r ∈ a.unneeded → r ∈ a.present →
          mountSequence archives r = some a.patchId) := by
  have hchar : mountSequence archives r = lastListingOwner archives r :=
    mountSequence_char archives (fun _ => none) r
  refine ⟨hchar, ?_⟩
  intro pre a heq hdel hadd
  rw [hchar, heq, lastListingOwner, List.foldl_append]
  simp [hadd]

/-- Witness for C2: base holds `{1, 2, 3}`, patch 1 deletes `2` and
adds `4`, patch 2 deletes `4` and both deletes and re-adds `2`. -/
theorem c2_layering_witness :
    archivesOrdered
      [⟨PatchId.Base, [], [1, 2, 3]⟩, ⟨PatchId.Patch 1, [2], [4]⟩,
        ⟨PatchId.Patch 2, [4, 2], [2]⟩] = true ∧
    mountSequence
      [⟨PatchId.Base, [], [1, 2, 3]⟩, ⟨PatchId.Patch 1, [2], [4]⟩,
        ⟨PatchId.Patch 2, [4, 2], [2]⟩] 2 =
      lastListingOwner
        [⟨PatchId.Base, [], [1, 2, 3]⟩, ⟨PatchId.Patch 1, [2], [4]⟩,
          ⟨PatchId.Patch 2, [4, 2], [2]⟩] 2 ∧
    mountSequence
      [⟨PatchId.Base, [], [1, 2, 3]⟩, ⟨PatchId.Patch 1, [2], [4]⟩,
        ⟨PatchId.Patch 2, [4, 2], [2]⟩] 2 = some (PatchId.Patch 2) ∧
    mountSequence
      [⟨PatchId.Base, [], [1, 2, 3]⟩, ⟨PatchId.Patch 1, [2], [4]⟩,
        ⟨PatchId.Patch 2, [4, 2], [2]⟩] 4 = none :=
  ⟨by decide,
    (c2_layering
      [⟨PatchId.Base, [], [1, 2, 3]⟩, ⟨PatchId.Patch 1, [2], [4]⟩,
        ⟨PatchId.Patch 2, [4, 2], [2]⟩] (by decide) 2).1,
    (c2_layering
      [⟨PatchId.Base, [], [1, 2, 3]⟩, ⟨PatchId.Patch 1, [2], [4]⟩,
        ⟨PatchId.Patch 2, [4, 2], [2]⟩] (by decide) 2).2
      [⟨PatchId.Base, [], [1, 2, 3]⟩, ⟨PatchId.Patch 1, [2], [4]⟩]
      ⟨PatchId.Patch 2, [4, 2], [2]⟩ (by decide) (by decide) (by decide),
    by decide⟩

/-- The mutable partition state: the key set of `packages` and the
`resources` index. -/
structure PartitionState where
  packages : List PatchId
  resources : Nat → Option PatchId

/-- One `mount_package` call: a parse failure
(`ResourcePackage::from_file` error) returns before any mutation; a
success removes the deletions, inserts every present rrid with this
patch id, and records the package. -/
def mount_package_state (st : PartitionState) (op : Option ArchiveData) :
    PartitionState :=
  match op with
  | none => st
  | some a =>
    ⟨a.patchId :: st.packages,
      insertAll (removeAll st.resources a.unneeded) a.patchId a.present⟩

/-- A whole mount history: any sequence of `mount_package` attempts,
failed ones included, starting from the empty partition
(`ResourcePartition::new`). -/
def run_mounts (ops : List (Option ArchiveData)) : PartitionState :=
  ops.foldl mount_package_state ⟨[], fun _ => none⟩

theorem mount_package_state_inv {st : PartitionState}
    (hinv : ∀ r pid, st.resources r = some pid → pid ∈ st.packages)
    (op : Option ArchiveData) :
    ∀ r pid, (mount_package_state st op).resources r = some pid →
      pid ∈ (mount_package_state st op).packages := by
  rcases op with - | a
  · exact hinv
  · intro r pid h
    simp only [mount_package_state] at h ⊢
    rw [insertAll_apply, removeAll_apply] at h
    by_cases hp : r ∈ a.present
    · rw [if_pos hp] at h
      injection h with h
      rw [← h]
      exact List.mem_cons_self _ _
    · rw [if_neg hp] at h
      by_cases hd : r ∈ a.unneeded
      · rw [if_pos hd] at h
        exact absurd h (by simp)
      · rw [if_neg hd] at h
        exact List.mem_cons_of_mem _ (hinv r pid h)

theorem run_mounts_inv_aux :
    ∀ (ops : List (Option ArchiveData)) (st : PartitionState),
      (∀ r pid, st.resources r = some pid → pid ∈ st.packages) →
      ∀ r pid, (ops.foldl mount_package_state st).resources r = some pid →
        pid ∈ (ops.foldl mount_package_state st).packages := by
  intro ops
  induction ops with
  | nil => intro st hinv; exact hinv
  | cons op rest ih =>
    intro st hinv
    exact ih (mount_package_state st op) (mount_package_state_inv hinv op)

/-- Claim C8: after any sequence of mount operations (partial failures
included) every rrid in the `resources` index maps to a `PatchId` that
is a key of the `packages` map. -/
theorem c8_resources_point_into_packages (ops : List (Option ArchiveData))
    (r : Nat) (pid : PatchId)
    (h : (run_mounts ops).resources r = some pid) :
    pid ∈ (run_mounts ops).packages :=
  run_mounts_inv_aux ops ⟨[], fun _ => none⟩
    (by intro r' pid' h'; simp at h') r pid h

/-- Witness for C8: a successful base mount, a failed patch mount, and
a successful patch mount that deletes the base rrid and adds another. -/
theorem c8_resources_point_into_packages_witness :
    (run_mounts [some ⟨PatchId.Base, [], [7]⟩, none,
        some ⟨PatchId.Patch 1, [7], [8]⟩]).resources 8 =
      some (PatchId.Patch 1) ∧
    PatchId.Patch 1 ∈
      (run_mounts [some ⟨PatchId.Base, [], [7]⟩, none,
        some ⟨PatchId.Patch 1, [7], [8]⟩]).packages :=
  ⟨by decide,
    c8_resources_point_into_packages
      [some ⟨PatchId.Base, [], [7]⟩, none, some ⟨PatchId.Patch 1, [7], [8]⟩]
      8 (PatchId.Patch 1) (by decide)⟩

/-! ## Section 5: XTEA text files (src/encryption/xtea.rs)

`u32` arithmetic is `Nat` with explicit `% 2 ^ 32`.  Text is a byte
list; for the Latin (ASCII) strings of the claim, Rust's
`String`/`as_bytes` round-trip is the identity on these bytes. -/

/-- `2 ^ 32`, the `u32` wrap-around modulus. -/
def M32 : Nat := 4294967296

/-- The XTEA round constant `0x9E3779B9`. -/
def xteaDelta : Nat := 0x9E3779B9

/-- `Xtea::DEFAULT_KEY`. -/
def xteaDefaultKey : List Nat := [0x30f95282, 0x1f48c419, 0x295f8548, 0x2a78366d]

/-- `Xtea::DEFAULT_ENCRYPTED_HEADER`. -/
def xteaHeader : List Nat :=
  [0x22, 0x3d, 0x6f, 0x9a, 0xb3, 0xf8, 0xfe, 0xb6,
    0x61, 0xd9, 0xcc, 0x1c, 0x62, 0xde, 0x83, 0x41]

/-- The common XTEA round term
`(((v << 4) ^ (v >> 5)) + v) ^ (sum + key[idx])` (all `u32`). -/
def xteaTerm (key : List Nat) (v sum idx : Nat) : Nat :=
  Nat.xor ((Nat.xor (v * 16 % M32) (v / 32) + v) % M32)
    ((sum + key.getD idx 0) % M32)

/-- One encipher round of the 32-round loop: the `v0` half uses the
current `sum` and `key[sum & 3]`, then `sum += delta`, then the `v1`
half uses `key[(sum >> 11) & 3]`.  Returns `(v0', v1', sum')`. -/
def xteaEncStep (key : List Nat) (v0 v1 sum : Nat) : Nat × Nat × Nat :=
  let v0' := (v0 + xteaTerm key v1 sum (sum % 4)) % M32
  let sum' := (sum + xteaDelta) % M32
  let v1' := (v1 + xteaTerm key v0' sum' (sum' / 2 ^ 11 % 4)) % M32
  (v0', v1', sum')

/-- One decipher round: the exact inverse, with `sum` running down. -/
def xteaDecStep (key : List Nat) (v0 v1 sum : Nat) : Nat × Nat × Nat :=
  let v1' := (v1 + M32 - xteaTerm key v0 sum (sum / 2 ^ 11 % 4) % M32) % M32
  let sum' := (sum + M32 - xteaDelta % M32) % M32
  let v0' := (v0 + M32 - xteaTerm key v1' sum' (sum' % 4) % M32) % M32
  (v0', v1', sum')

/-- The encipher loop (`extended_tea` runs it 32 times) on the state
`(v0, v1, sum)`. -/
def xteaEncRounds (key : List Nat) : Nat → Nat × Nat × Nat → Nat × Nat × Nat
  | 0, st => st
  | n + 1, st => xteaEncRounds key n (xteaEncStep key st.1 st.2.1 st.2.2)

/-- The decipher loop on the state `(v0, v1, sum)`. -/
def xteaDecRounds (key : List Nat) : Nat → Nat × Nat × Nat → Nat × Nat × Nat
  | 0, st => st
  | n + 1, st => xteaDecRounds key n (xteaDecStep key st.1 st.2.1 st.2.2)

/-- `encipher_stream::<LittleEndian>`: each 8-byte block is two
little-endian `u32` words, enciphered with `sum` starting at 0. -/
def xteaEncBytes (key : List Nat) : List Nat → List Nat
  | b0 :: b1 :: b2 :: b3 :: b4 :: b5 :: b6 :: b7 :: rest =>
    let p := xteaEncRounds key 32
      ⟨leVal [b0, b1, b2, b3], leVal [b4, b5, b6, b7], 0⟩
    leBytes 4 p.1 ++ leBytes 4 p.2.1 ++ xteaEncBytes key rest
  | _ => []

/-- `decipher_stream::<LittleEndian>`: `sum` starts at
`delta * num_rounds` (wrapping). -/
def xteaDecBytes (key : List Nat) : List Nat → List Nat
  | b0 :: b1 :: b2 :: b3 :: b4 :: b5 :: b6 :: b7 :: rest =>
    let p := xteaDecRounds key 32
      ⟨leVal [b0, b1, b2, b3], leVal [b4, b5, b6, b7], 32 * xteaDelta % M32⟩
    leBytes 4 p.1 ++ leBytes 4 p.2.1 ++ xteaDecBytes key rest
  | _ => []

/-- Process one byte of the reflected CRC-32 (polynomial `0xEDB88320`),
`k` bit steps at a time. -/
def crcBits : Nat → Nat → Nat
  | crc, 0 => crc
  | crc, k + 1 =>
    crcBits (if crc % 2 = 1 then Nat.xor (crc / 2) 0xEDB88320 else crc / 2) k

/-- `crc32fast::hash`: the standard CRC-32 (IEEE, reflected). -/
def crc32 (bytes : List Nat) : Nat :=
  Nat.xor (bytes.foldl (fun crc b => crcBits (Nat.xor crc (b % 256)) 8)
    0xFFFFFFFF) 0xFFFFFFFF

/-- `trim_end_matches('\0')` on the byte level. -/
def dropTrailingZeros (l : List Nat) : List Nat :=
  (l.reverse.dropWhile (fun b => b == 0)).reverse

/-- Is a continuation byte `0x80..0xBF`? -/
def utf8Cont (b : Nat) : Bool := decide (0x80 ≤ b ∧ b ≤ 0xBF)

/-- Valid three-byte lead `b` with continuation bytes `c1 c2`
(RFC 3629: `E0 A0..BF cont`, `E1..EC cont cont`, `ED 80..9F cont`
excluding surrogates, `EE..EF cont cont`). False for any `b`
outside `E0..EF`. -/
def utf8Lead3 (b c1 c2 : Nat) : Bool :=
  (if b = 0xE0 then decide (0xA0 ≤ c1 ∧ c1 ≤ 0xBF)
   else if (0xE1 ≤ b ∧ b ≤ 0xEC) ∨ b = 0xEE ∨ b = 0xEF then utf8Cont c1
   else if b = 0xED then decide (0x80 ≤ c1 ∧ c1 ≤ 0x9F)
   else false) && utf8Cont c2

/-- Valid four-byte lead `b` with continuation bytes `c1 c2 c3`
(RFC 3629: `F0 90..BF cont cont`, `F1..F3 cont cont cont`,
`F4 80..8F cont cont`, capping code points at `U+10FFFF`). False for
any `b` outside `F0..F4`. -/
def utf8Lead4 (b c1 c2 c3 : Nat) : Bool :=
  (if b = 0xF0 then decide (0x90 ≤ c1 ∧ c1 ≤ 0xBF)
   else if 0xF1 ≤ b ∧ b ≤ 0xF3 then utf8Cont c1
   else if b = 0xF4 then decide (0x80 ≤ c1 ∧ c1 ≤ 0x8F)
   else false) && utf8Cont c2 && utf8Cont c3

/-- Sequence length a lead byte announces: 1 for ASCII, 2 for
`C2..DF`, 3 for `E0..EF` (also the junk range `80..C1`, where
`utf8Lead3` then rejects), 4 otherwise. -/
def utf8SeqLen (b : Nat) : Nat :=
  if b ≤ 0x7F then 1
  else if 0xC2 ≤ b ∧ b ≤ 0xDF then 2
  else if b ≤ 0xEF then 3
  else 4

/-- The UTF-8 well-formedness test behind `String::from_utf8`
(RFC 3629: no overlong forms, no surrogates, max `U+10FFFF`).
A lead byte in `0x80..0xC1` or above `0xF4` fails every branch. -/
def utf8Valid : List Nat → Bool
  | [] => true
  | b :: rest =>
    match utf8SeqLen b, rest with
    | 1, r => utf8Valid r
    | 2, c1 :: r => utf8Cont c1 && utf8Valid r
    | 3, c1 :: c2 :: r => utf8Lead3 b c1 c2 && utf8Valid r
    | 4, c1 :: c2 :: c3 :: r => utf8Lead4 b c1 c2 c3 && utf8Valid r
    | _, _ => false

/-- `Xtea::encrypt_text_file`: trim trailing NULs, checksum the
trimmed bytes, zero-pad to a multiple of 8 (only when needed), encipher
with the default key, and emit header ++ checksum ++ ciphertext. -/
def encrypt_text_file (input : List Nat) : List Nat :=
  let input_buffer := dropTrailingZeros input
  let checksum := crc32 input_buffer
  let padding := 8 - input_buffer.length % 8
  let padded := if padding < 8 then
    input_buffer ++ List.replicate padding 0 else input_buffer
  xteaHeader ++ leBytes 4 checksum ++ xteaEncBytes xteaDefaultKey padded

/-- `Xtea::decrypt_text_file`: check length and header, read the
stored checksum, require the payload length divisible by 8, decipher,
check UTF-8, and compare the CRC of the NUL-trimmed plaintext with the
stored checksum.  The deciphered bytes are returned with their zero
padding still attached. -/
def decrypt_text_file (input_buffer : List Nat) : Option (List Nat) :=
  if input_buffer.length < 20 then none
  else if input_buffer.take 16 ≠ xteaHeader then none
  else
    let checksum := (input_buffer.drop 16).take 4
    let input := input_buffer.drop 20
    if input.length % 8 ≠ 0 then none
    else
      let output := xteaDecBytes xteaDefaultKey input
      if utf8Valid output then
        if leBytes 4 (crc32 (dropTrailingZeros output)) = checksum then
          some output
        else none
      else none

theorem m32_cancel (a t : Nat) (ha : a < M32) :
    ((a + t) % M32 + M32 - t % M32) % M32 = a := by
  simp only [M32] at *
  omega

theorem xteaStep_inverse (key : List Nat) (v0 v1 sum : Nat)
    (h0 : v0 < M32) (h1 : v1 < M32) (hs : sum < M32) :
    xteaDecStep key (xteaEncStep key v0 v1 sum).1
      (xteaEncStep key v0 v1 sum).2.1 (xteaEncStep key v0 v1 sum).2.2 =
      (v0, v1, sum) := by
  simp only [xteaEncStep, xteaDecStep, Prod.mk.injEq]
  have hsum : ((sum + xteaDelta) % M32 + M32 - xteaDelta % M32) % M32 = sum := by
    simp only [M32, xteaDelta] at *
    omega
  refine ⟨?_, ?_, ?_⟩
  · rw [m32_cancel _ _ h1, hsum]
    exact m32_cancel _ _ h0
  · exact m32_cancel _ _ h1
  · exact hsum

theorem xteaEncRounds_succ_last (key : List Nat) :
    ∀ (n : Nat) (st : Nat × Nat × Nat),
      xteaEncRounds key (n + 1) st =
        xteaEncStep key (xteaEncRounds key n st).1
          (xteaEncRounds key n st).2.1 (xteaEncRounds key n st).2.2 := by
  intro n
  induction n with
  | zero => intro st; rfl
  | succ m ih =>
    intro st
    show xteaEncRounds key (m + 1) (xteaEncStep key st.1 st.2.1 st.2.2) = _
    rw [ih]
    rfl

theorem xteaEncRounds_bounds (key : List Nat) :
    ∀ (n : Nat) (st : Nat × Nat × Nat),
      st.1 < M32 → st.2.1 < M32 → st.2.2 < M32 →
      (xteaEncRounds key n st).1 < M32 ∧
        (xteaEncRounds key n st).2.1 < M32 ∧
        (xteaEncRounds key n st).2.2 < M32 := by
  intro n
  induction n with
  | zero => intro st h0 h1 hs; exact ⟨h0, h1, hs⟩
  | succ m ih =>
    intro st h0 h1 hs
    show (xteaEncRounds key m (xteaEncStep key st.1 st.2.1 st.2.2)).1 < M32 ∧ _
    have hpos : 0 < M32 := by decide
    exact ih _ (Nat.mod_lt _ hpos) (Nat.mod_lt _ hpos) (Nat.mod_lt _ hpos)

theorem xteaEncRounds_sum (key : List Nat) :
    ∀ (n : Nat) (st : Nat × Nat × Nat), st.2.2 < M32 →
      (xteaEncRounds key n st).2.2 = (st.2.2 + n * xteaDelta) % M32 := by
  intro n
  induction n with
  | zero =>
    intro st hs
    show st.2.2 = _
    simp only [M32] at *
    omega
  | succ m ih =>
    intro st hs
    have hstep : (xteaEncStep key st.1 st.2.1 st.2.2).2.2 =
        (st.2.2 + xteaDelta) % M32 := rfl
    show (xteaEncRounds key m (xteaEncStep key st.1 st.2.1 st.2.2)).2.2 = _
    rw [ih _ (by rw [hstep]; exact Nat.mod_lt _ (by decide)), hstep]
    simp only [M32, xteaDelta]
    omega

theorem xteaDecRounds_undo (key : List Nat) :
    ∀ (n : Nat) (st : Nat × Nat × Nat),
      st.1 < M32 → st.2.1 < M32 → st.2.2 < M32 →
      xteaDecRounds key n (xteaEncRounds key n st) = st := by
  intro n
  induction n with
  | zero => intro st _ _ _; rfl
  | succ m ih =>
    intro st h0 h1 hs
    rw [xteaEncRounds_succ_last]
    show xteaDecRounds key m
      (xteaDecStep key _ _ _) = st
    obtain ⟨b0, b1, b2⟩ := xteaEncRounds_bounds key m st h0 h1 hs
    rw [xteaStep_inverse key _ _ _ b0 b1 b2]
    exact ih st h0 h1 hs

theorem leVal_lt : ∀ l : List Nat, leVal l < 2 ^ (8 * l.length) := by
  intro l
  induction l with
  | nil => simp [leVal]
  | cons b rest ih =>
    show b % 256 + 256 * leVal rest < _
    have h2 : 2 ^ (8 * (rest.length + 1)) = 256 * 2 ^ (8 * rest.length) := by
      rw [show 8 * (rest.length + 1) = 8 + 8 * rest.length by ring, pow_add]
      norm_num
    simp only [List.length_cons, h2]
    omega

theorem leVal4_lt_M32 (a b c d : Nat) : leVal [a, b, c, d] < M32 := by
  have h := leVal_lt [a, b, c, d]
  have e : (2 : Nat) ^ (8 * ([a, b, c, d] : List Nat).length) = M32 := by
    norm_num [M32]
  rw [e] at h
  exact h

theorem leBytes4_expand (v : Nat) :
    leBytes 4 v =
      [v % 256, v / 256 % 256, v / 256 / 256 % 256, v / 256 / 256 / 256 % 256] :=
  rfl

theorem leBytes4_leVal (a b c d : Nat) (ha : a < 256) (hb : b < 256)
    (hc : c < 256) (hd : d < 256) :
    leBytes 4 (leVal [a, b, c, d]) = [a, b, c, d] := by
  have hv : leVal [a, b, c, d] =
      a % 256 + 256 * (b % 256 + 256 * (c % 256 + 256 * (d % 256 + 256 * 0))) :=
    rfl
  rw [leBytes4_expand, hv]
  simp only [List.cons.injEq, and_true]
  refine ⟨by omega, by omega, by omega, by omega⟩

theorem leVal4_digits (x : Nat) (hx : x < M32) :
    leVal [x % 256, x / 256 % 256, x / 256 / 256 % 256,
      x / 256 / 256 / 256 % 256] = x := by
  simp only [leVal]
  simp only [M32] at hx
  omega

theorem xteaDecBytes_block (key : List Nat) (x y : Nat) (rest : List Nat)
    (hx : x < M32) (hy : y < M32) :
    xteaDecBytes key (leBytes 4 x ++ leBytes 4 y ++ rest) =
      leBytes 4 (xteaDecRounds key 32 ⟨x, y, 32 * xteaDelta % M32⟩).1 ++
        leBytes 4 (xteaDecRounds key 32 ⟨x, y, 32 * xteaDelta % M32⟩).2.1 ++
        xteaDecBytes key rest := by
  have hexp : leBytes 4 x ++ leBytes 4 y ++ rest =
      x % 256 :: x / 256 % 256 :: x / 256 / 256 % 256 ::
        x / 256 / 256 / 256 % 256 :: y % 256 :: y / 256 % 256 ::
        y / 256 / 256 % 256 :: y / 256 / 256 / 256 % 256 :: rest := rfl
  rw [hexp]
  simp only [xteaDecBytes]
  rw [leVal4_digits x hx, leVal4_digits y hy]

theorem xteaEncBytes_length_mod (key : List Nat) :
    ∀ l : List Nat, (xteaEncBytes key l).length % 8 = 0 := by
  intro l
  induction l using xteaEncBytes.induct key with
  | case1 b0 b1 b2 b3 b4 b5 b6 b7 rest ih =>
    simp only [xteaEncBytes, List.length_append, length_leBytes]
    omega
  | case2 x h =>
    rcases x with - | ⟨c0, - | ⟨c1, - | ⟨c2, - | ⟨c3, - | ⟨c4, - | ⟨c5,
      - | ⟨c6, - | ⟨c7, t⟩⟩⟩⟩⟩⟩⟩⟩
    all_goals first
      | rfl
      | exact (h _ _ _ _ _ _ _ _ _ rfl).elim

theorem xteaBytes_inverse (key : List Nat) :
    ∀ l : List Nat, (∀ b ∈ l, b < 256) → l.length % 8 = 0 →
      xteaDecBytes key (xteaEncBytes key l) = l := by
  intro l
  induction l using xteaEncBytes.induct key with
  | case1 b0 b1 b2 b3 b4 b5 b6 b7 rest ih =>
    intro hb hlen
    simp only [xteaEncBytes]
    have hv0 := leVal4_lt_M32 b0 b1 b2 b3
    have hv1 := leVal4_lt_M32 b4 b5 b6 b7
    obtain ⟨p0, p1, p2⟩ := xteaEncRounds_bounds key 32
      ⟨leVal [b0, b1, b2, b3], leVal [b4, b5, b6, b7], 0⟩ hv0 hv1
      (by show (0 : Nat) < M32; decide)
    rw [xteaDecBytes_block key _ _ _ p0 p1]
    have hsum : (xteaEncRounds key 32
        ⟨leVal [b0, b1, b2, b3], leVal [b4, b5, b6, b7], 0⟩).2.2 =
        32 * xteaDelta % M32 := by
      rw [xteaEncRounds_sum key 32 _ (by show (0 : Nat) < M32; decide)]
      show (0 + 32 * xteaDelta) % M32 = _
      rw [Nat.zero_add]
    have hpk : (⟨(xteaEncRounds key 32
        ⟨leVal [b0, b1, b2, b3], leVal [b4, b5, b6, b7], 0⟩).1,
        (xteaEncRounds key 32
          ⟨leVal [b0, b1, b2, b3], leVal [b4, b5, b6, b7], 0⟩).2.1,
        32 * xteaDelta % M32⟩ : Nat × Nat × Nat) =
        xteaEncRounds key 32
          ⟨leVal [b0, b1, b2, b3], leVal [b4, b5, b6, b7], 0⟩ := by
      rw [← hsum]
    rw [hpk, xteaDecRounds_undo key 32 _ hv0 hv1
      (by show (0 : Nat) < M32; decide)]
    have hrest : xteaDecBytes key (xteaEncBytes key rest) = rest := by
      refine ih (fun b hbm => hb b (by simp [hbm])) ?_
      simp only [List.length_cons] at hlen
      omega
    rw [hrest]
    rw [leBytes4_leVal b0 b1 b2 b3 (hb b0 (by simp)) (hb b1 (by simp))
      (hb b2 (by simp)) (hb b3 (by simp))]
    rw [leBytes4_leVal b4 b5 b6 b7 (hb b4 (by simp)) (hb b5 (by simp))
      (hb b6 (by simp)) (hb b7 (by simp))]
    rfl
  | case2 x h =>
    intro hb hlen
    rcases x with - | ⟨c0, - | ⟨c1, - | ⟨c2, - | ⟨c3, - | ⟨c4, - | ⟨c5,
      - | ⟨c6, - | ⟨c7, t⟩⟩⟩⟩⟩⟩⟩⟩
    all_goals first
      | rfl
      | exact (h _ _ _ _ _ _ _ _ _ rfl).elim
      | simp at hlen

theorem dropWhile_replicate_zero (x : List Nat) :
    ∀ k : Nat, List.dropWhile (fun b => b == 0) (List.replicate k 0 ++ x) =
      List.dropWhile (fun b => b == 0) x := by
  intro k
  induction k with
  | zero => rfl
  | succ m ih =>
    simp [List.replicate_succ, List.dropWhile, ih]

theorem dropTrailingZeros_append_replicate (s : List Nat) (k : Nat) :
    dropTrailingZeros (s ++ List.replicate k 0) = dropTrailingZeros s := by
  simp only [dropTrailingZeros, List.reverse_append, List.reverse_replicate]
  rw [dropWhile_replicate_zero]

theorem utf8Valid_ascii :
    ∀ l : List Nat, (∀ b ∈ l, b ≤ 0x7F) → utf8Valid l = true := by
  intro l
  induction l with
  | nil => intro _; rfl
  | cons b rest ih =>
    intro h
    have hb : b ≤ 0x7F := h b (by simp)
    have hrec := ih fun c hc => h c (List.mem_cons_of_mem b hc)
    have h1 : utf8SeqLen b = 1 := by rw [utf8SeqLen, if_pos hb]
    simp only [utf8Valid, h1]
    exact hrec


/-- Claim C9 (amended): for every ASCII input with no trailing NUL
bytes, `encrypt_text_file` emits a buffer starting with the 16-byte
magic header, and `decrypt_text_file` of that buffer succeeds and
returns the input followed by `(8 - len % 8) % 8` zero padding bytes;
the bytes equal the original exactly when the length is a multiple
of 8. -/
theorem c9_xtea_text_roundtrip (s : List Nat)
    (hascii : ∀ b ∈ s, b < 0x80)
    (hnz : dropTrailingZeros s = s) :
    (encrypt_text_file s).take 16 = xteaHeader ∧
    decrypt_text_file (encrypt_text_file s) =
      some (s ++ List.replicate ((8 - s.length % 8) % 8) 0) ∧
    (s.length % 8 = 0 →
      decrypt_text_file (encrypt_text_file s) = some s) := by
  have hpadded : (if 8 - s.length % 8 < 8 then
      s ++ List.replicate (8 - s.length % 8) 0 else s) =
      s ++ List.replicate ((8 - s.length % 8) % 8) 0 := by
    by_cases hr : s.length % 8 = 0
    · rw [if_neg (by omega), hr]
      simp
    · rw [if_pos (by omega)]
      have he : (8 - s.length % 8) % 8 = 8 - s.length % 8 := by omega
      rw [he]
  have henc : encrypt_text_file s =
      xteaHeader ++ leBytes 4 (crc32 s) ++
        xteaEncBytes xteaDefaultKey
          (s ++ List.replicate ((8 - s.length % 8) % 8) 0) := by
    have henc0 : encrypt_text_file s =
        xteaHeader ++ leBytes 4 (crc32 (dropTrailingZeros s)) ++
          xteaEncBytes xteaDefaultKey
            (if 8 - (dropTrailingZeros s).length % 8 < 8 then
              dropTrailingZeros s ++
                List.replicate (8 - (dropTrailingZeros s).length % 8) 0
            else dropTrailingZeros s) := rfl
    rw [henc0, hnz, hpadded]
  have h16 : xteaHeader.length = 16 := rfl
  have htake : (encrypt_text_file s).take 16 = xteaHeader := by
    rw [henc, List.append_assoc, List.take_left' h16]
  have hmain : decrypt_text_file (encrypt_text_file s) =
      some (s ++ List.replicate ((8 - s.length % 8) % 8) 0) := by
    have hbytes : ∀ b ∈ s ++ List.replicate ((8 - s.length % 8) % 8) 0,
        b < 256 := by
      intro b hbm
      rcases List.mem_append.mp hbm with hbm | hbm
      · have := hascii b hbm; omega
      · have := List.eq_of_mem_replicate hbm; omega
    have hplen : (s ++ List.replicate ((8 - s.length % 8) % 8) 0).length % 8
        = 0 := by
      simp only [List.length_append, List.length_replicate]
      omega
    have hdec : xteaDecBytes xteaDefaultKey (xteaEncBytes xteaDefaultKey
        (s ++ List.replicate ((8 - s.length % 8) % 8) 0)) =
        s ++ List.replicate ((8 - s.length % 8) % 8) 0 :=
      xteaBytes_inverse xteaDefaultKey _ hbytes hplen
    have hasciip : ∀ b ∈ s ++ List.replicate ((8 - s.length % 8) % 8) 0,
        b ≤ 0x7F := by
      intro b hbm
      rcases List.mem_append.mp hbm with hbm | hbm
      · have := hascii b hbm; omega
      · have := List.eq_of_mem_replicate hbm; omega
    have hdtz : dropTrailingZeros
        (s ++ List.replicate ((8 - s.length % 8) % 8) 0) = s := by
      rw [dropTrailingZeros_append_replicate, hnz]
    rw [henc]
    simp only [decrypt_text_file]
    rw [if_neg (show ¬ ((xteaHeader ++ leBytes 4 (crc32 s) ++
        xteaEncBytes xteaDefaultKey
          (s ++ List.replicate ((8 - s.length % 8) % 8) 0)).length < 20) by
      simp only [List.length_append, length_leBytes, h16]
      omega)]
    have htake2 : (xteaHeader ++ leBytes 4 (crc32 s) ++
        xteaEncBytes xteaDefaultKey
          (s ++ List.replicate ((8 - s.length % 8) % 8) 0)).take 16 =
        xteaHeader := by
      rw [List.append_assoc, List.take_left' h16]
    rw [if_neg (show ¬ ((xteaHeader ++ leBytes 4 (crc32 s) ++
            xteaEncBytes xteaDefaultKey
              (s ++ List.replicate ((8 - s.length % 8) % 8) 0)).take 16 ≠
          xteaHeader) from fun hc => hc htake2)]
    have h20 : (xteaHeader ++ leBytes 4 (crc32 s)).length = 20 := by
      simp only [List.length_append, length_leBytes, h16]
    have hdrop20 : (xteaHeader ++ leBytes 4 (crc32 s) ++
        xteaEncBytes xteaDefaultKey
          (s ++ List.replicate ((8 - s.length % 8) % 8) 0)).drop 20 =
        xteaEncBytes xteaDefaultKey
          (s ++ List.replicate ((8 - s.length % 8) % 8) 0) :=
      List.drop_left' h20
    rw [hdrop20]
    rw [if_neg (show ¬ ((xteaEncBytes xteaDefaultKey
        (s ++ List.replicate ((8 - s.length % 8) % 8) 0)).length % 8 ≠ 0) by
      rw [xteaEncBytes_length_mod]
      exact fun hc => hc rfl)]
    rw [hdec]
    rw [if_pos (utf8Valid_ascii _ hasciip)]
    have hchk : ((xteaHeader ++ leBytes 4 (crc32 s) ++
        xteaEncBytes xteaDefaultKey
          (s ++ List.replicate ((8 - s.length % 8) % 8) 0)).drop 16).take 4 =
        leBytes 4 (crc32 s) := by
      rw [List.append_assoc, List.drop_left' h16,
        List.take_left' (length_leBytes 4 (crc32 s))]
    rw [hchk, hdtz]
    rw [if_pos rfl]
  refine ⟨htake, hmain, fun hr => ?_⟩
  rw [hmain]
  have h0 : (8 - s.length % 8) % 8 = 0 := by omega
  rw [h0]
  simp

/-- Witness for Claim C9: the three-byte ASCII input `hi!` satisfies the
hypotheses and the round trip returns it with five zero padding bytes. -/
theorem c9_xtea_text_roundtrip_witness :
    (∀ b ∈ ([104, 105, 33] : List Nat), b < 0x80) ∧
    dropTrailingZeros [104, 105, 33] = [104, 105, 33] ∧
    ((encrypt_text_file [104, 105, 33]).take 16 = xteaHeader ∧
      decrypt_text_file (encrypt_text_file [104, 105, 33]) =
        some ([104, 105, 33] ++
          List.replicate ((8 - ([104, 105, 33] : List Nat).length % 8) % 8) 0) ∧
      (([104, 105, 33] : List Nat).length % 8 = 0 →
        decrypt_text_file (encrypt_text_file [104, 105, 33]) =
          some [104, 105, 33])) :=
  ⟨by decide, by decide,
    c9_xtea_text_roundtrip [104, 105, 33] (by decide) (by decide)⟩

/-- Counterexample to Claim C9 as stated: decrypting the encryption of
the five ASCII bytes of `hello` succeeds but returns the input with its
three zero padding bytes still attached, not the original bytes. -/
theorem c9_counterexample :
    decrypt_text_file (encrypt_text_file [104, 101, 108, 108, 111]) =
      some [104, 101, 108, 108, 111, 0, 0, 0] ∧
    some [104, 101, 108, 108, 111, 0, 0, 0] ≠
      some ([104, 101, 108, 108, 111] : List Nat) := by
  constructor
  · set_option maxRecDepth 100000 in decide
  · decide

/-- `PartitionType` (`pdefs/mod.rs`); the language variants carry a
language string. `Standard` is the `Default`. -/
inductive PartitionType where
  | Standard
  | Addon
  | Dlc
  | LanguageStandard (tag : List Char)
  | LanguageDlc (tag : List Char)
deriving DecidableEq, Repr

/-- `PartitionId { part_type, index }`. -/
structure PartitionId where
  part_type : PartitionType
  index : Nat
deriving DecidableEq, Repr

/-- `PackageResourceBuilder`, restricted to the `CompressedMemory`
blob: the data is already in stored form and is written verbatim at
build time.  The `File`/`FileAtOffset` variants read the filesystem and
the compressing `Memory` variant invokes the LZ4 compressor, so they
are outside this embedding; `from_resource_package` on a memory-source
package only ever constructs the `CompressedMemory` variant. -/
structure PackageResourceBuilder where
  rrid : Nat
  blob_data : List Nat
  blob_decompressed_size : Option Nat
  blob_is_scrambled : Bool
  resource_type : List Nat
  system_memory_requirement : Nat
  video_memory_requirement : Nat
  references : List (Nat × RRFlags)
deriving DecidableEq

/-- `PackageResourceBlob::size` for the `CompressedMemory` variant:
the decompressed size when one is recorded, the raw length
otherwise. -/
def prb_size (r : PackageResourceBuilder) : Nat :=
  match r.blob_decompressed_size with
  | some s => s
  | none => r.blob_data.length

/-- `PackageResourceBuilder::resource_type_to_bytes`: the 4-character
tag is stored reversed; any other length is
`InvalidResourceType`. -/
def resource_type_to_bytes (s : List Nat) : Option (List Nat) :=
  if s.length = 4 then some s.reverse else none

/-- `PackageResourceBuilder::from_compressed_memory`. -/
def from_compressed_memory (rrid : Nat) (rtype : List Nat)
    (data : List Nat) (decompressed_size : Option Nat)
    (is_scrambled : Bool) : Option PackageResourceBuilder :=
  if 2 ^ 32 - 1 < data.length then none
  else
    match resource_type_to_bytes rtype with
    | none => none
    | some tb =>
      some ⟨rrid, data, decompressed_size, is_scrambled, tb,
        (match decompressed_size with
          | some s => s
          | none => data.length), 2 ^ 32 - 1, []⟩

/-- `PackageResourceBuilder::with_reference` (appends; duplicates and
order are kept). -/
def prb_with_reference (r : PackageResourceBuilder) (rrid : Nat)
    (flags : RRFlags) : PackageResourceBuilder :=
  { r with references := r.references ++ [(rrid, flags)] }

/-- `PackageResourceBuilder::with_memory_requirements`. -/
def prb_with_memory_requirements (r : PackageResourceBuilder)
    (sys vid : Nat) : PackageResourceBuilder :=
  { r with system_memory_requirement := sys,
           video_memory_requirement := vid }

/-- `ResourceInfo::data_type`.  Modelled from the spec: the provided
sources only carry an older revision of `resource_info.rs` (its
`extension` accessor); §3.2 records that the four-byte type tag is
stored reversed, so `data_type` renders the stored bytes in reading
order, i.e. reversed. -/
def dataType (h : ResourceHeader) : List Nat := h.resource_type.reverse

/-- `PackageBuilder`; `resources` is the insertion-ordered
`rrid → builder` map and `unneeded_resources` the insertion-ordered
set. -/
structure PackageBuilder where
  partition_id : PartitionId
  patch_id : PatchId
  use_legacy_references : Bool
  resources : List (Nat × PackageResourceBuilder)
  unneeded_resources : List Nat
deriving DecidableEq

/-- `IndexSet::insert`: appends when absent, keeps the set unchanged
(and the original position) when present. -/
def isetInsert (l : List Nat) (x : Nat) : List Nat :=
  if x ∈ l then l else l ++ [x]

/-- `PackageBuilder::with_resource` (keyed by the resource's rrid,
overwriting in place). -/
def pb_with_resource (b : PackageBuilder)
    (r : PackageResourceBuilder) : PackageBuilder :=
  { b with resources := imInsert b.resources r.rrid r }

/-- `PackageBuilder::with_unneeded_resource`. -/
def pb_with_unneeded_resource (b : PackageBuilder) (rrid : Nat) :
    PackageBuilder :=
  { b with unneeded_resources := isetInsert b.unneeded_resources rrid }

/-- The duplication of one parsed resource inside
`PackageBuilder::from_resource_package`, memory-source arm: slice
`data[data_offset .. data_offset + read_size]` (an out-of-range slice
panics, modelled as `none`), rebuild via `from_compressed_memory`,
then restore the memory requirements and copy the references. -/
def dupResource (data : List Nat) (rrid : Nat) (r : ResourceInfo) :
    Option PackageResourceBuilder :=
  let read_size := match poi_compressed_size r.entry with
    | some n => n
    | none => r.header.data_size
  if r.entry.data_offset + read_size ≤ data.length then
    match from_compressed_memory rrid (dataType r.header)
        ((data.drop r.entry.data_offset).take read_size)
        (match poi_compressed_size r.entry with
          | some _ => some r.header.data_size
          | none => none)
        (offset_is_scrambled r.entry.flags) with
    | none => none
    | some b0 =>
      some (r.header.references.foldl
        (fun rb q => prb_with_reference rb q.1 q.2)
        (prb_with_memory_requirements b0
          r.header.system_memory_requirement
          r.header.video_memory_requirement))
  else none

/-- The resource loop of `from_resource_package`: duplicate each
resource in map order and `with_resource` it into the builder. -/
def dupResources (data : List Nat) :
    List (Nat × ResourceInfo) → PackageBuilder → Option PackageBuilder
  | [], b => some b
  | (rrid, r) :: rest, b =>
    match dupResource data rrid r with
    | none => none
    | some rb => dupResources data rest (pb_with_resource b rb)

/-- `PackageBuilder::from_resource_package`, for packages with a
memory source (`none` models the `NoSource` error; a file source
re-reads the filesystem at build time and is outside this
embedding). The partition and patch ids come from the v2 metadata,
with `Standard`/`0`/`Base` defaults when there is none. -/
def from_resource_package (p : ResourcePackage) : Option PackageBuilder :=
  match p.source with
  | none => none
  | some (RPSource.file _) => none
  | some (RPSource.memory data) =>
    let b0 : PackageBuilder :=
      { partition_id :=
          { part_type := match (match p.metadata with
              | some m => m.chunk_type
              | none => ChunkTypeE.Standard) with
              | ChunkTypeE.Standard => PartitionType.Standard
              | ChunkTypeE.Addon => PartitionType.Addon,
            index := match p.metadata with
              | some m => m.chunk_id
              | none => 0 },
        patch_id := match (match p.metadata with
            | some m => m.patch_id
            | none => 0) with
          | 0 => PatchId.Base
          | x => PatchId.Patch x,
        use_legacy_references := false,
        resources := [],
        unneeded_resources := [] }
    match dupResources data p.resources b0 with
    | none => none
    | some b1 =>
      some ((unneeded_resource_ids p).foldl pb_with_unneeded_resource b1)

/-- Overwrite `d` into `buf` at offset `off` (the byte-level effect of
seek + write + seek-back on a `Cursor`; every back-patch in the builder
stays inside the already-written bytes and has the length of the bytes
it replaces). -/
def writeAt (buf : List Nat) (off : Nat) (d : List Nat) : List Nat :=
  buf.take off ++ d ++ buf.drop (off + d.length)

/-- The 20 on-disk bytes of a `PackageOffsetInfo`. -/
def offsetEntryBytes (e : PackageOffsetInfo) : List Nat :=
  leBytes 8 e.runtime_resource_id ++ leBytes 8 e.data_offset ++
    leBytes 4 e.flags

/-- The 24 fixed on-disk bytes of a `ResourceHeader` (binrw writes the
references through `empty_writer`, i.e. not at all). -/
def resHeaderBytes (h : ResourceHeader) : List Nat :=
  h.resource_type ++ leBytes 4 h.references_chunk_size ++
    leBytes 4 h.states_chunk_size ++ leBytes 4 h.data_size ++
    leBytes 4 h.system_memory_requirement ++
    leBytes 4 h.video_memory_requirement

/-- The packed reference count-and-flags word written by the builder:
count in the low 30 bits, `is_new_format = !legacy`, `always_true`
set. -/
def rcafWord (cnt : Nat) (legacy : Bool) : Nat :=
  cnt % 2 ^ 30 + (if legacy then 0 else 2 ^ 30) + 2 ^ 31

/-- Consecutive 8-byte little-endian ids. -/
def rridListBytes : List Nat → List Nat
  | [] => []
  | v :: rest => leBytes 8 v ++ rridListBytes rest

/-- The reference chunk the builder writes: count word, then ids
before v1 flag bytes in the legacy layout, v2 flag bytes before ids in
the new layout. -/
def refTableBytes (legacy : Bool) (refs : List (Nat × RRFlags)) :
    List Nat :=
  leBytes 4 (rcafWord refs.length legacy) ++
    (if legacy then
      rridListBytes (refs.map Prod.fst) ++
        refs.map (fun q => flags_to_v1 q.2 % 256)
    else
      refs.map (fun q => flags_to_v2 q.2 % 256) ++
        rridListBytes (refs.map Prod.fst))

/-- `ChunkType` as its `repr(u8)` byte. -/
def chunkTypeByte : ChunkTypeE → Nat
  | ChunkTypeE.Standard => 0
  | ChunkTypeE.Addon => 1

/-- The binrw write of a `ResourcePackage` header record: magic, the
metadata block iff the magic is `2KPR`, the three header words, and
the unneeded-resources block iff `is_patch`. -/
def rpHeaderBytes (p : ResourcePackage) (is_patch : Bool) : List Nat :=
  p.magic ++
    (if p.magic = magicV2 then
      (match p.metadata with
        | some m =>
          leBytes 4 m.unknown ++ leBytes 1 m.chunk_id ++
            [chunkTypeByte m.chunk_type] ++ leBytes 1 m.patch_id ++
            m.language_tag
        | none => [])
    else []) ++
    leBytes 4 p.header.file_count ++
    leBytes 4 p.header.offset_table_size ++
    leBytes 4 p.header.metadata_table_size ++
    (if is_patch then
      leBytes 4 p.unneeded_resource_count ++
        (match p.unneeded_resources with
          | some l => rridListBytes l
          | none => [])
    else [])

/-- `PackageBuilder::write_offset_table`: append one placeholder entry
per resource (zero offset and flags), recording each entry's file
position. -/
def write_offset_table :
    List (Nat × PackageResourceBuilder) → List Nat → List (Nat × Nat) →
      List Nat × List (Nat × Nat)
  | [], buf, acc => (buf, acc)
  | (rrid, _) :: rest, buf, acc =>
    write_offset_table rest (buf ++ offsetEntryBytes ⟨rrid, 0, 0⟩)
      (imInsert acc rrid buf.length)

/-- `PackageBuilder::write_metadata_table`: per resource, write the
24-byte header with a zero `references_chunk_size`; when there are
references, append the reference chunk, fail with
`TooManyReferences` past `u32::MAX`, and back-patch the header with
the chunk's size. -/
def write_metadata_table (legacy : Bool) :
    List (Nat × PackageResourceBuilder) → List Nat → Option (List Nat)
  | [], buf => some buf
  | (_, res) :: rest, buf =>
    let hdr0 : ResourceHeader := ⟨res.resource_type, 0, 0, prb_size res,
      res.system_memory_requirement, res.video_memory_requirement, []⟩
    if res.references = [] then
      write_metadata_table legacy rest (buf ++ resHeaderBytes hdr0)
    else
      let refB := refTableBytes legacy res.references
      if 2 ^ 32 - 1 < refB.length then none
      else
        write_metadata_table legacy rest
          (writeAt (buf ++ resHeaderBytes hdr0 ++ refB) buf.length
            (resHeaderBytes { hdr0 with references_chunk_size := refB.length }))

/-- The packed flags word the data loop back-patches into an offset
entry: `final_compressed_size = compressed_size.unwrap_or(0)` where
`compressed_size = decompressed_size.map(|_| data.len())`, in the low
31 bits, with `is_scrambled` in the top bit. -/
def entryFlags (res : PackageResourceBuilder) : Nat :=
  (match res.blob_decompressed_size with
    | some _ => res.blob_data.length
    | none => 0) % 2 ^ 31 +
  (if res.blob_is_scrambled then 2 ^ 31 else 0)

/-- The data loop of `build_internal`: append each blob verbatim
(`CompressedMemory`), then back-patch that resource's offset-table
entry with the final offset and packed flags
(`compressed_size` = raw length when a decompressed size is recorded,
else 0; `is_scrambled` in the top bit).  A missing entry position
models the `HashMap` index panic and cannot occur in the build
flow. -/
def write_data :
    List (Nat × PackageResourceBuilder) → List (Nat × Nat) → List Nat →
      Option (List Nat)
  | [], _, buf => some buf
  | (rrid, res) :: rest, offs, buf =>
    match imLookup offs rrid with
    | none => none
    | some patch_offset =>
      write_data rest offs
        (writeAt (buf ++ res.blob_data) patch_offset
          (offsetEntryBytes ⟨rrid, buf.length, entryFlags res⟩))

/-- The magic the builder writes for each version. -/
def buildMagic : PackageVersion → List Nat
  | PackageVersion.RPKGv1 => magicV1
  | PackageVersion.RPKGv2 => magicV2

/-- The chunk type the builder stores for a partition type: `Addon`
maps to `Addon`, everything else to `Standard`. -/
def buildChunkType : PartitionType → ChunkTypeE
  | PartitionType.Addon => ChunkTypeE.Addon
  | _ => ChunkTypeE.Standard

/-- The patch-id byte the builder stores (`as u8`, truncating). -/
def buildPatchByte : PatchId → Nat
  | PatchId.Base => 0
  | PatchId.Patch x => x % 256

/-- The metadata block the builder writes: none for v1; for v2
`unknown = 1`, the partition index and patch id (`as u8`, truncating),
the chunk type (`Addon` or else `Standard`), and the `xx` language
tag. -/
def buildMetadata (b : PackageBuilder) : PackageVersion →
    Option PackageMetadata
  | PackageVersion.RPKGv1 => none
  | PackageVersion.RPKGv2 => some ⟨1, b.partition_id.index % 256,
      buildChunkType b.partition_id.part_type,
      buildPatchByte b.patch_id, [0x78, 0x78]⟩

/-- The header `ResourcePackage` record `build_internal` assembles
(first with zero table sizes, then back-patched with the measured
ones). -/
def buildHeaderRecord (b : PackageBuilder) (v : PackageVersion)
    (ot mt : Nat) : ResourcePackage :=
  ⟨none, buildMagic v, buildMetadata b v, ⟨b.resources.length, ot, mt⟩,
    b.unneeded_resources.length, some b.unneeded_resources, []⟩

/-- `PackageBuilder::build_internal` on a fresh `Cursor`: validate,
write the header record with placeholder table sizes, the placeholder
offset table, the metadata table, back-patch the header with the
measured table sizes (`TooManyResources` past `u32::MAX`), then write
the data with its offset back-patches. -/
def build_internal (b : PackageBuilder) (version : PackageVersion) :
    Option (List Nat) :=
  if b.unneeded_resources ≠ [] ∧ patch_is_base b.patch_id = true then none
  else
    let is_patch := patch_is_patch b.patch_id
    let buf0 := rpHeaderBytes (buildHeaderRecord b version 0 0) is_patch
    let otr := write_offset_table b.resources buf0 []
    if 2 ^ 32 - 1 < otr.1.length - buf0.length then none
    else
      match write_metadata_table b.use_legacy_references b.resources
          otr.1 with
      | none => none
      | some buf2 =>
        if 2 ^ 32 - 1 < buf2.length - otr.1.length then none
        else
          write_data b.resources otr.2
            (writeAt buf2 0 (rpHeaderBytes
              (buildHeaderRecord b version (otr.1.length - buf0.length)
                (buf2.length - otr.1.length)) is_patch))

/-- `PackageBuilder::build_in_memory`: build into a fresh in-memory
cursor and return its bytes. -/
def build_in_memory (b : PackageBuilder) (version : PackageVersion) :
    Option (List Nat) :=
  build_internal b version

/-- The placeholder offset table as one byte list. -/
def placeholderTable : List (Nat × PackageResourceBuilder) → List Nat
  | [] => []
  | (rrid, _) :: rest =>
    offsetEntryBytes ⟨rrid, 0, 0⟩ ++ placeholderTable rest

/-- The final offset table: entry `i` carries the data offset of blob
`i`, offsets accumulating blob lengths from `off`. -/
def finalOffsetTable : List (Nat × PackageResourceBuilder) → Nat →
    List Nat
  | [], _ => []
  | (rrid, res) :: rest, off =>
    offsetEntryBytes ⟨rrid, off, entryFlags res⟩ ++
      finalOffsetTable rest (off + res.blob_data.length)

/-- One resource's contribution to the metadata table after its
back-patch: the 24-byte header carrying the reference chunk's size,
then the chunk itself when there are references. -/
def metaEntryBytes (legacy : Bool) (res : PackageResourceBuilder) :
    List Nat :=
  if res.references = [] then
    resHeaderBytes ⟨res.resource_type, 0, 0, prb_size res,
      res.system_memory_requirement, res.video_memory_requirement, []⟩
  else
    resHeaderBytes ⟨res.resource_type,
        (refTableBytes legacy res.references).length, 0, prb_size res,
        res.system_memory_requirement, res.video_memory_requirement, []⟩ ++
      refTableBytes legacy res.references

/-- The metadata table as one byte list. -/
def metaTableBytes (legacy : Bool) :
    List (Nat × PackageResourceBuilder) → List Nat
  | [] => []
  | (_, res) :: rest => metaEntryBytes legacy res ++ metaTableBytes legacy rest

/-- All resource payloads concatenated in map order. -/
def blobJoin : List (Nat × PackageResourceBuilder) → List Nat
  | [] => []
  | (_, res) :: rest => res.blob_data ++ blobJoin rest

/-- The closed form of the builder's output: final header, final
offset table, metadata table, payloads. -/
def buildBytes (b : PackageBuilder) (v : PackageVersion) : List Nat :=
  let is_patch := patch_is_patch b.patch_id
  let hdrLen := (rpHeaderBytes (buildHeaderRecord b v 0 0) is_patch).length
  let mt := metaTableBytes b.use_legacy_references b.resources
  rpHeaderBytes
      (buildHeaderRecord b v (20 * b.resources.length) mt.length)
      is_patch ++
    finalOffsetTable b.resources
      (hdrLen + 20 * b.resources.length + mt.length) ++
    mt ++ blobJoin b.resources

/-- One reference is round-trippable when its id survives the
`RuntimeResourceID::from` clamp and its flags byte is a new-format
byte. -/
def canonRef (q : Nat × RRFlags) : Bool :=
  decide (q.1 ≤ 0x00FFFFFFFFFFFFFF) &&
  (match q.2 with
   | RRFlags.V2 β => decide (β < 256)
   | RRFlags.V1 _ => false)

/-- One resource builder is round-trippable: 4-byte type tag, fields
within their wire widths, new-format references, and a compressed blob
that is nonempty and below the 31-bit `compressed_size` field. -/
def canonResource (r : PackageResourceBuilder) : Bool :=
  decide (r.resource_type.length = 4) &&
  decide (r.rrid < 2 ^ 64) &&
  decide (r.system_memory_requirement < 2 ^ 32) &&
  decide (r.video_memory_requirement < 2 ^ 32) &&
  decide (r.references.length < 2 ^ 28) &&
  r.references.all canonRef &&
  (match r.blob_decompressed_size with
   | some d => decide (0 < r.blob_data.length ∧
       r.blob_data.length < 2 ^ 31 ∧ d < 2 ^ 32)
   | none => decide (r.blob_data.length < 2 ^ 32))

/-- Versions and patch ids whose identity survives the metadata
round trip: v1 archives carry no metadata, so only `Base` re-parses as
itself; v2 patch bytes truncate to `u8`, so the byte must stay
nonzero. -/
def canonPatch (v : PackageVersion) (p : PatchId) : Bool :=
  match v, p with
  | PackageVersion.RPKGv1, PatchId.Base => true
  | PackageVersion.RPKGv1, PatchId.Patch _ => false
  | PackageVersion.RPKGv2, PatchId.Base => true
  | PackageVersion.RPKGv2, PatchId.Patch x => decide (x % 256 ≠ 0)

/-- A builder whose output archive duplicates byte-identically:
new-format references, distinct rrids below `u64`, round-trippable
resources and patch id, unneeded ids only on patches and below the
rrid clamp, and tables within their size fields. -/
def canonBuilder (b : PackageBuilder) (v : PackageVersion) : Bool :=
  !b.use_legacy_references &&
  decide ((b.resources.map Prod.fst).Nodup) &&
  b.resources.all (fun p => decide (p.1 = p.2.rrid) && canonResource p.2) &&
  decide (b.unneeded_resources.Nodup) &&
  b.unneeded_resources.all (fun u => decide (u ≤ 0x00FFFFFFFFFFFFFF)) &&
  decide (b.unneeded_resources.length < 2 ^ 32) &&
  decide (b.resources.length < 2 ^ 26) &&
  decide ((metaTableBytes false b.resources).length < 2 ^ 32) &&
  decide ((buildBytes b v).length < 2 ^ 64) &&
  canonPatch v b.patch_id &&
  (decide (b.unneeded_resources = []) || patch_is_patch b.patch_id)

/-- The `references_chunk_size` the builder back-patches: 0 without
references, the written chunk's length otherwise. -/
def refChunkSize (legacy : Bool) (res : PackageResourceBuilder) : Nat :=
  if res.references = [] then 0 else (refTableBytes legacy res.references).length

/-- The `ResourceHeader` a built resource re-parses to (new-format
references). -/
def parsedHeaderOf (res : PackageResourceBuilder) : ResourceHeader :=
  ⟨res.resource_type, refChunkSize false res, 0, prb_size res,
    res.system_memory_requirement, res.video_memory_requirement,
    res.references⟩

/-- The offset-table entries a built archive re-parses to. -/
def entriesOf : List (Nat × PackageResourceBuilder) → Nat →
    List PackageOffsetInfo
  | [], _ => []
  | (k, res) :: rest, off =>
    ⟨k, off, entryFlags res⟩ :: entriesOf rest (off + res.blob_data.length)

/-- The metadata-table headers a built archive re-parses to. -/
def headersOf : List (Nat × PackageResourceBuilder) → List ResourceHeader
  | [] => []
  | (_, res) :: rest => parsedHeaderOf res :: headersOf rest

/-- The resource map a built archive re-parses to, with `off` the data
offset of the first blob. -/
def parsedResources : List (Nat × PackageResourceBuilder) → Nat →
    List (Nat × ResourceInfo)
  | [], _ => []
  | (k, res) :: rest, off =>
    (k, ⟨⟨k, off, entryFlags res⟩, parsedHeaderOf res⟩) ::
      parsedResources rest (off + res.blob_data.length)

/-- The `ResourcePackage` value `from_memory` returns for a built
canonical archive. -/
def parsedPackage (b : PackageBuilder) (v : PackageVersion) :
    ResourcePackage :=
  let is_patch := patch_is_patch b.patch_id
  let hdrLen := (rpHeaderBytes (buildHeaderRecord b v 0 0) is_patch).length
  let mt := metaTableBytes false b.resources
  ⟨some (RPSource.memory (buildBytes b v)), buildMagic v,
    buildMetadata b v,
    ⟨b.resources.length, 20 * b.resources.length, mt.length⟩,
    (if is_patch then b.unneeded_resources.length else 0),
    (if is_patch ∧ b.unneeded_resources ≠ [] then
      some b.unneeded_resources else none),
    parsedResources b.resources
      (hdrLen + 20 * b.resources.length + mt.length)⟩

theorem length_offsetEntryBytes (e : PackageOffsetInfo) :
    (offsetEntryBytes e).length = 20 := by
  simp [offsetEntryBytes, length_leBytes]

theorem length_resHeaderBytes (h : ResourceHeader)
    (ht : h.resource_type.length = 4) : (resHeaderBytes h).length = 24 := by
  simp [resHeaderBytes, length_leBytes, ht]

theorem length_rridListBytes : ∀ l : List Nat,
    (rridListBytes l).length = 8 * l.length := by
  intro l
  induction l with
  | nil => rfl
  | cons v rest ih =>
    simp only [rridListBytes, List.length_append, length_leBytes,
      List.length_cons, ih]
    omega

theorem length_refTableBytes (legacy : Bool) (refs : List (Nat × RRFlags)) :
    (refTableBytes legacy refs).length = 4 + 9 * refs.length := by
  cases legacy <;>
    simp only [refTableBytes, if_true, if_false, Bool.false_eq_true,
      List.length_append, length_leBytes, List.length_map,
      length_rridListBytes] <;>
    omega

theorem length_placeholderTable : ∀ rs : List (Nat × PackageResourceBuilder),
    (placeholderTable rs).length = 20 * rs.length := by
  intro rs
  induction rs with
  | nil => rfl
  | cons p rest ih =>
    rcases p with ⟨k, res⟩
    simp only [placeholderTable, List.length_append,
      length_offsetEntryBytes, List.length_cons, ih]
    omega

theorem length_finalOffsetTable : ∀ (rs : List (Nat × PackageResourceBuilder))
    (off : Nat), (finalOffsetTable rs off).length = 20 * rs.length := by
  intro rs
  induction rs with
  | nil => intro off; rfl
  | cons p rest ih =>
    intro off
    rcases p with ⟨k, res⟩
    simp only [finalOffsetTable, List.length_append,
      length_offsetEntryBytes, List.length_cons, ih]
    omega

theorem writeAt_append {buf : List Nat} {off : Nat} {d : List Nat}
    (t : List Nat) (h : off + d.length ≤ buf.length) :
    writeAt (buf ++ t) off d = writeAt buf off d ++ t := by
  simp only [writeAt]
  rw [List.take_append_eq_append_take, List.drop_append_eq_append_drop]
  have h1 : off - buf.length = 0 := by omega
  have h2 : off + d.length - buf.length = 0 := by omega
  rw [h1, h2]
  simp

theorem writeAt_inplace (buf d t d2 : List Nat)
    (hlen : d2.length = d.length) :
    writeAt (buf ++ d ++ t) buf.length d2 = buf ++ d2 ++ t := by
  have hassoc : buf ++ d ++ t = buf ++ (d ++ t) := by
    rw [List.append_assoc]
  simp only [writeAt, hassoc, hlen]
  rw [List.take_left, List.drop_append_eq_append_drop]
  have h1 : buf.length + d.length - buf.length = d.length := by omega
  rw [List.drop_eq_nil_of_le (by omega), h1, List.drop_left]
  simp

theorem writeAt_zero (buf d : List Nat) :
    writeAt buf 0 d = d ++ buf.drop d.length := by
  simp [writeAt]

theorem imInsert_fresh {α : Type} : ∀ (l : List (Nat × α)) (k : Nat)
    (v : α), k ∉ l.map Prod.fst → imInsert l k v = l ++ [(k, v)] := by
  intro l
  induction l with
  | nil => intro k v _; rfl
  | cons p rest ih =>
    intro k v hk
    rcases p with ⟨k', v'⟩
    simp only [List.map_cons, List.mem_cons] at hk
    push_neg at hk
    have hne : ¬ (k' = k) := fun hc => hk.1 hc.symm
    simp only [imInsert, if_neg hne, List.cons_append]
    rw [ih k v hk.2]

theorem imLookup_imInsert_ne {α : Type} : ∀ (l : List (Nat × α))
    (k k' : Nat) (v : α), k ≠ k' →
    imLookup (imInsert l k' v) k = imLookup l k := by
  intro l
  induction l with
  | nil =>
    intro k k' v hne
    have hne2 : ¬ (k' = k) := fun hc => hne hc.symm
    simp [imInsert, imLookup, if_neg hne2]
  | cons p rest ih =>
    intro k k' v hne
    rcases p with ⟨k0, v0⟩
    have hne2 : ¬ (k' = k) := fun hc => hne hc.symm
    by_cases h0 : k0 = k'
    · simp only [imInsert, if_pos h0, imLookup]
      rw [h0]
      simp [if_neg hne2]
    · simp only [imInsert, if_neg h0, imLookup]
      by_cases hk : k0 = k
      · simp [hk]
      · simp only [if_neg hk]
        exact ih k k' v hne

theorem imLookup_append_fresh {α : Type} : ∀ (l1 l2 : List (Nat × α))
    (k : Nat), k ∉ l1.map Prod.fst →
    imLookup (l1 ++ l2) k = imLookup l2 k := by
  intro l1
  induction l1 with
  | nil => intro l2 k _; rfl
  | cons p rest ih =>
    intro l2 k hk
    rcases p with ⟨k0, v0⟩
    simp only [List.map_cons, List.mem_cons] at hk
    push_neg at hk
    have hne : ¬ (k0 = k) := fun hc => hk.1 hc.symm
    simp only [List.cons_append, imLookup, if_neg hne]
    exact ih l2 k hk.2

/-- The entry positions recorded by the offset-table writer resolve
each resource's rrid to `base + 20 * i`. -/
def lookupsFrom (offs : List (Nat × Nat)) :
    Nat → List (Nat × PackageResourceBuilder) → Prop
  | _, [] => True
  | base, (rrid, _) :: rest =>
    imLookup offs rrid = some base ∧ lookupsFrom offs (base + 20) rest

theorem write_offset_table_buf :
    ∀ (rs : List (Nat × PackageResourceBuilder)) (buf : List Nat)
      (acc : List (Nat × Nat)),
      (write_offset_table rs buf acc).1 = buf ++ placeholderTable rs := by
  intro rs
  induction rs with
  | nil => intro buf acc; simp [write_offset_table, placeholderTable]
  | cons p rest ih =>
    intro buf acc
    rcases p with ⟨k, res⟩
    simp only [write_offset_table, placeholderTable]
    rw [ih]
    simp

theorem write_offset_table_untouched :
    ∀ (rs : List (Nat × PackageResourceBuilder)) (buf : List Nat)
      (acc : List (Nat × Nat)) (k : Nat), k ∉ rs.map Prod.fst →
      imLookup (write_offset_table rs buf acc).2 k = imLookup acc k := by
  intro rs
  induction rs with
  | nil => intro buf acc k _; rfl
  | cons p rest ih =>
    intro buf acc k hk
    rcases p with ⟨k0, res⟩
    simp only [List.map_cons, List.mem_cons] at hk
    push_neg at hk
    simp only [write_offset_table]
    rw [ih _ _ k hk.2, imLookup_imInsert_ne _ _ _ _ hk.1]

theorem write_offset_table_lookups :
    ∀ (rs : List (Nat × PackageResourceBuilder)) (buf : List Nat)
      (acc : List (Nat × Nat)),
      (rs.map Prod.fst).Nodup →
      (∀ k ∈ rs.map Prod.fst, k ∉ acc.map Prod.fst) →
      lookupsFrom (write_offset_table rs buf acc).2 buf.length rs := by
  intro rs
  induction rs with
  | nil => intro buf acc _ _; trivial
  | cons p rest ih =>
    intro buf acc hnd hfresh
    rcases p with ⟨k0, res⟩
    simp only [List.map_cons, List.nodup_cons] at hnd
    simp only [lookupsFrom, write_offset_table]
    constructor
    · rw [write_offset_table_untouched rest _ _ k0 hnd.1]
      rw [imInsert_fresh acc k0 buf.length
        (hfresh k0 (by simp))]
      rw [imLookup_append_fresh acc [(k0, buf.length)] k0
        (hfresh k0 (by simp))]
      simp [imLookup]
    · have hlen : (buf ++ offsetEntryBytes ⟨k0, 0, 0⟩).length =
          buf.length + 20 := by
        simp [length_offsetEntryBytes]
      rw [← hlen]
      refine ih _ _ hnd.2 ?_
      intro k hkm
      rw [imInsert_fresh acc k0 buf.length (hfresh k0 (by simp))]
      simp only [List.map_append, List.mem_append, List.map_cons,
        List.map_nil, List.mem_cons, List.not_mem_nil]
      rintro (hc | hc | hc)
      · exact hfresh k (by simp [hkm]) hc
      · exact hnd.1 (hc ▸ hkm)
      · exact hc

theorem write_metadata_table_closed :
    ∀ (rs : List (Nat × PackageResourceBuilder)) (buf : List Nat)
      (legacy : Bool),
      (∀ p ∈ rs, p.2.resource_type.length = 4 ∧
        (refTableBytes legacy p.2.references).length ≤ 2 ^ 32 - 1) →
      write_metadata_table legacy rs buf =
        some (buf ++ metaTableBytes legacy rs) := by
  intro rs
  induction rs with
  | nil => intro buf legacy _; simp [write_metadata_table, metaTableBytes]
  | cons p rest ih =>
    intro buf legacy hres
    rcases p with ⟨k0, res⟩
    have h0' := hres (k0, res) (by simp)
    have h0 : res.resource_type.length = 4 ∧
        (refTableBytes legacy res.references).length ≤ 2 ^ 32 - 1 := h0'
    simp only [write_metadata_table]
    by_cases hre : res.references = []
    · rw [if_pos hre, ih _ _ (fun q hq => hres q (by simp [hq]))]
      simp only [metaTableBytes, metaEntryBytes, if_pos hre]
      simp
    · rw [if_neg hre, if_neg (by omega)]
      have hw : writeAt
          (buf ++ resHeaderBytes ⟨res.resource_type, 0, 0, prb_size res,
            res.system_memory_requirement,
            res.video_memory_requirement, []⟩ ++
            refTableBytes legacy res.references) buf.length
          (resHeaderBytes ⟨res.resource_type,
            (refTableBytes legacy res.references).length, 0, prb_size res,
            res.system_memory_requirement,
            res.video_memory_requirement, []⟩) =
          buf ++ resHeaderBytes ⟨res.resource_type,
            (refTableBytes legacy res.references).length, 0, prb_size res,
            res.system_memory_requirement,
            res.video_memory_requirement, []⟩ ++
            refTableBytes legacy res.references := by
        refine writeAt_inplace _ _ _ _ ?_
        rw [length_resHeaderBytes _ h0.1, length_resHeaderBytes _ h0.1]
      rw [hw, ih _ _ (fun q hq => hres q (by simp [hq]))]
      simp only [metaTableBytes, metaEntryBytes, if_neg hre]
      simp

theorem write_data_closed :
    ∀ (rs : List (Nat × PackageResourceBuilder)) (offs : List (Nat × Nat))
      (pre post : List Nat),
      lookupsFrom offs pre.length rs →
      write_data rs offs (pre ++ placeholderTable rs ++ post) =
        some (pre ++
          finalOffsetTable rs (pre.length + 20 * rs.length + post.length) ++
          post ++ blobJoin rs) := by
  intro rs
  induction rs with
  | nil =>
    intro offs pre post _
    simp [write_data, placeholderTable, finalOffsetTable, blobJoin]
  | cons p rest ih =>
    intro offs pre post hlk
    rcases p with ⟨k0, res⟩
    rcases hlk with ⟨hlk0, hlkrest⟩
    simp only [write_data, placeholderTable]
    rw [hlk0]
    have hbuflen : (pre ++ (offsetEntryBytes ⟨k0, 0, 0⟩ ++
        placeholderTable rest) ++ post).length =
        pre.length + 20 * (rest.length + 1) + post.length := by
      simp [length_offsetEntryBytes, length_placeholderTable]
      omega
    have hsplit : pre ++ (offsetEntryBytes ⟨k0, 0, 0⟩ ++
        placeholderTable rest) ++ post ++ res.blob_data =
        pre ++ offsetEntryBytes ⟨k0, 0, 0⟩ ++
          (placeholderTable rest ++ post ++ res.blob_data) := by
      simp [List.append_assoc]
    have hpatch : writeAt (pre ++ offsetEntryBytes ⟨k0, 0, 0⟩ ++
        (placeholderTable rest ++ post ++ res.blob_data)) pre.length
        (offsetEntryBytes ⟨k0,
          (pre ++ (offsetEntryBytes ⟨k0, 0, 0⟩ ++
            placeholderTable rest) ++ post).length, entryFlags res⟩) =
        pre ++ offsetEntryBytes ⟨k0,
          (pre ++ (offsetEntryBytes ⟨k0, 0, 0⟩ ++
            placeholderTable rest) ++ post).length, entryFlags res⟩ ++
          (placeholderTable rest ++ post ++ res.blob_data) := by
      refine writeAt_inplace _ _ _ _ ?_
      rfl
    simp only []
    rw [hsplit]
    rw [hpatch]
    have hpre2 : pre ++ offsetEntryBytes ⟨k0,
        (pre ++ (offsetEntryBytes ⟨k0, 0, 0⟩ ++
          placeholderTable rest) ++ post).length, entryFlags res⟩ ++
        (placeholderTable rest ++ post ++ res.blob_data) =
        (pre ++ offsetEntryBytes ⟨k0,
          (pre ++ (offsetEntryBytes ⟨k0, 0, 0⟩ ++
            placeholderTable rest) ++ post).length, entryFlags res⟩) ++
          placeholderTable rest ++ (post ++ res.blob_data) := by
      simp [List.append_assoc]
    rw [hpre2]
    have hpre2len : (pre ++ offsetEntryBytes ⟨k0,
        (pre ++ (offsetEntryBytes ⟨k0, 0, 0⟩ ++
          placeholderTable rest) ++ post).length,
        entryFlags res⟩).length = pre.length + 20 := by
      simp [length_offsetEntryBytes]
    rw [ih _ _ _ (by rw [hpre2len]; exact hlkrest)]
    simp only [hpre2len, hbuflen, finalOffsetTable, blobJoin,
      List.length_append, List.length_cons]
    rw [length_offsetEntryBytes]
    have harith : pre.length + 20 + 20 * rest.length +
        (post.length + res.blob_data.length) =
        pre.length + 20 * (rest.length + 1) + post.length +
          res.blob_data.length := by omega
    rw [harith]
    simp [List.append_assoc]

theorem length_rpHeaderBytes_record (b : PackageBuilder)
    (v : PackageVersion) (ot mt : Nat) (ip : Bool) :
    (rpHeaderBytes (buildHeaderRecord b v ot mt) ip).length =
      (rpHeaderBytes (buildHeaderRecord b v 0 0) ip).length := by
  simp [rpHeaderBytes, buildHeaderRecord, length_leBytes]

theorem canonResource_parts {r : PackageResourceBuilder}
    (h : canonResource r = true) :
    r.resource_type.length = 4 ∧ r.rrid < 2 ^ 64 ∧
    r.system_memory_requirement < 2 ^ 32 ∧
    r.video_memory_requirement < 2 ^ 32 ∧
    r.references.length < 2 ^ 28 ∧
    (∀ q ∈ r.references, canonRef q = true) ∧
    (match r.blob_decompressed_size with
      | some d => 0 < r.blob_data.length ∧
          r.blob_data.length < 2 ^ 31 ∧ d < 2 ^ 32
      | none => r.blob_data.length < 2 ^ 32) := by
  simp only [canonResource, Bool.and_eq_true, decide_eq_true_eq,
    List.all_eq_true] at h
  obtain ⟨⟨⟨⟨⟨⟨h1, h2⟩, h3⟩, h4⟩, h5⟩, h6⟩, h7⟩ := h
  refine ⟨h1, h2, h3, h4, h5, h6, ?_⟩
  rcases hd : r.blob_decompressed_size with - | d
  · rw [hd] at h7
    simpa using h7
  · rw [hd] at h7
    simpa using h7

theorem canonBuilder_parts {b : PackageBuilder} {v : PackageVersion}
    (h : canonBuilder b v = true) :
    b.use_legacy_references = false ∧
    (b.resources.map Prod.fst).Nodup ∧
    (∀ p ∈ b.resources, p.1 = p.2.rrid ∧ canonResource p.2 = true) ∧
    b.unneeded_resources.Nodup ∧
    (∀ u ∈ b.unneeded_resources, u ≤ 0x00FFFFFFFFFFFFFF) ∧
    b.unneeded_resources.length < 2 ^ 32 ∧
    b.resources.length < 2 ^ 26 ∧
    (metaTableBytes false b.resources).length < 2 ^ 32 ∧
    (buildBytes b v).length < 2 ^ 64 ∧
    canonPatch v b.patch_id = true ∧
    (b.unneeded_resources = [] ∨ patch_is_patch b.patch_id = true) := by
  simp only [canonBuilder, Bool.and_eq_true, decide_eq_true_eq,
    List.all_eq_true, Bool.or_eq_true, Bool.not_eq_true'] at h
  obtain ⟨⟨⟨⟨⟨⟨⟨⟨⟨⟨h1, h2⟩, h3⟩, h4⟩, h5⟩, h6⟩, h7⟩, h8⟩, h9⟩, h10⟩, h11⟩ := h
  exact ⟨h1, h2, fun p hp => (by simpa using h3 p hp), h4, h5, h6, h7,
    h8, h9, h10, h11⟩

/-- A canonical builder's `build_in_memory` succeeds and writes exactly
the closed-form `buildBytes`. -/
theorem build_success {b : PackageBuilder} {v : PackageVersion}
    (hc : canonBuilder b v = true) :
    build_in_memory b v = some (buildBytes b v) := by
  obtain ⟨hleg, hnd, hres, -, -, -, hn, hmt, -, -, hval⟩ :=
    canonBuilder_parts hc
  rw [build_in_memory, build_internal]
  rw [if_neg (by
    rintro ⟨hne, hbase⟩
    rcases hval with hval | hval
    · exact hne hval
    · rw [patch_is_patch, hbase] at hval
      simp at hval)]
  simp only []
  have hbuf1 : (write_offset_table b.resources
      (rpHeaderBytes (buildHeaderRecord b v 0 0)
        (patch_is_patch b.patch_id)) []).1 =
      rpHeaderBytes (buildHeaderRecord b v 0 0)
        (patch_is_patch b.patch_id) ++ placeholderTable b.resources :=
    write_offset_table_buf _ _ _
  rw [hbuf1]
  have hotlen : (rpHeaderBytes (buildHeaderRecord b v 0 0)
        (patch_is_patch b.patch_id) ++
        placeholderTable b.resources).length -
      (rpHeaderBytes (buildHeaderRecord b v 0 0)
        (patch_is_patch b.patch_id)).length = 20 * b.resources.length := by
    simp [length_placeholderTable]
  rw [hotlen]
  rw [if_neg (by omega)]
  have hresmeta : ∀ p ∈ b.resources, p.2.resource_type.length = 4 ∧
      (refTableBytes b.use_legacy_references p.2.references).length ≤
        2 ^ 32 - 1 := by
    intro p hp
    obtain ⟨-, hcr⟩ := hres p hp
    obtain ⟨ht4, -, -, -, hrefn, -, -⟩ := canonResource_parts hcr
    refine ⟨ht4, ?_⟩
    rw [length_refTableBytes]
    omega
  rw [write_metadata_table_closed _ _ _ hresmeta]
  have hmtlen : (rpHeaderBytes (buildHeaderRecord b v 0 0)
        (patch_is_patch b.patch_id) ++ placeholderTable b.resources ++
        metaTableBytes b.use_legacy_references b.resources).length -
      (rpHeaderBytes (buildHeaderRecord b v 0 0)
          (patch_is_patch b.patch_id) ++
        placeholderTable b.resources).length =
      (metaTableBytes b.use_legacy_references b.resources).length := by
    simp only [List.length_append]
    omega
  simp only []
  rw [hmtlen]
  rw [hleg]
  rw [if_neg (by omega)]
  have hLH : (rpHeaderBytes (buildHeaderRecord b v
        (20 * b.resources.length)
        (metaTableBytes false b.resources).length)
        (patch_is_patch b.patch_id)).length =
      (rpHeaderBytes (buildHeaderRecord b v 0 0)
        (patch_is_patch b.patch_id)).length :=
    length_rpHeaderBytes_record b v _ _ _
  have hw0 : writeAt (rpHeaderBytes (buildHeaderRecord b v 0 0)
        (patch_is_patch b.patch_id) ++ placeholderTable b.resources ++
        metaTableBytes false b.resources) 0
      (rpHeaderBytes (buildHeaderRecord b v (20 * b.resources.length)
        (metaTableBytes false b.resources).length)
        (patch_is_patch b.patch_id)) =
      rpHeaderBytes (buildHeaderRecord b v (20 * b.resources.length)
        (metaTableBytes false b.resources).length)
        (patch_is_patch b.patch_id) ++
      (placeholderTable b.resources ++ metaTableBytes false b.resources) := by
    rw [writeAt_zero, hLH, List.append_assoc, List.drop_left]
  rw [hw0]
  have hlk : lookupsFrom (write_offset_table b.resources
      (rpHeaderBytes (buildHeaderRecord b v 0 0)
        (patch_is_patch b.patch_id)) []).2
      (rpHeaderBytes (buildHeaderRecord b v (20 * b.resources.length)
        (metaTableBytes false b.resources).length)
        (patch_is_patch b.patch_id)).length b.resources := by
    rw [hLH]
    exact write_offset_table_lookups b.resources _ [] hnd
      (fun k _ => by simp)
  have hsplit2 : rpHeaderBytes (buildHeaderRecord b v
        (20 * b.resources.length)
        (metaTableBytes false b.resources).length)
        (patch_is_patch b.patch_id) ++
      (placeholderTable b.resources ++ metaTableBytes false b.resources) =
      rpHeaderBytes (buildHeaderRecord b v (20 * b.resources.length)
        (metaTableBytes false b.resources).length)
        (patch_is_patch b.patch_id) ++
      placeholderTable b.resources ++ metaTableBytes false b.resources := by
    rw [List.append_assoc]
  rw [hsplit2, write_data_closed b.resources _ _ _ hlk]
  rw [buildBytes]
  rw [hleg, hLH]

theorem readLE_exact (n v : Nat) (r : List Nat) (hv : v < 2 ^ (8 * n)) :
    readLE n (leBytes n v ++ r) = some (v, r) := by
  have h := readN_exact (leBytes n v) r
  rw [length_leBytes] at h
  rw [readLE, h]
  simp [leVal_leBytes, Nat.mod_eq_of_lt hv]

theorem readRrids_exact : ∀ (l : List Nat) (r : List Nat),
    (∀ x ∈ l, x < 2 ^ 64) →
    readRrids l.length (rridListBytes l ++ r) = some (l.map rrid_from, r) := by
  intro l
  induction l with
  | nil => intro r _; simp [readRrids, rridListBytes]
  | cons v rest ih =>
    intro r hb
    simp only [rridListBytes, List.length_cons, readRrids, List.append_assoc]
    rw [readLE_exact 8 v _ (by
      have := hb v (by simp)
      norm_num
      omega)]
    simp only []
    rw [ih r (fun x hx => hb x (by simp [hx]))]
    rfl

theorem map_rrid_from_id : ∀ l : List Nat,
    (∀ x ∈ l, x ≤ 0x00FFFFFFFFFFFFFF) → l.map rrid_from = l := by
  intro l
  induction l with
  | nil => intro _; rfl
  | cons v rest ih =>
    intro h
    have hv := h v (by simp)
    simp only [List.map_cons]
    rw [ih (fun x hx => h x (by simp [hx]))]
    have : rrid_from v = v := by
      rw [rrid_from]
      by_cases hlt : v < 0x00FFFFFFFFFFFFFF
      · rw [if_pos hlt]
      · rw [if_neg hlt]
        omega
    rw [this]

theorem rcafWord_lt (cnt : Nat) (legacy : Bool) (h : cnt < 2 ^ 30) :
    rcafWord cnt legacy < 2 ^ (8 * 4) := by
  cases legacy <;> simp [rcafWord] <;> omega

theorem rcaf_count_word (cnt : Nat) (legacy : Bool) (h : cnt < 2 ^ 30) :
    rcaf_reference_count (rcafWord cnt legacy) = cnt := by
  cases legacy <;> simp [rcafWord, rcaf_reference_count] <;> omega

theorem rcaf_newfmt_word (cnt : Nat) (h : cnt < 2 ^ 30) :
    rcaf_is_new_format (rcafWord cnt false) = true := by
  simp only [rcaf_is_new_format, rcafWord, if_neg (by decide :
    ¬ (false = true)), Nat.testBit_to_div_mod, decide_eq_true_eq]
  omega

theorem zip_fst_snd_self {α β : Type} : ∀ l : List (α × β),
    (l.map Prod.fst).zip (l.map Prod.snd) = l := by
  intro l
  induction l with
  | nil => rfl
  | cons p rest ih => simp [ih]

theorem read_references_exact (refs : List (Nat × RRFlags)) (r : List Nat)
    (hcnt : refs.length < 2 ^ 30)
    (hq : ∀ q ∈ refs, canonRef q = true) :
    read_references (refTableBytes false refs ++ r) = some (refs, r) := by
  have hflagslen : (refs.map (fun q => flags_to_v2 q.2 % 256)).length
      = refs.length := by simp
  simp only [refTableBytes, if_neg (by decide : ¬ (false = true)),
    List.append_assoc, read_references]
  rw [readLE_exact 4 (rcafWord refs.length false) _
    (rcafWord_lt _ _ hcnt)]
  simp only [rcaf_count_word _ _ hcnt, rcaf_newfmt_word _ hcnt, if_pos rfl]
  have hreadn := readN_exact (refs.map (fun q => flags_to_v2 q.2 % 256))
    (rridListBytes (refs.map Prod.fst) ++ r)
  rw [hflagslen] at hreadn
  rw [hreadn]
  simp only []
  have hids : ∀ x ∈ refs.map Prod.fst, x < 2 ^ 64 := by
    intro x hx
    rcases List.mem_map.mp hx with ⟨q, hqm, hqe⟩
    have := hq q hqm
    simp only [canonRef, Bool.and_eq_true, decide_eq_true_eq] at this
    rw [← hqe]
    have h1 := this.1
    norm_num at h1 ⊢
    omega
  have hrr := readRrids_exact (refs.map Prod.fst) r hids
  rw [List.length_map] at hrr
  rw [hrr]
  simp only []
  rw [map_rrid_from_id _ (by
    intro x hx
    rcases List.mem_map.mp hx with ⟨q, hqm, hqe⟩
    have := hq q hqm
    simp only [canonRef, Bool.and_eq_true, decide_eq_true_eq] at this
    rw [← hqe]
    exact this.1)]
  have hv2 : (refs.map (fun q => flags_to_v2 q.2 % 256)).map RRFlags.V2 =
      refs.map Prod.snd := by
    rw [List.map_map]
    refine List.map_congr_left ?_
    intro q hqm
    have := hq q hqm
    simp only [canonRef, Bool.and_eq_true, decide_eq_true_eq] at this
    rcases hsnd : q.2 with β | β
    · rw [hsnd] at this
      simp at this
    · rw [hsnd] at this
      have hβ : β < 256 := by
        have h2 := this.2
        simpa using h2
      simp only [Function.comp]
      rw [hsnd]
      simp only [flags_to_v2]
      rw [Nat.mod_eq_of_lt hβ]
  rw [hv2, zip_fst_snd_self]
  rw [if_pos trivial]

theorem entryFlags_lt (res : PackageResourceBuilder) :
    entryFlags res < 2 ^ (8 * 4) := by
  have h1 : (match res.blob_decompressed_size with
      | some _ => res.blob_data.length
      | none => 0) % 2 ^ 31 < 2 ^ 31 := Nat.mod_lt _ (by norm_num)
  have h2 : (if res.blob_is_scrambled then 2 ^ 31 else 0) ≤ 2 ^ 31 := by
    rcases res.blob_is_scrambled <;> simp
  simp only [entryFlags]
  omega

theorem parseOffsetInfo_exact (e : PackageOffsetInfo) (r : List Nat)
    (h1 : e.runtime_resource_id < 2 ^ (8 * 8))
    (h2 : e.data_offset < 2 ^ (8 * 8)) (h3 : e.flags < 2 ^ (8 * 4)) :
    parseOffsetInfo (offsetEntryBytes e ++ r) = some (e, r) := by
  simp only [offsetEntryBytes, List.append_assoc, parseOffsetInfo]
  rw [readLE_exact 8 e.runtime_resource_id _ h1]
  simp only []
  rw [readLE_exact 8 e.data_offset _ h2]
  simp only []
  rw [readLE_exact 4 e.flags _ h3]

theorem parseList_offsets :
    ∀ (rs : List (Nat × PackageResourceBuilder)) (off0 : Nat) (r : List Nat),
      (∀ p ∈ rs, p.2.rrid < 2 ^ 64 ∧ p.1 = p.2.rrid) →
      off0 + (blobJoin rs).length < 2 ^ 64 →
      parseList parseOffsetInfo rs.length (finalOffsetTable rs off0 ++ r) =
        some (entriesOf rs off0, r) := by
  intro rs
  induction rs with
  | nil => intro off0 r _ _; simp [parseList, finalOffsetTable, entriesOf]
  | cons p rest ih =>
    intro off0 r hk hoff
    rcases p with ⟨k, res⟩
    obtain ⟨hk64, hkr⟩ := hk (k, res) (by simp)
    have hk64' : res.rrid < 2 ^ 64 := hk64
    have hkr' : k = res.rrid := hkr
    simp only [finalOffsetTable, List.length_cons, parseList,
      List.append_assoc]
    rw [parseOffsetInfo_exact ⟨k, off0, entryFlags res⟩ _
      (by rw [hkr']; norm_num at hk64' ⊢; omega)
      (by simp only [blobJoin, List.length_append] at hoff; norm_num; omega)
      (entryFlags_lt res)]
    simp only []
    rw [ih _ _ (fun q hq => hk q (by simp [hq]))
      (by simp only [blobJoin, List.length_append] at hoff; omega)]
    rfl

theorem parseResourceHeader_exact (res : PackageResourceBuilder)
    (r : List Nat) (hcr : canonResource res = true) :
    parseResourceHeader (metaEntryBytes false res ++ r) =
      some (parsedHeaderOf res, r) := by
  obtain ⟨ht4, -, hsys, hvid, hrefn, hrefs, hblob⟩ :=
    canonResource_parts hcr
  have hsize : prb_size res < 2 ^ (8 * 4) := by
    rw [prb_size]
    rcases hd : res.blob_decompressed_size with - | d
    · rw [hd] at hblob
      norm_num
      omega
    · rw [hd] at hblob
      norm_num
      omega
  by_cases hre : res.references = []
  · simp only [metaEntryBytes, if_pos hre, resHeaderBytes,
      List.append_assoc, parseResourceHeader]
    have hn4 := readN_exact res.resource_type
      (leBytes 4 0 ++ (leBytes 4 0 ++ (leBytes 4 (prb_size res) ++
        (leBytes 4 res.system_memory_requirement ++
          (leBytes 4 res.video_memory_requirement ++ r)))))
    rw [ht4] at hn4
    rw [hn4]
    simp only []
    rw [readLE_exact 4 0 _ (by norm_num)]
    simp only []
    rw [readLE_exact 4 0 _ (by norm_num)]
    simp only []
    rw [readLE_exact 4 (prb_size res) _ hsize]
    simp only []
    rw [readLE_exact 4 res.system_memory_requirement _ (by norm_num; omega)]
    simp only []
    rw [readLE_exact 4 res.video_memory_requirement _ (by norm_num; omega)]
    simp only []
    rw [if_neg (by omega)]
    simp [parsedHeaderOf, refChunkSize, hre]
  · have hrtb : (refTableBytes false res.references).length < 2 ^ (8 * 4) := by
      rw [length_refTableBytes]
      norm_num at hrefn ⊢
      omega
    simp only [metaEntryBytes, if_neg hre, resHeaderBytes,
      List.append_assoc, parseResourceHeader]
    have hn4 := readN_exact res.resource_type
      (leBytes 4 (refTableBytes false res.references).length ++
        (leBytes 4 0 ++ (leBytes 4 (prb_size res) ++
          (leBytes 4 res.system_memory_requirement ++
            (leBytes 4 res.video_memory_requirement ++
              (refTableBytes false res.references ++ r))))))
    rw [ht4] at hn4
    rw [hn4]
    simp only []
    rw [readLE_exact 4 (refTableBytes false res.references).length _ hrtb]
    simp only []
    rw [readLE_exact 4 0 _ (by norm_num)]
    simp only []
    rw [readLE_exact 4 (prb_size res) _ hsize]
    simp only []
    rw [readLE_exact 4 res.system_memory_requirement _ (by norm_num; omega)]
    simp only []
    rw [readLE_exact 4 res.video_memory_requirement _ (by norm_num; omega)]
    simp only []
    rw [if_pos (by
      rw [length_refTableBytes]
      omega)]
    rw [read_references_exact res.references r (by norm_num at hrefn ⊢; omega)
      hrefs]
    simp only [parsedHeaderOf, refChunkSize, if_neg hre]

theorem parseList_headers :
    ∀ (rs : List (Nat × PackageResourceBuilder)) (r : List Nat),
      (∀ p ∈ rs, canonResource p.2 = true) →
      parseList parseResourceHeader rs.length (metaTableBytes false rs ++ r) =
        some (headersOf rs, r) := by
  intro rs
  induction rs with
  | nil => intro r _; simp [parseList, metaTableBytes, headersOf]
  | cons p rest ih =>
    intro r hc
    rcases p with ⟨k, res⟩
    simp only [metaTableBytes, List.length_cons, parseList,
      List.append_assoc]
    rw [parseResourceHeader_exact res _ (hc (k, res) (by simp))]
    simp only []
    rw [ih _ (fun q hq => hc q (by simp [hq]))]
    rfl

theorem zip_mk_parsed : ∀ (rs : List (Nat × PackageResourceBuilder))
    (off0 : Nat),
    ((entriesOf rs off0).zip (headersOf rs)).map
      (fun p => ResourceInfo.mk p.1 p.2) =
      (parsedResources rs off0).map Prod.snd := by
  intro rs
  induction rs with
  | nil => intro off0; rfl
  | cons p rest ih =>
    intro off0
    rcases p with ⟨k, res⟩
    simp only [entriesOf, headersOf, parsedResources, List.zip_cons_cons,
      List.map_cons, ih]

theorem info_keys_parsed : ∀ (rs : List (Nat × PackageResourceBuilder))
    (off0 : Nat),
    ((parsedResources rs off0).map Prod.snd).map
      (fun r => r.entry.runtime_resource_id) = rs.map Prod.fst := by
  intro rs
  induction rs with
  | nil => intro off0; rfl
  | cons p rest ih =>
    intro off0
    rcases p with ⟨k, res⟩
    simp only [parsedResources, List.map_cons, ih]

theorem snd_key_parsed : ∀ (rs : List (Nat × PackageResourceBuilder))
    (off0 : Nat),
    ((parsedResources rs off0).map Prod.snd).map
      (fun r => (r.entry.runtime_resource_id, r)) =
      parsedResources rs off0 := by
  intro rs
  induction rs with
  | nil => intro off0; rfl
  | cons p rest ih =>
    intro off0
    rcases p with ⟨k, res⟩
    simp only [parsedResources, List.map_cons, ih]

theorem imfold_resources : ∀ (l : List ResourceInfo)
    (acc : List (Nat × ResourceInfo)),
    (l.map (fun r => r.entry.runtime_resource_id)).Nodup →
    (∀ r ∈ l, r.entry.runtime_resource_id ∉ acc.map Prod.fst) →
    l.foldl (fun m r => imInsert m r.entry.runtime_resource_id r) acc =
      acc ++ l.map (fun r => (r.entry.runtime_resource_id, r)) := by
  intro l
  induction l with
  | nil => intro acc _ _; simp
  | cons r0 rest ih =>
    intro acc hnd hfresh
    simp only [List.map_cons, List.nodup_cons] at hnd
    simp only [List.foldl_cons, List.map_cons]
    rw [imInsert_fresh acc _ r0 (hfresh r0 (by simp))]
    rw [ih _ hnd.2 ?_]
    · simp
    · intro r hr
      simp only [List.map_append, List.mem_append, List.map_cons,
        List.map_nil, List.mem_cons, List.not_mem_nil]
      rintro (hc | hc | hc)
      · exact hfresh r (by simp [hr]) hc
      · exact hnd.1 (hc ▸ List.mem_map_of_mem _ hr)
      · exact hc

theorem resource_parse_exact (rs : List (Nat × PackageResourceBuilder))
    (off0 : Nat) (r : List Nat)
    (hnd : (rs.map Prod.fst).Nodup)
    (hk : ∀ p ∈ rs, p.2.rrid < 2 ^ 64 ∧ p.1 = p.2.rrid)
    (hcanon : ∀ p ∈ rs, canonResource p.2 = true)
    (hoff : off0 + (blobJoin rs).length < 2 ^ 64) :
    resource_parse rs.length
      (finalOffsetTable rs off0 ++ (metaTableBytes false rs ++ r)) =
      some (parsedResources rs off0, r) := by
  simp only [resource_parse]
  have hassoc : finalOffsetTable rs off0 ++ (metaTableBytes false rs ++ r)
      = finalOffsetTable rs off0 ++ (metaTableBytes false rs ++ r) := rfl
  rw [parseList_offsets rs off0 _ hk hoff]
  simp only []
  rw [parseList_headers rs _ hcanon]
  simp only []
  rw [zip_mk_parsed]
  rw [imfold_resources _ [] (by rw [info_keys_parsed]; exact hnd)
    (by simp)]
  rw [snd_key_parsed]
  simp

theorem buildBytes_length (b : PackageBuilder) (v : PackageVersion)
    (hleg : b.use_legacy_references = false) :
    (buildBytes b v).length =
      (rpHeaderBytes (buildHeaderRecord b v 0 0)
        (patch_is_patch b.patch_id)).length +
      20 * b.resources.length + (metaTableBytes false b.resources).length +
      (blobJoin b.resources).length := by
  simp only [buildBytes, hleg, List.length_append,
    length_finalOffsetTable, length_rpHeaderBytes_record]

theorem parseHeader_exact (h : PackageHeader) (r : List Nat)
    (h1 : h.file_count < 2 ^ (8 * 4))
    (h2 : h.offset_table_size < 2 ^ (8 * 4))
    (h3 : h.metadata_table_size < 2 ^ (8 * 4)) :
    parseHeader (leBytes 4 h.file_count ++
      (leBytes 4 h.offset_table_size ++
        (leBytes 4 h.metadata_table_size ++ r))) = some (h, r) := by
  simp only [parseHeader]
  rw [readLE_exact 4 h.file_count _ h1]
  simp only []
  rw [readLE_exact 4 h.offset_table_size _ h2]
  simp only []
  rw [readLE_exact 4 h.metadata_table_size _ h3]

/-- Re-parsing a built v1 archive yields the expected package. -/
theorem from_memory_build_v1 {b : PackageBuilder}
    (hc : canonBuilder b PackageVersion.RPKGv1 = true) :
    from_memory (buildBytes b PackageVersion.RPKGv1)
      (patch_is_patch b.patch_id) =
      some (parsedPackage b PackageVersion.RPKGv1) := by
  obtain ⟨hleg, hnd, hres, hundn, hun64, hunlen, hn, hmt, htot, hpatch,
    hval⟩ := canonBuilder_parts hc
  have hbase : b.patch_id = PatchId.Base := by
    rcases hpid : b.patch_id with - | x
    · rfl
    · rw [hpid] at hpatch
      simp [canonPatch] at hpatch
  have hip : patch_is_patch b.patch_id = false := by
    rw [hbase]
    decide
  have hB : buildBytes b PackageVersion.RPKGv1 =
      magicV1 ++ (leBytes 4 b.resources.length ++
        (leBytes 4 (20 * b.resources.length) ++
          (leBytes 4 (metaTableBytes false b.resources).length ++
            (finalOffsetTable b.resources
              ((rpHeaderBytes (buildHeaderRecord b PackageVersion.RPKGv1 0 0)
                  (patch_is_patch b.patch_id)).length +
                20 * b.resources.length +
                (metaTableBytes false b.resources).length) ++
              (metaTableBytes false b.resources ++
                blobJoin b.resources))))) := by
    simp only [buildBytes, hleg, rpHeaderBytes, buildHeaderRecord,
      buildMagic, buildMetadata, hip,
      if_neg (by decide : ¬ (magicV1 = magicV2)), if_neg
        (by decide : ¬ (false = true)), List.append_assoc, List.nil_append,
      List.append_nil]
  have hLHeq : (rpHeaderBytes (buildHeaderRecord b PackageVersion.RPKGv1 0 0)
      (patch_is_patch b.patch_id)).length = 16 := by
    rw [hip]
    simp [rpHeaderBytes, buildHeaderRecord, buildMagic, buildMetadata,
      length_leBytes, if_neg (by decide : ¬ (magicV1 = magicV2)),
      magicV1]
  have hoff : (rpHeaderBytes (buildHeaderRecord b PackageVersion.RPKGv1 0 0)
        (patch_is_patch b.patch_id)).length +
      20 * b.resources.length + (metaTableBytes false b.resources).length +
      (blobJoin b.resources).length < 2 ^ 64 := by
    rw [← buildBytes_length b _ hleg]
    exact htot
  rw [from_memory, parseResourcePackage, hB]
  have h4 := readN_exact magicV1 (leBytes 4 b.resources.length ++
    (leBytes 4 (20 * b.resources.length) ++
      (leBytes 4 (metaTableBytes false b.resources).length ++
        (finalOffsetTable b.resources
          ((rpHeaderBytes (buildHeaderRecord b PackageVersion.RPKGv1 0 0)
              (patch_is_patch b.patch_id)).length +
            20 * b.resources.length +
            (metaTableBytes false b.resources).length) ++
          (metaTableBytes false b.resources ++ blobJoin b.resources)))))
  rw [show magicV1.length = 4 from rfl] at h4
  rw [h4]
  simp only [if_neg (by decide : ¬ (magicV1 = magicV2))]
  rw [parseRPRest]
  rw [parseHeader_exact ⟨b.resources.length, 20 * b.resources.length,
    (metaTableBytes false b.resources).length⟩ _
    (by norm_num; omega) (by norm_num; omega) (by norm_num; omega)]
  have hcond : ¬ (patch_is_patch b.patch_id = true) := by
    rw [hip]
    decide
  simp only [if_neg hcond]
  rw [resource_parse_exact b.resources _ _ hnd
    (fun p hp => ⟨by
      obtain ⟨hpe, hpc⟩ := hres p hp
      obtain ⟨-, h64, -⟩ := canonResource_parts hpc
      exact hpe ▸ h64, (hres p hp).1⟩)
    (fun p hp => (hres p hp).2) hoff]
  simp only []
  rw [parsedPackage]
  simp only [hip, if_neg (by decide : ¬ (false = true)),
    if_neg (by simp : ¬ (False ∧ b.unneeded_resources ≠ []))]
  rw [hip] at hB
  rw [← hB]
  rfl

theorem parseMetadata_exact (mu mc mp : Nat) (mt : ChunkTypeE)
    (ml r : List Nat) (hu : mu < 2 ^ (8 * 4)) (hcid : mc < 2 ^ (8 * 1))
    (hpid : mp < 2 ^ (8 * 1)) (hlang : ml.length = 2) :
    parseMetadata (leBytes 4 mu ++ (leBytes 1 mc ++
      ([chunkTypeByte mt] ++ (leBytes 1 mp ++ (ml ++ r))))) =
      some (⟨mu, mc, mt, mp, ml⟩, r) := by
  have hn2 := readN_exact ml r
  rw [hlang] at hn2
  rcases mt with - | -
  · simp only [parseMetadata, chunkTypeByte]
    rw [readLE_exact 4 mu _ hu]
    simp only []
    rw [readLE_exact 1 mc _ hcid]
    simp only []
    rw [show ([0] : List Nat) = leBytes 1 0 from rfl,
      readLE_exact 1 0 _ (by norm_num)]
    simp only []
    rw [readLE_exact 1 mp _ hpid]
    simp only []
    rw [hn2]
  · simp only [parseMetadata, chunkTypeByte]
    rw [readLE_exact 4 mu _ hu]
    simp only []
    rw [readLE_exact 1 mc _ hcid]
    simp only []
    rw [show ([1] : List Nat) = leBytes 1 1 from rfl,
      readLE_exact 1 1 _ (by norm_num)]
    simp only []
    rw [readLE_exact 1 mp _ hpid]
    simp only []
    rw [hn2]

theorem parseRPRest_build_nopatch (magic : List Nat)
    (metadata : Option PackageMetadata) (b : PackageBuilder) (off0 : Nat)
    (hnd : (b.resources.map Prod.fst).Nodup)
    (hres : ∀ p ∈ b.resources, p.1 = p.2.rrid ∧ canonResource p.2 = true)
    (hoff : off0 + (blobJoin b.resources).length < 2 ^ 64)
    (hn : b.resources.length < 2 ^ 26)
    (hmt : (metaTableBytes false b.resources).length < 2 ^ 32) :
    parseRPRest magic metadata
      (leBytes 4 b.resources.length ++
        (leBytes 4 (20 * b.resources.length) ++
          (leBytes 4 (metaTableBytes false b.resources).length ++
            (finalOffsetTable b.resources off0 ++
              (metaTableBytes false b.resources ++
                blobJoin b.resources))))) false =
      some ⟨none, magic, metadata,
        ⟨b.resources.length, 20 * b.resources.length,
          (metaTableBytes false b.resources).length⟩, 0, none,
        parsedResources b.resources off0⟩ := by
  rw [parseRPRest]
  rw [parseHeader_exact ⟨b.resources.length, 20 * b.resources.length,
    (metaTableBytes false b.resources).length⟩ _
    (by norm_num; omega) (by norm_num; omega) (by norm_num; omega)]
  simp only [if_neg (by decide : ¬ (false = true))]
  rw [resource_parse_exact b.resources _ _ hnd
    (fun p hp => ⟨by
      obtain ⟨hpe, hpc⟩ := hres p hp
      obtain ⟨-, h64, -⟩ := canonResource_parts hpc
      exact hpe ▸ h64, (hres p hp).1⟩)
    (fun p hp => (hres p hp).2) hoff]

theorem parseRPRest_build_patch (magic : List Nat)
    (metadata : Option PackageMetadata) (b : PackageBuilder) (off0 : Nat)
    (hnd : (b.resources.map Prod.fst).Nodup)
    (hres : ∀ p ∈ b.resources, p.1 = p.2.rrid ∧ canonResource p.2 = true)
    (hoff : off0 + (blobJoin b.resources).length < 2 ^ 64)
    (hn : b.resources.length < 2 ^ 26)
    (hmt : (metaTableBytes false b.resources).length < 2 ^ 32)
    (hunlen : b.unneeded_resources.length < 2 ^ 32)
    (hun64 : ∀ u ∈ b.unneeded_resources, u ≤ 0x00FFFFFFFFFFFFFF) :
    parseRPRest magic metadata
      (leBytes 4 b.resources.length ++
        (leBytes 4 (20 * b.resources.length) ++
          (leBytes 4 (metaTableBytes false b.resources).length ++
            (leBytes 4 b.unneeded_resources.length ++
              (rridListBytes b.unneeded_resources ++
                (finalOffsetTable b.resources off0 ++
                  (metaTableBytes false b.resources ++
                    blobJoin b.resources))))))) true =
      some ⟨none, magic, metadata,
        ⟨b.resources.length, 20 * b.resources.length,
          (metaTableBytes false b.resources).length⟩,
        b.unneeded_resources.length,
        (if b.unneeded_resources = [] then none
          else some b.unneeded_resources),
        parsedResources b.resources off0⟩ := by
  rw [parseRPRest]
  rw [parseHeader_exact ⟨b.resources.length, 20 * b.resources.length,
    (metaTableBytes false b.resources).length⟩ _
    (by norm_num; omega) (by norm_num; omega) (by norm_num; omega)]
  simp only [if_pos rfl]
  rw [readLE_exact 4 b.unneeded_resources.length _ (by norm_num; omega)]
  have hrr := readRrids_exact b.unneeded_resources
    (finalOffsetTable b.resources off0 ++
      (metaTableBytes false b.resources ++ blobJoin b.resources))
    (fun x hx => by
      have := hun64 x hx
      norm_num at this ⊢
      omega)
  rw [map_rrid_from_id _ hun64] at hrr
  simp only [if_pos trivial]
  rw [hrr]
  simp only []
  rw [resource_parse_exact b.resources _ _ hnd
    (fun p hp => ⟨by
      obtain ⟨hpe, hpc⟩ := hres p hp
      obtain ⟨-, h64, -⟩ := canonResource_parts hpc
      exact hpe ▸ h64, (hres p hp).1⟩)
    (fun p hp => (hres p hp).2) hoff]
  rcases hu : b.unneeded_resources with - | ⟨u0, urest⟩
  · simp
  · simp

theorem buildPatchByte_lt (p : PatchId) : buildPatchByte p < 2 ^ (8 * 1) := by
  rcases p with - | x <;> simp [buildPatchByte] <;> omega

theorem parseMetadata_build (b : PackageBuilder) (r : List Nat) :
    parseMetadata (leBytes 4 1 ++ (leBytes 1 (b.partition_id.index % 256) ++
      (chunkTypeByte (buildChunkType b.partition_id.part_type) ::
        (leBytes 1 (buildPatchByte b.patch_id) ++ (120 :: 120 :: r))))) =
    some (⟨1, b.partition_id.index % 256,
      buildChunkType b.partition_id.part_type,
      buildPatchByte b.patch_id, [0x78, 0x78]⟩, r) := by
  have h := parseMetadata_exact 1 (b.partition_id.index % 256)
    (buildPatchByte b.patch_id) (buildChunkType b.partition_id.part_type)
    [0x78, 0x78] r (by norm_num) (by norm_num; omega)
    (buildPatchByte_lt b.patch_id) rfl
  simpa using h

/-- Re-parsing a built v2 archive yields the expected package. -/
theorem from_memory_build_v2 {b : PackageBuilder}
    (hc : canonBuilder b PackageVersion.RPKGv2 = true) :
    from_memory (buildBytes b PackageVersion.RPKGv2)
      (patch_is_patch b.patch_id) =
      some (parsedPackage b PackageVersion.RPKGv2) := by
  obtain ⟨hleg, hnd, hres, hundn, hun64, hunlen, hn, hmt, htot, hpatch,
    hval⟩ := canonBuilder_parts hc
  have hoff : (rpHeaderBytes (buildHeaderRecord b PackageVersion.RPKGv2 0 0)
        (patch_is_patch b.patch_id)).length +
      20 * b.resources.length + (metaTableBytes false b.resources).length +
      (blobJoin b.resources).length < 2 ^ 64 := by
    rw [← buildBytes_length b _ hleg]
    exact htot
  by_cases hip : patch_is_patch b.patch_id = true
  · have hB : buildBytes b PackageVersion.RPKGv2 =
        magicV2 ++ (leBytes 4 1 ++ (leBytes 1 (b.partition_id.index % 256) ++
          (chunkTypeByte (buildChunkType b.partition_id.part_type) ::
            (leBytes 1 (buildPatchByte b.patch_id) ++
              (120 :: 120 ::
                (leBytes 4 b.resources.length ++
                  (leBytes 4 (20 * b.resources.length) ++
                    (leBytes 4 (metaTableBytes false b.resources).length ++
                      (leBytes 4 b.unneeded_resources.length ++
                        (rridListBytes b.unneeded_resources ++
                          (finalOffsetTable b.resources
                            ((rpHeaderBytes (buildHeaderRecord b
                                PackageVersion.RPKGv2 0 0)
                                (patch_is_patch b.patch_id)).length +
                              20 * b.resources.length +
                              (metaTableBytes false b.resources).length) ++
                            (metaTableBytes false b.resources ++
                              blobJoin b.resources)))))))))))) := by
      simp only [buildBytes, hleg, List.append_assoc]
      rw [rpHeaderBytes]
      simp [buildHeaderRecord, buildMagic, buildMetadata, hip,
        List.append_assoc, magicV2]
    rw [from_memory, parseResourcePackage, hB]
    have h4 : ∀ R : List Nat, readN 4 (magicV2 ++ R) = some (magicV2, R) :=
      fun R => by
        have := readN_exact magicV2 R
        rwa [show magicV2.length = 4 from rfl] at this
    rw [h4]
    simp only []
    rw [if_pos trivial]
    rw [parseMetadata_build]
    simp only []
    rw [hip]
    rw [hip] at hoff
    rw [parseRPRest_build_patch magicV2
      (some ⟨1, b.partition_id.index % 256,
        buildChunkType b.partition_id.part_type,
        buildPatchByte b.patch_id, [0x78, 0x78]⟩) b _ hnd hres hoff hn hmt
      hunlen hun64]
    rw [parsedPackage]
    simp only [hip, if_pos (rfl : (true : Bool) = true), buildMetadata,
      buildMagic]
    rcases hu : b.unneeded_resources with - | ⟨u0, urest⟩
    · rw [hip] at hB
      rw [hu] at hB
      simp only [if_neg (by simp : ¬ (True ∧ ([] : List Nat) ≠ [])),
        if_pos (rfl : ([] : List Nat) = [])]
      rw [← hB]
      rfl
    · rw [hip] at hB
      simp only [if_pos (by simp : True ∧ (u0 :: urest : List Nat) ≠ []),
        if_neg (by simp : ¬ ((u0 :: urest : List Nat) = []))]
      rw [← hu, ← hB]
      rfl
  · have hipf : patch_is_patch b.patch_id = false := by
      rcases hpp : patch_is_patch b.patch_id with - | -
      · rfl
      · rw [hpp] at hip
        simp at hip
    have hB : buildBytes b PackageVersion.RPKGv2 =
        magicV2 ++ (leBytes 4 1 ++ (leBytes 1 (b.partition_id.index % 256) ++
          (chunkTypeByte (buildChunkType b.partition_id.part_type) ::
            (leBytes 1 (buildPatchByte b.patch_id) ++
              (120 :: 120 ::
                (leBytes 4 b.resources.length ++
                  (leBytes 4 (20 * b.resources.length) ++
                    (leBytes 4 (metaTableBytes false b.resources).length ++
                      (finalOffsetTable b.resources
                        ((rpHeaderBytes (buildHeaderRecord b
                            PackageVersion.RPKGv2 0 0)
                            (patch_is_patch b.patch_id)).length +
                          20 * b.resources.length +
                          (metaTableBytes false b.resources).length) ++
                        (metaTableBytes false b.resources ++
                          blobJoin b.resources)))))))))) := by
      simp only [buildBytes, hleg, List.append_assoc]
      rw [rpHeaderBytes]
      simp [buildHeaderRecord, buildMagic, buildMetadata, hipf,
        List.append_assoc, magicV2]
    rw [from_memory, parseResourcePackage, hB]
    have h4 : ∀ R : List Nat, readN 4 (magicV2 ++ R) = some (magicV2, R) :=
      fun R => by
        have := readN_exact magicV2 R
        rwa [show magicV2.length = 4 from rfl] at this
    rw [h4]
    simp only []
    rw [if_pos trivial]
    rw [parseMetadata_build]
    simp only []
    rw [hipf]
    rw [hipf] at hoff
    rw [parseRPRest_build_nopatch magicV2
      (some ⟨1, b.partition_id.index % 256,
        buildChunkType b.partition_id.part_type,
        buildPatchByte b.patch_id, [0x78, 0x78]⟩) b _ hnd hres hoff hn hmt]
    rw [parsedPackage]
    simp only [hipf, if_neg (by decide : ¬ (false = true)),
      if_neg (by simp : ¬ (False ∧ b.unneeded_resources ≠ [])),
      buildMetadata, buildMagic]
    rw [hipf] at hB
    rw [← hB]
    rfl

theorem scrambled_entryFlags (res : PackageResourceBuilder) :
    offset_is_scrambled (entryFlags res) = res.blob_is_scrambled := by
  rcases hdec : res.blob_decompressed_size with - | d <;>
    rcases hs : res.blob_is_scrambled with - | - <;>
    simp only [offset_is_scrambled, entryFlags, hdec] <;>
    rw [hs]
  all_goals
    first
      | rw [if_neg (by decide : ¬ ((false : Bool) = true))]
      | rw [if_pos (rfl : (true : Bool) = true)]
  all_goals
    simp only [Nat.add_zero, Nat.testBit_to_div_mod,
      decide_eq_false_iff_not, decide_eq_true_eq]
  all_goals omega

theorem compsize_entryFlags (res : PackageResourceBuilder) :
    offset_compressed_size (entryFlags res) =
      (match res.blob_decompressed_size with
        | some _ => res.blob_data.length
        | none => 0) % 2 ^ 31 := by
  rcases hdec : res.blob_decompressed_size with - | d <;>
    rcases hs : res.blob_is_scrambled with - | - <;>
    simp only [offset_compressed_size, entryFlags, hdec] <;>
    rw [hs]
  all_goals
    first
      | rw [if_neg (by decide : ¬ ((false : Bool) = true))]
      | rw [if_pos (rfl : (true : Bool) = true)]
  all_goals omega

theorem foldl_prb_refs : ∀ (l : List (Nat × RRFlags))
    (r0 : PackageResourceBuilder),
    l.foldl (fun rb q => prb_with_reference rb q.1 q.2) r0 =
      { r0 with references := r0.references ++ l } := by
  intro l
  induction l with
  | nil => intro r0; simp
  | cons q rest ih =>
    intro r0
    rw [List.foldl_cons, ih]
    simp only [prb_with_reference]
    simp [List.append_assoc]

theorem foldl_unneeded : ∀ (l : List Nat) (bb : PackageBuilder),
    l.Nodup → (∀ x ∈ l, x ∉ bb.unneeded_resources) →
    l.foldl pb_with_unneeded_resource bb =
      { bb with unneeded_resources := bb.unneeded_resources ++ l } := by
  intro l
  induction l with
  | nil => intro bb _ _; simp
  | cons x rest ih =>
    intro bb hnd hfresh
    simp only [List.nodup_cons] at hnd
    simp only [List.foldl_cons, pb_with_unneeded_resource, isetInsert,
      if_neg (hfresh x (by simp))]
    rw [ih _ hnd.2 ?_]
    · simp
    · intro y hy
      simp only [List.mem_append, List.mem_singleton, not_or]
      exact ⟨hfresh y (by simp [hy]), fun hc => hnd.1 (hc ▸ hy)⟩

theorem poi_compressed_size_zero (k off f : Nat)
    (hx : offset_compressed_size f = 0) :
    poi_compressed_size ⟨k, off, f⟩ = none := by
  simp only [poi_compressed_size, hx]

theorem poi_compressed_size_pos (k off f : Nat)
    (hx : 0 < offset_compressed_size f) :
    poi_compressed_size ⟨k, off, f⟩ = some (offset_compressed_size f) := by
  rcases hv : offset_compressed_size f with - | n
  · omega
  · simp only [poi_compressed_size, hv]

/-- Duplicating one re-parsed resource recovers the original resource
builder exactly. -/
theorem dupResource_parsed (data : List Nat) (k off0 : Nat)
    (res : PackageResourceBuilder) (tail : List Nat)
    (hcr : canonResource res = true) (hk : k = res.rrid)
    (hdata : data.drop off0 = res.blob_data ++ tail)
    (hoffle : off0 ≤ data.length) :
    dupResource data k ⟨⟨k, off0, entryFlags res⟩, parsedHeaderOf res⟩ =
      some res := by
  obtain ⟨ht4, -, -, -, -, -, hblob⟩ := canonResource_parts hcr
  have hdlen2 : data.length - off0 =
      res.blob_data.length + tail.length := by
    have h1 : (data.drop off0).length = data.length - off0 := by simp
    rw [hdata] at h1
    simp at h1
    omega
  rcases hdec : res.blob_decompressed_size with - | d
  · rw [hdec] at hblob
    have hcz : offset_compressed_size (entryFlags res) = 0 := by
      rw [compsize_entryFlags, hdec]
      simp
    simp only [dupResource, parsedHeaderOf]
    rw [poi_compressed_size_zero k off0 (entryFlags res) hcz]
    simp only [prb_size, hdec]
    rw [if_pos (by omega)]
    rw [hdata, List.take_left]
    simp only [from_compressed_memory]
    rw [if_neg (by omega)]
    simp only [resource_type_to_bytes, dataType, List.length_reverse,
      if_pos ht4, List.reverse_reverse]
    simp only [prb_with_memory_requirements, foldl_prb_refs]
    rw [scrambled_entryFlags, hk, ← hdec]
    rfl
  · rw [hdec] at hblob
    have hcs : offset_compressed_size (entryFlags res) =
        res.blob_data.length := by
      rw [compsize_entryFlags, hdec]
      simp only []
      exact Nat.mod_eq_of_lt hblob.2.1
    simp only [dupResource, parsedHeaderOf]
    rw [poi_compressed_size_pos k off0 (entryFlags res) (by omega)]
    simp only [hcs]
    rw [if_pos (by omega)]
    rw [hdata, List.take_left]
    simp only [from_compressed_memory]
    rw [if_neg (by omega)]
    simp only [resource_type_to_bytes, dataType, List.length_reverse,
      if_pos ht4, List.reverse_reverse]
    simp only [prb_with_memory_requirements, foldl_prb_refs]
    rw [scrambled_entryFlags, hk]
    simp only [prb_size, hdec]
    rw [← hdec]
    rfl

/-- The duplication loop over the re-parsed resource map recovers the
original resource list. -/
theorem dupResources_parsed :
    ∀ (rs : List (Nat × PackageResourceBuilder)) (off0 : Nat)
      (data : List Nat) (acc : PackageBuilder),
      (∀ p ∈ rs, p.1 = p.2.rrid ∧ canonResource p.2 = true) →
      data.drop off0 = blobJoin rs →
      off0 ≤ data.length →
      (∀ p ∈ rs, p.1 ∉ acc.resources.map Prod.fst) →
      (rs.map Prod.fst).Nodup →
      dupResources data (parsedResources rs off0) acc =
        some { acc with resources := acc.resources ++ rs } := by
  intro rs
  induction rs with
  | nil =>
    intro off0 data acc _ _ _ _ _
    simp [parsedResources, dupResources]
  | cons p rest ih =>
    intro off0 data acc hres hdata hoffle hfresh hnd
    rcases p with ⟨k, res⟩
    obtain ⟨hk0, hcr⟩ := hres (k, res) (by simp)
    have hk : k = res.rrid := hk0
    simp only [List.map_cons, List.nodup_cons] at hnd
    simp only [parsedResources, dupResources]
    rw [dupResource_parsed data k off0 res (blobJoin rest) hcr hk
      (by rw [hdata]; rfl) hoffle]
    simp only []
    have hdroplen : (data.drop off0).length = data.length - off0 := by simp
    have hlens : data.length - off0 =
        res.blob_data.length + (blobJoin rest).length := by
      rw [hdata] at hdroplen
      simp only [blobJoin, List.length_append] at hdroplen
      omega
    have hfr : res.rrid ∉ acc.resources.map Prod.fst :=
      hk ▸ hfresh (k, res) (by simp)
    simp only [pb_with_resource]
    rw [imInsert_fresh acc.resources res.rrid res hfr]
    have hdata2 : data.drop (off0 + res.blob_data.length) = blobJoin rest := by
      have hdd : data.drop (off0 + res.blob_data.length) =
          (data.drop off0).drop res.blob_data.length := by
        rw [List.drop_drop, Nat.add_comm]
      rw [hdd, hdata]
      show (res.blob_data ++ blobJoin rest).drop res.blob_data.length = _
      rw [List.drop_left]
    have hih := ih (off0 + res.blob_data.length) data
      { acc with resources := acc.resources ++ [(res.rrid, res)] }
      (fun q hq => hres q (by simp [hq])) hdata2 (by omega)
      ?_ hnd.2
    · rw [hih]
      simp only [List.append_assoc, List.singleton_append]
      rw [hk]
    · intro q hq
      simp only [List.map_append, List.mem_append, List.map_cons,
        List.map_nil, List.mem_cons, List.not_mem_nil]
      rintro (hc | hc | hc)
      · exact hfresh q (by simp [hq]) hc
      · exact hnd.1 (by rw [← hk] at hc; exact hc ▸ List.mem_map_of_mem _ hq)
      · exact hc

theorem buildBytes_drop_blob (b : PackageBuilder) (v : PackageVersion)
    (hleg : b.use_legacy_references = false) :
    (buildBytes b v).drop
        ((rpHeaderBytes (buildHeaderRecord b v 0 0)
            (patch_is_patch b.patch_id)).length +
          20 * b.resources.length +
          (metaTableBytes false b.resources).length) =
      blobJoin b.resources ∧
    (rpHeaderBytes (buildHeaderRecord b v 0 0)
        (patch_is_patch b.patch_id)).length +
      20 * b.resources.length +
      (metaTableBytes false b.resources).length ≤
      (buildBytes b v).length := by
  have hpre : buildBytes b v =
      (rpHeaderBytes
          (buildHeaderRecord b v (20 * b.resources.length)
            (metaTableBytes b.use_legacy_references b.resources).length)
          (patch_is_patch b.patch_id) ++
        finalOffsetTable b.resources
          ((rpHeaderBytes (buildHeaderRecord b v 0 0)
              (patch_is_patch b.patch_id)).length +
            20 * b.resources.length +
            (metaTableBytes b.use_legacy_references b.resources).length) ++
        metaTableBytes b.use_legacy_references b.resources) ++
      blobJoin b.resources := by
    simp only [buildBytes, List.append_assoc]
  have hlen : (rpHeaderBytes
          (buildHeaderRecord b v (20 * b.resources.length)
            (metaTableBytes b.use_legacy_references b.resources).length)
          (patch_is_patch b.patch_id) ++
        finalOffsetTable b.resources
          ((rpHeaderBytes (buildHeaderRecord b v 0 0)
              (patch_is_patch b.patch_id)).length +
            20 * b.resources.length +
            (metaTableBytes b.use_legacy_references b.resources).length) ++
        metaTableBytes b.use_legacy_references b.resources).length =
      (rpHeaderBytes (buildHeaderRecord b v 0 0)
          (patch_is_patch b.patch_id)).length +
        20 * b.resources.length +
        (metaTableBytes false b.resources).length := by
    simp only [List.length_append, length_rpHeaderBytes_record,
      length_finalOffsetTable, hleg]
  constructor
  · rw [hpre, List.drop_left' hlen]
  · rw [hpre, List.length_append, hlen]
    omega

/-- `from_resource_package` on a re-parsed v1 archive: v1 carries no
metadata, so the duplicate gets the default partition and `Base`. -/
theorem frp_parsed_v1 {b : PackageBuilder}
    (hc : canonBuilder b PackageVersion.RPKGv1 = true) :
    from_resource_package (parsedPackage b PackageVersion.RPKGv1) =
      some ⟨⟨PartitionType.Standard, 0⟩, PatchId.Base, false,
        b.resources, []⟩ := by
  obtain ⟨hleg, hnd, hres, hundn, hun64, hunlen, hn, hmt, htot, hpatch,
    hval⟩ := canonBuilder_parts hc
  have hbase : b.patch_id = PatchId.Base := by
    rcases hpid : b.patch_id with - | x
    · rfl
    · rw [hpid] at hpatch
      simp [canonPatch] at hpatch
  have hip : patch_is_patch b.patch_id = false := by
    rw [hbase]; decide
  obtain ⟨hdrop, hoffle⟩ := buildBytes_drop_blob b PackageVersion.RPKGv1 hleg
  rw [hip] at hdrop hoffle
  simp only [from_resource_package, parsedPackage, buildMetadata, hip]
  rw [dupResources_parsed b.resources _ _ _ hres hdrop hoffle
    (by intro p hp; simp) hnd]
  simp only [unneeded_resource_ids]
  rw [if_neg (by rintro ⟨h1, -⟩; simp at h1)]
  simp only [List.foldl_nil, List.nil_append]

/-- The partition type `from_resource_package` reconstructs from the
written chunk type (`Dlc` and the language kinds collapse to
`Standard`). -/
def rebuiltPartitionType (pt : PartitionType) : PartitionType :=
  match buildChunkType pt with
  | ChunkTypeE.Standard => PartitionType.Standard
  | ChunkTypeE.Addon => PartitionType.Addon

/-- The patch id `from_resource_package` reconstructs from the written
patch byte. -/
def rebuiltPatchId (p : PatchId) : PatchId :=
  match buildPatchByte p with
  | 0 => PatchId.Base
  | x => PatchId.Patch x

theorem unneeded_ids_parsed (b : PackageBuilder) (v : PackageVersion)
    (hval : b.unneeded_resources = [] ∨ patch_is_patch b.patch_id = true) :
    unneeded_resource_ids (parsedPackage b v) = b.unneeded_resources := by
  simp only [unneeded_resource_ids, parsedPackage]
  by_cases hip : patch_is_patch b.patch_id = true
  · by_cases hl : b.unneeded_resources = []
    · rw [if_neg (by rintro ⟨-, h2⟩; exact h2 hl)]
      exact hl.symm
    · rw [if_pos ⟨hip, hl⟩]
  · rw [if_neg (by rintro ⟨h1, -⟩; exact hip h1)]
    exact (hval.resolve_right hip).symm

/-- `from_resource_package` on a re-parsed v2 archive reconstructs the
builder up to the metadata truncations. -/
theorem frp_parsed_v2 {b : PackageBuilder}
    (hc : canonBuilder b PackageVersion.RPKGv2 = true) :
    from_resource_package (parsedPackage b PackageVersion.RPKGv2) =
      some ⟨⟨rebuiltPartitionType b.partition_id.part_type,
          b.partition_id.index % 256⟩,
        rebuiltPatchId b.patch_id, false, b.resources,
        b.unneeded_resources⟩ := by
  obtain ⟨hleg, hnd, hres, hundn, hun64, hunlen, hn, hmt, htot, hpatch,
    hval⟩ := canonBuilder_parts hc
  obtain ⟨hdrop, hoffle⟩ := buildBytes_drop_blob b PackageVersion.RPKGv2 hleg
  have hsrc : (parsedPackage b PackageVersion.RPKGv2).source =
      some (RPSource.memory (buildBytes b PackageVersion.RPKGv2)) := rfl
  have hmd : (parsedPackage b PackageVersion.RPKGv2).metadata =
      some ⟨1, b.partition_id.index % 256,
        buildChunkType b.partition_id.part_type,
        buildPatchByte b.patch_id, [0x78, 0x78]⟩ := rfl
  have hrs : (parsedPackage b PackageVersion.RPKGv2).resources =
      parsedResources b.resources
        ((rpHeaderBytes
            (buildHeaderRecord b PackageVersion.RPKGv2 0 0)
            (patch_is_patch b.patch_id)).length +
          20 * b.resources.length +
          (metaTableBytes false b.resources).length) := rfl
  simp only [from_resource_package]
  rw [hsrc, hmd, hrs]
  simp only []
  rw [dupResources_parsed b.resources _ _ _ hres hdrop hoffle
    (by intro p hp; simp) hnd]
  simp only []
  rw [unneeded_ids_parsed b PackageVersion.RPKGv2 hval]
  rw [foldl_unneeded b.unneeded_resources _ hundn (by intro x hx; simp)]
  simp only [List.nil_append]
  rcases hpt : b.partition_id.part_type with _ | _ | _ | _ | _ <;>
    rcases hp : b.patch_id with _ | x
  all_goals rfl

/-- `buildBytes` depends on the builder only through these
components. -/
theorem buildBytes_congr {b b2 : PackageBuilder} (v : PackageVersion)
    (h1 : patch_is_patch b2.patch_id = patch_is_patch b.patch_id)
    (h2 : buildMetadata b2 v = buildMetadata b v)
    (h3 : b2.use_legacy_references = b.use_legacy_references)
    (h4 : b2.resources = b.resources)
    (h5 : b2.unneeded_resources = b.unneeded_resources) :
    buildBytes b2 v = buildBytes b v := by
  simp only [buildBytes, buildHeaderRecord, h1, h2, h3, h4, h5]

theorem buildChunkType_rebuilt (pt : PartitionType) :
    buildChunkType (rebuiltPartitionType pt) = buildChunkType pt := by
  cases pt <;> rfl

theorem rebuiltPatchId_facts (p : PatchId)
    (h : canonPatch PackageVersion.RPKGv2 p = true) :
    buildPatchByte (rebuiltPatchId p) = buildPatchByte p ∧
    patch_is_patch (rebuiltPatchId p) = patch_is_patch p ∧
    canonPatch PackageVersion.RPKGv2 (rebuiltPatchId p) = true := by
  rcases p with _ | x
  · exact ⟨rfl, rfl, rfl⟩
  · have hx : x % 256 ≠ 0 := by simpa [canonPatch] using h
    rcases hxe : x % 256 with _ | y
    · exact absurd hxe hx
    · have hlt : y + 1 < 256 := by
        have := Nat.mod_lt x (show 0 < 256 by norm_num)
        omega
      refine ⟨?_, ?_, ?_⟩
      · simp only [rebuiltPatchId, buildPatchByte, hxe]
        exact Nat.mod_eq_of_lt hlt
      · simp only [rebuiltPatchId, buildPatchByte, hxe]
        rfl
      · simp only [rebuiltPatchId, buildPatchByte, hxe, canonPatch]
        simp [Nat.mod_eq_of_lt hlt]

theorem rebuilt_bytes_v1 {b : PackageBuilder}
    (hc : canonBuilder b PackageVersion.RPKGv1 = true) :
    buildBytes ⟨⟨PartitionType.Standard, 0⟩, PatchId.Base, false,
        b.resources, []⟩ PackageVersion.RPKGv1 =
      buildBytes b PackageVersion.RPKGv1 := by
  obtain ⟨hleg, -, -, -, -, -, -, -, -, hpatch, hval⟩ :=
    canonBuilder_parts hc
  have hbase : b.patch_id = PatchId.Base := by
    rcases hpid : b.patch_id with - | x
    · rfl
    · rw [hpid] at hpatch
      simp [canonPatch] at hpatch
  have hunb : b.unneeded_resources = [] := by
    rcases hval with h | h
    · exact h
    · rw [hbase] at h
      simp [patch_is_patch, patch_is_base] at h
  exact buildBytes_congr PackageVersion.RPKGv1 (by rw [hbase]) rfl
    hleg.symm rfl hunb.symm

theorem rebuilt_bytes_v2 {b : PackageBuilder}
    (hc : canonBuilder b PackageVersion.RPKGv2 = true) :
    buildBytes ⟨⟨rebuiltPartitionType b.partition_id.part_type,
        b.partition_id.index % 256⟩,
        rebuiltPatchId b.patch_id, false, b.resources,
        b.unneeded_resources⟩ PackageVersion.RPKGv2 =
      buildBytes b PackageVersion.RPKGv2 := by
  obtain ⟨hleg, -, -, -, -, -, -, -, -, hpatch, -⟩ :=
    canonBuilder_parts hc
  obtain ⟨hbyte, hpp, -⟩ := rebuiltPatchId_facts b.patch_id hpatch
  refine buildBytes_congr PackageVersion.RPKGv2 hpp ?_ hleg.symm rfl rfl
  simp only [buildMetadata, buildChunkType_rebuilt, hbyte,
    Nat.mod_mod_of_dvd _ dvd_rfl]

/-- The v1 duplicate builder is itself canonical. -/
theorem rebuilt_canon_v1 {b : PackageBuilder}
    (hc : canonBuilder b PackageVersion.RPKGv1 = true) :
    canonBuilder ⟨⟨PartitionType.Standard, 0⟩, PatchId.Base, false,
        b.resources, []⟩ PackageVersion.RPKGv1 = true := by
  obtain ⟨-, hnd, hres, -, -, -, hn, hmt, htot, -, -⟩ :=
    canonBuilder_parts hc
  simp only [canonBuilder, Bool.and_eq_true, decide_eq_true_eq,
    List.all_eq_true, Bool.or_eq_true, Bool.not_eq_true']
  refine ⟨⟨⟨⟨⟨⟨⟨⟨⟨⟨trivial, hnd⟩, ?_⟩, List.nodup_nil⟩, ?_⟩, ?_⟩, hn⟩,
    hmt⟩, ?_⟩, by decide⟩, Or.inl trivial⟩
  · intro p hp
    obtain ⟨h1, h2⟩ := hres p hp
    simp [h1, h2]
  · intro u hu
    exact absurd hu (List.not_mem_nil u)
  · norm_num
  · rw [rebuilt_bytes_v1 hc]
    exact htot

/-- The v2 duplicate builder is itself canonical. -/
theorem rebuilt_canon_v2 {b : PackageBuilder}
    (hc : canonBuilder b PackageVersion.RPKGv2 = true) :
    canonBuilder ⟨⟨rebuiltPartitionType b.partition_id.part_type,
        b.partition_id.index % 256⟩,
        rebuiltPatchId b.patch_id, false, b.resources,
        b.unneeded_resources⟩ PackageVersion.RPKGv2 = true := by
  obtain ⟨-, hnd, hres, hundn, hun64, hunlen, hn, hmt, htot, hpatch,
    hval⟩ := canonBuilder_parts hc
  obtain ⟨-, hpp, hcp⟩ := rebuiltPatchId_facts b.patch_id hpatch
  simp only [canonBuilder, Bool.and_eq_true, decide_eq_true_eq,
    List.all_eq_true, Bool.or_eq_true, Bool.not_eq_true']
  refine ⟨⟨⟨⟨⟨⟨⟨⟨⟨⟨trivial, hnd⟩, ?_⟩, hundn⟩, hun64⟩, hunlen⟩, hn⟩,
    hmt⟩, ?_⟩, hcp⟩, ?_⟩
  · intro p hp
    obtain ⟨h1, h2⟩ := hres p hp
    simp [h1, h2]
  · rw [rebuilt_bytes_v2 hc]
    exact htot
  · rcases hval with h | h
    · exact Or.inl h
    · exact Or.inr (by rw [hpp]; exact h)

/-- Claim C1: byte-identical duplication round-trip, corrected to the
builder-canonical domain. For every canonical builder (new-format
references, distinct sub-`u64` rrids, 4-byte type tags, verbatim
in-memory blobs within their field widths, a patch id whose metadata
byte survives truncation, unneeded ids only on patches), building
produces bytes `B`; `from_memory` parses `B`; `from_resource_package`
duplicates the parsed package; and rebuilding the duplicate with the
same version returns exactly `B`. The unrestricted claim over all
parsed archives is refuted by `c1_counterexample`. -/
theorem c1_duplicate_roundtrip (b : PackageBuilder) (v : PackageVersion)
    (hc : canonBuilder b v = true) :
    ∃ (B : List Nat) (P : ResourcePackage) (b2 : PackageBuilder),
      build_in_memory b v = some B ∧
      from_memory B (patch_is_patch b.patch_id) = some P ∧
      from_resource_package P = some b2 ∧
      build_in_memory b2 v = some B := by
  cases v with
  | RPKGv1 =>
    refine ⟨buildBytes b PackageVersion.RPKGv1,
      parsedPackage b PackageVersion.RPKGv1,
      ⟨⟨PartitionType.Standard, 0⟩, PatchId.Base, false, b.resources, []⟩,
      build_success hc, from_memory_build_v1 hc, frp_parsed_v1 hc, ?_⟩
    rw [build_success (rebuilt_canon_v1 hc), rebuilt_bytes_v1 hc]
  | RPKGv2 =>
    refine ⟨buildBytes b PackageVersion.RPKGv2,
      parsedPackage b PackageVersion.RPKGv2,
      ⟨⟨rebuiltPartitionType b.partition_id.part_type,
        b.partition_id.index % 256⟩, rebuiltPatchId b.patch_id, false,
        b.resources, b.unneeded_resources⟩,
      build_success hc, from_memory_build_v2 hc, frp_parsed_v2 hc, ?_⟩
    rw [build_success (rebuilt_canon_v2 hc), rebuilt_bytes_v2 hc]

/-- A concrete canonical builder: v2 Addon patch archive with one
compressed scrambled resource carrying a reference, and one unneeded
id. -/
def c1WitnessBuilder : PackageBuilder :=
  ⟨⟨PartitionType.Addon, 300⟩, PatchId.Patch 3, false,
    [(5, ⟨5, [9, 8, 7], some 10, true, [65, 66, 67, 68], 100, 200,
      [(2, RRFlags.V2 99)]⟩)],
    [4]⟩

set_option maxRecDepth 10000 in
theorem c1_duplicate_roundtrip_witness :
    canonBuilder c1WitnessBuilder PackageVersion.RPKGv2 = true ∧
    ∃ (B : List Nat) (P : ResourcePackage) (b2 : PackageBuilder),
      build_in_memory c1WitnessBuilder PackageVersion.RPKGv2 = some B ∧
      from_memory B (patch_is_patch c1WitnessBuilder.patch_id) = some P ∧
      from_resource_package P = some b2 ∧
      build_in_memory b2 PackageVersion.RPKGv2 = some B :=
  ⟨by decide, c1_duplicate_roundtrip c1WitnessBuilder
    PackageVersion.RPKGv2 (by decide)⟩

/-- A 16-byte v1 archive whose header claims `offset_table_size = 1`:
it parses (the size fields are never validated) but the rebuilt
duplicate writes the measured size `0`, so the round-trip is not
byte-identical. -/
def c1BadBytes : List Nat :=
  [0x47, 0x4B, 0x50, 0x52, 0, 0, 0, 0, 1, 0, 0, 0, 0, 0, 0, 0]

set_option maxRecDepth 10000 in
theorem c1_counterexample :
    ∃ (P : ResourcePackage) (b2 : PackageBuilder) (B1 : List Nat),
      from_memory c1BadBytes false = some P ∧
      from_resource_package P = some b2 ∧
      build_in_memory b2 PackageVersion.RPKGv1 = some B1 ∧
      B1 ≠ c1BadBytes := by
  refine ⟨⟨some (RPSource.memory c1BadBytes), magicV1, none, ⟨0, 1, 0⟩,
      0, none, []⟩,
    ⟨⟨PartitionType.Standard, 0⟩, PatchId.Base, false, [], []⟩,
    [0x47, 0x4B, 0x50, 0x52, 0, 0, 0, 0, 0, 0, 0, 0, 0, 0, 0, 0],
    by decide, by decide, by decide, by decide⟩
